import Mathlib

/-!
Flat `key = value` configuration parsers: a shallow embedding.

The repository holds five variants of one parser (`cfg.h`, `cfg2-nomap.h`,
`cfg3-slices.h`, `cfg4-cstrings.h`, `cfg5-noalloc.h`).  This development embeds them as
Lean functions and proves properties of the embedded code.

Conventions of the embedding:

* a byte (`char`) is a natural number, its value as `unsigned char`; a file content, a
  `std::string` and a buffer are `List Nat`;
* the table `SPACES_LOOKUP` of `cfg5-noalloc.h` is read at the value of the byte; the
  read at a plain `char` that may be signed is embedded apart, in `Cfg5.PlainChar`, and
  agrees with it on bytes below 128;
* a pointer into the single buffer of `cfg5-noalloc.h` is an offset into `storage`
  (that is, `storage.data() + offset`);
* a failed `assert` makes a function return `none` (or a `Fault`);
* functions of the C and C++ standard libraries (`strtok`, `strlen`, `strcmp`,
  `std::find_first_of`, `std::sort`, `std::lower_bound`, `std::getline`, `std::string`
  members) are modelled from their documented contracts.
-/

/-! ## Standard-library functions on a byte buffer -/

/-- The function `strlen(p)`: the number of bytes before the first zero byte at or after
offset `p`. -/
def strlen (mem : List Nat) (p : Nat) : Nat :=
  ((mem.drop p).takeWhile (fun c => c != 0)).length

/-- The C string that starts at offset `p`: the bytes before the first zero byte. -/
def cstr (mem : List Nat) (p : Nat) : List Nat :=
  (mem.drop p).takeWhile (fun c => c != 0)

/-- The function `strspn(p, delim)`: the length of the longest prefix of the C string at
`p` made of bytes of `delim`. -/
def strspn (mem : List Nat) (p : Nat) (delim : List Nat) : Nat :=
  ((mem.drop p).takeWhile (fun c => c != 0 && delim.contains c)).length

/-- The function `strcspn(p, delim)`: the length of the longest prefix of the C string at
`p` made of bytes that are not in `delim`. -/
def strcspn (mem : List Nat) (p : Nat) (delim : List Nat) : Nat :=
  ((mem.drop p).takeWhile (fun c => c != 0 && !delim.contains c)).length

/-- The function `strtok`, with its hidden static pointer made explicit as the argument
`s` (the position at which scanning resumes).  It skips leading delimiters; at the end of
the string it returns no token; otherwise it finds the end of the token, overwrites the
delimiter that follows it (if any) with a zero byte, and returns the token's start, the
updated buffer and the new resume position. -/
def strtok (mem : List Nat) (s : Nat) (delim : List Nat) :
    Option (Nat × List Nat) × Nat :=
  let s1 := s + strspn mem s delim
  if mem.getD s1 0 == 0 then (none, s1)
  else
    let e := s1 + strcspn mem s1 delim
    if mem.getD e 0 == 0 then (some (s1, mem), e)
    else (some (s1, mem.set e 0), e + 1)

/-- The comparison of `strcmp` on two byte strings, each taken up to (not including) its
zero terminator: the difference of the first two bytes that differ, the terminator
counting as byte 0. -/
def strcmpL : List Nat → List Nat → Int
  | [], [] => 0
  | [], b :: _ => 0 - (b : Int)
  | a :: _, [] => (a : Int)
  | a :: as, b :: bs => if a = b then strcmpL as bs else (a : Int) - (b : Int)

/-- The function `strcmp(p, q)` on two C strings stored in `mem`. -/
def strcmp (mem : List Nat) (p q : Nat) : Int :=
  strcmpL (cstr mem p) (cstr mem q)

/-- The function `std::find_first_of(first, last, s_first, s_last)` on a byte range of
`mem`: the first position in `[first, last)` whose byte is in `set`, or `last`. -/
def find_first_of (mem : List Nat) (first last : Nat) (set : List Nat) : Nat :=
  first + (((mem.drop first).take (last - first)).takeWhile (fun c => !set.contains c)).length

/-- The function `std::sort(first, last, comp)`: a permutation of the range in which no
element is `comp`-less than an element before it.  The model is insertion sort; for a
range without `comp`-equivalent elements every sorting algorithm gives the same result. -/
def std_sort {α : Type} (comp : α → α → Bool) (l : List α) : List α :=
  l.insertionSort (fun a b => comp b a = false)

/-- The function `std::lower_bound(first, last, value, comp)` as an index: the position of
the first element for which `comp(element, value)` is false (its contract on a range
partitioned with respect to `comp(·, value)`, as every sorted range is). -/
def std_lower_bound {α β : Type} (comp : α → β → Bool) (l : List α) (value : β) : Nat :=
  (l.takeWhile (fun a => comp a value)).length

deriving instance DecidableEq for Except

/-- What makes an operation produce no result. -/
inductive Fault where
  /-- An `assert` of the source failed. -/
  | assertion
  /-- An element was read through an iterator that is not dereferenceable. -/
  | outOfBounds
  deriving DecidableEq, Repr

/-- The strings of a list of entries (pairs of pointers), read from the buffer `mem`. -/
def entryStrings (mem : List Nat) (es : List (Nat × Nat)) : List (List Nat × List Nat) :=
  es.map (fun e => (cstr mem e.1, cstr mem e.2))

/-- The buffer `S'` is the buffer `S` with some bytes at positions `≥ p` overwritten by
zero. -/
def ZeroedFrom (p : Nat) (S S' : List Nat) : Prop :=
  S'.length = S.length ∧ ∀ i, S'.getD i 0 = S.getD i 0 ∨ (p ≤ i ∧ S'.getD i 0 = 0)

/-- Byte-wise lexicographic order on byte strings (bytes compared as unsigned values). -/
def lexLt (a b : List Nat) : Prop := List.Lex (· < ·) a b

instance : DecidableRel lexLt := fun a b => by unfold lexLt; infer_instance

/-- The order in which `std::sort` leaves two entries, on their strings: the key of the
second is not below the key of the first. -/
def keyLE (x y : List Nat × List Nat) : Prop := ¬ lexLt y.1 x.1

instance : DecidableRel keyLE := fun x y => by unfold keyLE; infer_instance

/-! ## `cfg5-noalloc.h` -/

namespace Cfg5

/-- The string constant `SPACES = " \t"`. -/
def SPACES : List Nat := [32, 9]

/-- The string constant `COMMENTS = ";#"`. -/
def COMMENTS : List Nat := [59, 35]

/-- The string constant `SEPARATORS = "="`. -/
def SEPARATORS : List Nat := [61]

/-- The table `bool SPACES_LOOKUP[256]`: 33 initialisers, the rest zero-initialised. -/
def SPACES_LOOKUP : List Bool :=
  [false, false, false, false, false, false, false, false,
   false, true,  false, false, false, false, false, false,
   false, false, false, false, false, false, false, false,
   false, false, false, false, false, false, false, false,
   true] ++ List.replicate (256 - 33) false

/-- The expression `SPACES_LOOKUP[c]` for a byte `c`, the index being the value of the
byte as `unsigned char` (0 to 255), the range the table is declared for.  This is the
read of the source where plain `char` is unsigned, and for bytes below 128 everywhere;
the read with the index type of the source is `spacesLookupAt (charIndex signedChar c)`
below. -/
def spacesLookup (c : Nat) : Bool := SPACES_LOOKUP.getD c false

/-- The index that the byte `c` gives in `SPACES_LOOKUP[slice.front()]`: `front()` returns
a plain `char`, which is converted to the index type with its sign.  Where plain `char` is
signed (`signedChar`), a byte of 128 or more is a negative value. -/
def charIndex (signedChar : Bool) (c : Nat) : Int :=
  if signedChar && decide (128 ≤ c) then (c : Int) - 256 else (c : Int)

/-- The read `SPACES_LOOKUP[i]`: the element `i` of the 256 elements of the table, and a
read outside the table for any other index. -/
def spacesLookupAt (i : Int) : Except Fault Bool :=
  if 0 ≤ i ∧ i < 256 then .ok (SPACES_LOOKUP.getD i.toNat false)
  else .error Fault.outOfBounds

/-- The bytes that index inside `SPACES_LOOKUP`: all 256 where plain `char` is unsigned,
those below 128 where it is signed. -/
def charBound (signedChar : Bool) : Nat := if signedChar then 128 else 256

/-- The class `Slice<char>`: a pointer (an offset into the buffer) and a size. -/
structure Slice where
  ptr : Nat
  size : Nat
  deriving DecidableEq, Repr

namespace Slice

/-- The method `subslice(start, size)`, with its assertion `start + size <= size_`.  The
sum is computed in `size_t`, taken as 64 bits wide. -/
def subslice (s : Slice) (start size : Nat) : Option Slice :=
  if (start + size) % 2 ^ 64 ≤ s.size then some ⟨s.ptr + start, size⟩ else none

/-- The method `subslice(start)`, with its assertion `start <= size_`. -/
def subsliceFrom (s : Slice) (start : Nat) : Option Slice :=
  if start ≤ s.size then some ⟨s.ptr + start, s.size - start⟩ else none

/-- The method `empty()`. -/
def empty (s : Slice) : Bool := s.size == 0

/-- The method `front()`, with its assertion `!empty()`. -/
def front (mem : List Nat) (s : Slice) : Option Nat :=
  if s.empty then none else some (mem.getD s.ptr 0)

/-- The method `back()`, with its assertion `!empty()`. -/
def back (mem : List Nat) (s : Slice) : Option Nat :=
  if s.empty then none else some (mem.getD (s.ptr + s.size - 1) 0)

/-- The method `pop_front()`, with its assertion `!empty()`. -/
def pop_front (s : Slice) : Option Slice :=
  if s.empty then none else some ⟨s.ptr + 1, s.size - 1⟩

/-- The method `pop_back()`, with its assertion `!empty()`. -/
def pop_back (s : Slice) : Option Slice :=
  if s.empty then none else some ⟨s.ptr, s.size - 1⟩

/-- The method `end()`: the pointer after the last element. -/
def end_ (s : Slice) : Nat := s.ptr + s.size

/-- The bytes a slice views. -/
def bytes (mem : List Nat) (s : Slice) : List Nat := (mem.drop s.ptr).take s.size

end Slice

/-- The first loop of `trim`: `while(!slice.empty() && SPACES_LOOKUP[slice.front()])
slice.pop_front();` on the slice `(ptr, size)`.  The assertions of `front` and
`pop_front` are guarded by `!slice.empty()`.  The table is read at the value of the byte
(`spacesLookup`): this is the loop of the source where plain `char` is unsigned, and on
bytes below 128 everywhere; where plain `char` is signed the loop of the source reads
outside the table at a byte of 128 or more, which is `PlainChar.trimFront` below. -/
def trimFront (mem : List Nat) : Nat → Nat → Slice
  | ptr, 0 => ⟨ptr, 0⟩
  | ptr, n + 1 =>
    if spacesLookup (mem.getD ptr 0) then trimFront mem (ptr + 1) n else ⟨ptr, n + 1⟩

/-- The second loop of `trim`: `while(!slice.empty() && SPACES_LOOKUP[slice.back()])
slice.pop_back();` on the slice `(ptr, size)`.  The table is read at the value of the
byte (`spacesLookup`), as in `trimFront`; the loop with the index type of the source is
`PlainChar.trimBack` below. -/
def trimBack (mem : List Nat) (ptr : Nat) : Nat → Slice
  | 0 => ⟨ptr, 0⟩
  | n + 1 =>
    if spacesLookup (mem.getD (ptr + n) 0) then trimBack mem ptr n else ⟨ptr, n + 1⟩

/-- The function `trim(Slice<char>)`, the table read at the value of the byte: the
function of the source where plain `char` is unsigned, and on buffers whose bytes are
below 128 everywhere (`plainChar_trim_eq_trim`).  Where plain `char` is signed and the
slice has a byte of 128 or more at an end, the source reads outside the table, and this
definition does not tell what it returns: that is `PlainChar.trim` below. -/
def trim (mem : List Nat) (slice : Slice) : Slice :=
  let s := trimFront mem slice.ptr slice.size
  trimBack mem s.ptr s.size

/-- The outcome of the body of the tokenizing loop for one token. -/
inductive LineStep where
  /-- The statement `continue` was reached: a blank line. -/
  | skipped
  /-- The line has no separator: `valid = false; return;`. -/
  | noSeparator
  /-- An entry `(key, value)` was pushed; the buffer after the two terminator writes. -/
  | pushed (key value : Nat) (storage : List Nat)
  deriving DecidableEq, Repr

/-- The step "Strip comments" of the loop body: the slice cut at the first byte of
`COMMENTS`, if there is one. -/
def stripComment (storage : List Nat) (slice : Slice) : Option Slice :=
  let comment_ptr := find_first_of storage slice.ptr slice.end_ COMMENTS
  if comment_ptr != slice.end_ then slice.subslice 0 (comment_ptr - slice.ptr)
  else some slice

/-- The step "Separate into key and value" of the loop body, for the trimmed, non-empty
slice of a line: the search for the separator, the two trimmed sub-slices, the two
terminator writes and the `push_back`. -/
def splitEntry (storage : List Nat) (slice : Slice) : Option LineStep :=
  let separator_ptr := find_first_of storage slice.ptr slice.end_ SEPARATORS
  if separator_ptr == slice.end_ then some LineStep.noSeparator
  else
    let separator_idx := separator_ptr - slice.ptr
    match slice.subslice 0 separator_idx, slice.subsliceFrom (separator_idx + 1) with
    | some key_raw, some val_raw =>
      let key_slice := trim storage key_raw
      let val_slice := trim storage val_raw
      let storage1 := storage.set (key_slice.ptr + key_slice.size) 0
      let storage2 := storage1.set (val_slice.ptr + val_slice.size) 0
      some (LineStep.pushed key_slice.ptr val_slice.ptr storage2)
    | _, _ => none

/-- The body of the loop `for(char* tok = strtok(...); ...)` of the constructor, for the
token that starts at `tok`: strip the comment, trim, skip a blank line, otherwise
separate into key and value.  Through `trim` the table is read at the value of the byte:
this is the loop body of the source where plain `char` is unsigned, and on buffers whose
bytes are below 128 everywhere (`plainChar_lineStep_eq`); the loop body with the index
type of the source is `PlainChar.lineStep` below. -/
def lineStep (storage : List Nat) (tok : Nat) : Option LineStep :=
  match stripComment storage ⟨tok, strlen storage tok⟩ with
  | none => none
  | some slice1 =>
    let slice := trim storage slice1
    if slice.empty then some LineStep.skipped
    else splitEntry storage slice

/-- The state of the constructor when the tokenizing loop is left: the entries pushed so
far, the buffer, and whether the loop ended normally (`true`) or by the `return` of the
missing-separator branch (`false`). -/
structure Parsed where
  entries : List (Nat × Nat)
  storage : List Nat
  ok : Bool
  deriving DecidableEq, Repr

/-- The tokenizing loop of the constructor.  `save` is the resume position of `strtok`;
the first argument bounds the number of iterations (each iteration consumes at least one
byte of the buffer, so `storage.length` iterations always suffice). -/
def parseLoop : Nat → List Nat → Nat → List (Nat × Nat) → Option Parsed
  | 0, _, _, _ => none
  | fuel + 1, storage, save, entries =>
    match strtok storage save [13, 10] with
    | (none, _) => some ⟨entries, storage, true⟩
    | (some (tok, storage1), save1) =>
      match lineStep storage1 tok with
      | none => none
      | some LineStep.skipped => parseLoop fuel storage1 save1 entries
      | some LineStep.noSeparator => some ⟨entries, storage1, false⟩
      | some (LineStep.pushed key value storage2) =>
        parseLoop fuel storage2 save1 (entries ++ [(key, value)])

/-- The scan for duplicates after sorting: `true` when two adjacent entries have equal
keys (`prev` is `prev_key`, absent while `first_key` is true). -/
def hasDuplicate (mem : List Nat) : Option Nat → List (Nat × Nat) → Bool
  | _, [] => false
  | none, kv :: rest => hasDuplicate mem (some kv.1) rest
  | some prev_key, kv :: rest =>
    if strcmp mem prev_key kv.1 == 0 then true else hasDuplicate mem (some kv.1) rest

/-- The class `CFG` of `cfg5-noalloc.h`: the entries (pairs of pointers into `storage`,
as offsets), the buffer, and the flag `valid`. -/
structure CFG where
  entries : List (Nat × Nat)
  storage : List Nat
  valid : Bool
  deriving DecidableEq, Repr

/-- The default constructor `CFG()`. -/
def CFG.default : CFG := ⟨[], [], false⟩

/-- The constructor `CFG(filename)` for a file that could be opened and holds the bytes
`content`: the buffer is the content followed by a zero byte.  The result is `none` only
if an assertion fails or the loop bound is reached (neither happens, see `load_spec`).
Through `trim` the table is read at the value of the byte: this is the constructor of
the source where plain `char` is unsigned, and on contents whose bytes are below 128
everywhere (`plainChar_load_eq_load`); the constructor with the index type of the source
is `PlainChar.load` below. -/
def CFG.load (content : List Nat) : Option CFG :=
  let storage := content ++ [0]
  match parseLoop (storage.length + 1) storage 0 [] with
  | none => none
  | some p =>
    if !p.ok then some ⟨p.entries, p.storage, false⟩
    else
      let entries := std_sort (fun a b => decide (strcmp p.storage a.1 b.1 < 0)) p.entries
      if hasDuplicate p.storage none entries then some ⟨entries, p.storage, false⟩
      else some ⟨entries, p.storage, true⟩

/-- The constructor `CFG(filename)`; `file` is `none` when the file cannot be opened.
As `CFG.load`, it is the constructor of the source where plain `char` is unsigned, and on
contents whose bytes are below 128 everywhere (`plainChar_ofFile_eq_ofFile`); the
constructor with the index type of the source is `PlainChar.ofFile` below. -/
def CFG.ofFile (file : Option (List Nat)) : Option CFG :=
  match file with
  | none => some ⟨[], [], false⟩
  | some content => CFG.load content

/-- The method `is_valid()`. -/
def CFG.is_valid (t : CFG) : Bool := t.valid

/-- The method `size()`, with its assertion `valid`. -/
def CFG.size (t : CFG) : Except Fault Nat :=
  if t.valid then .ok t.entries.length else .error Fault.assertion

/-- The method `begin()` as an index into the entries, with its assertion `valid`. -/
def CFG.begin_ (t : CFG) : Except Fault Nat :=
  if t.valid then .ok 0 else .error Fault.assertion

/-- The method `end()` as an index into the entries, with its assertion `valid`. -/
def CFG.end_ (t : CFG) : Except Fault Nat :=
  if t.valid then .ok t.entries.length else .error Fault.assertion

/-- The argument `const char* key` of `find`: either a pointer into the table's own
`storage`, or a pointer to a zero-terminated string held anywhere else in memory. -/
inductive KeyPtr where
  /-- The pointer `storage.data() + off`. -/
  | inStorage (off : Nat)
  /-- A pointer outside `storage`, to the bytes `str` followed by a zero byte. -/
  | elsewhere (str : List Nat)
  deriving DecidableEq, Repr

/-- The C string a key pointer points to. -/
def KeyPtr.str (mem : List Nat) : KeyPtr → List Nat
  | .inStorage off => cstr mem off
  | .elsewhere str => str.takeWhile (fun c => c != 0)

/-- The pointer comparison `lower_bound->first == key`. -/
def KeyPtr.ptrEq (entryKey : Nat) : KeyPtr → Bool
  | .inStorage off => entryKey == off
  | .elsewhere _ => false

/-- The method `find(const char* key)`.  Iterators are indices into the entries.  The
expression `lower_bound->first` reads the element at the lower bound, which is not
dereferenceable when the lower bound is `entries.end()`. -/
def CFG.find (t : CFG) (key : KeyPtr) : Except Fault Nat :=
  if !t.valid then .error Fault.assertion
  else
    let lower_bound :=
      std_lower_bound (fun (a : Nat × Nat) (b : KeyPtr) =>
        decide (strcmpL (cstr t.storage a.1) (b.str t.storage) < 0)) t.entries key
    match t.entries.get? lower_bound with
    | none => .error Fault.outOfBounds
    | some e => if key.ptrEq e.1 then .ok lower_bound else .ok t.entries.length

/-- The strings of the table's entries, in the order of iteration: for each entry the C
string of its key and the C string of its value, read from `storage`. -/
def CFG.strings (t : CFG) : List (List Nat × List Nat) :=
  entryStrings t.storage t.entries

/-! ### The terminator writes of the constructor, pass by pass -/

/-- The slices `key_slice` and `val_slice` of the step "Separate into key and value", for
the trimmed, non-empty slice of a line; `none` when the line has no separator. -/
def entrySlices (storage : List Nat) (slice : Slice) : Option (Slice × Slice) :=
  let separator_ptr := find_first_of storage slice.ptr slice.end_ SEPARATORS
  if separator_ptr == slice.end_ then none
  else
    let separator_idx := separator_ptr - slice.ptr
    match slice.subslice 0 separator_idx, slice.subsliceFrom (separator_idx + 1) with
    | some key_raw, some val_raw => some (trim storage key_raw, trim storage val_raw)
    | _, _ => none

/-- The slices `key_slice` and `val_slice` that the loop body computes for the token that
starts at `tok`; `none` when the line is blank or has no separator. -/
def lineSlices (storage : List Nat) (tok : Nat) : Option (Slice × Slice) :=
  match stripComment storage ⟨tok, strlen storage tok⟩ with
  | none => none
  | some slice1 =>
    let slice := trim storage slice1
    if slice.empty then none else entrySlices storage slice

/-- One pass of the loop body that pushes an entry: the token, the buffer when the pass
starts, the two slices, the buffer after the writes `key[key_slice.size()] = 0` and
`value[val_slice.size()] = 0`, and the position at which `strtok` resumes (where the part
of the buffer not yet tokenized starts). -/
structure Recorded where
  tok : Nat
  before : List Nat
  key_slice : Slice
  val_slice : Slice
  after : List Nat
  resume : Nat
  deriving DecidableEq, Repr

/-- The tokenizing loop of the constructor, as `parseLoop`, giving the passes that pushed
an entry, in order. -/
def parseTrace : Nat → List Nat → Nat → List Recorded
  | 0, _, _ => []
  | fuel + 1, storage, save =>
    match strtok storage save [13, 10] with
    | (none, _) => []
    | (some (tok, storage1), save1) =>
      match lineStep storage1 tok, lineSlices storage1 tok with
      | some LineStep.skipped, _ => parseTrace fuel storage1 save1
      | some (LineStep.pushed _ _ storage2), some (key_slice, val_slice) =>
        ⟨tok, storage1, key_slice, val_slice, storage2, save1⟩ ::
          parseTrace fuel storage2 save1
      | _, _ => []

/-! ### Objects in memory: copy constructor, `swap`, move constructor, assignment

In a `CFG` the entries are pointers; as long as one table is looked at, a pointer is
its offset into `storage`.  The copy constructor subtracts and adds addresses of two
buffers, so here an object of class `CFG` carries the address of its buffer and its
entries are pairs of addresses. -/

/-- An object of class `CFG` with its addresses: `data` is `storage.data()`, the address
of the first byte of `storage`, and the entries are pairs of pointers (addresses). -/
structure Object where
  data : Int
  storage : List Nat
  entries : List (Int × Int)
  valid : Bool
  deriving DecidableEq, Repr

/-- The object of the table `t` when its buffer lies at the address `data`. -/
def CFG.toObject (t : CFG) (data : Int) : Object :=
  ⟨data, t.storage, t.entries.map (fun e => (data + (e.1 : Int), data + (e.2 : Int))),
    t.valid⟩

/-- The table of an object: every pointer as its offset from `storage.data()`. -/
def Object.toCFG (o : Object) : CFG :=
  ⟨o.entries.map (fun e => ((e.1 - o.data).toNat, (e.2 - o.data).toNat)), o.storage,
    o.valid⟩

/-- The default constructor `CFG()` as an object (an empty vector has no buffer). -/
def Object.default : Object := ⟨0, [], [], false⟩

/-- The copy constructor `CFG(const CFG& other)`; `data` is the address of the buffer that
the assignment `storage = other.storage` allocates for the new object.  The constructor
has no initializer for `valid` and does not assign it, so `valid` has the value of its
default member initializer (`bool valid = true;`). -/
def Object.copy (other : Object) (data : Int) : Object :=
  { data := data
    storage := other.storage
    entries := other.entries.map (fun entry =>
      let key_offset := entry.1 - other.data
      let val_offset := entry.2 - other.data
      (data + key_offset, data + val_offset))
    valid := true }

/-- The function `swap(first, second)`: the two objects after the call.  Swapping two
vectors exchanges their buffers, so each buffer keeps its address. -/
def Object.swap (first second : Object) : Object × Object :=
  (⟨second.data, second.storage, second.entries, second.valid⟩,
    ⟨first.data, first.storage, first.entries, first.valid⟩)

/-- The move constructor `CFG(CFG&& other) : CFG() { swap(*this, other); }`: the new
object, and what is left in `other`. -/
def Object.move (other : Object) : Object × Object :=
  Object.swap Object.default other

/-- The assignment `self = t` for an object `t` that is not a temporary: the parameter
`other` of `operator=(CFG other)` is made from `t` by the copy constructor (its buffer at
`data`), then `swap(*this, other)`; the result is `*this`. -/
def Object.assign (self t : Object) (data : Int) : Object :=
  (Object.swap self (Object.copy t data)).1

/-- The assignment `self = tmp` for a temporary `tmp` (as in `cfg = CFG(filename)`): the
parameter `other` is made from `tmp` by the move constructor, then `swap(*this, other)`. -/
def Object.assignMove (self tmp : Object) : Object :=
  (Object.swap self (Object.move tmp).1).1

/-! ### `trim` and the constructor with the index type of the source

The definitions above read `SPACES_LOOKUP` at the value of the byte.  The definitions of
this section are the same functions with the read as the source has it, at a plain `char`
converted to an index: `signedChar` tells whether plain `char` is signed, and a read
outside the table is the fault `outOfBounds`.  Both agree on every buffer whose bytes
are below `charBound signedChar` (`plainChar_trim_eq_trim`, `plainChar_load_eq_load`),
and whenever a function of this section returns a result, it is the result of the
function above (`plainChar_trim_ok`, `plainChar_load_ok`). -/

namespace PlainChar

/-- The first loop of `trim`, the table read at `charIndex`. -/
def trimFront (signedChar : Bool) (mem : List Nat) : Nat → Nat → Except Fault Slice
  | ptr, 0 => .ok ⟨ptr, 0⟩
  | ptr, n + 1 =>
    match spacesLookupAt (charIndex signedChar (mem.getD ptr 0)) with
    | .error e => .error e
    | .ok true => trimFront signedChar mem (ptr + 1) n
    | .ok false => .ok ⟨ptr, n + 1⟩

/-- The second loop of `trim`, the table read at `charIndex`. -/
def trimBack (signedChar : Bool) (mem : List Nat) (ptr : Nat) : Nat → Except Fault Slice
  | 0 => .ok ⟨ptr, 0⟩
  | n + 1 =>
    match spacesLookupAt (charIndex signedChar (mem.getD (ptr + n) 0)) with
    | .error e => .error e
    | .ok true => trimBack signedChar mem ptr n
    | .ok false => .ok ⟨ptr, n + 1⟩

/-- The function `trim(Slice<char>)`, the table read at `charIndex`. -/
def trim (signedChar : Bool) (mem : List Nat) (slice : Slice) : Except Fault Slice :=
  match trimFront signedChar mem slice.ptr slice.size with
  | .error e => .error e
  | .ok s => trimBack signedChar mem s.ptr s.size

/-- The step "Separate into key and value" of the loop body, as `splitEntry`, with the
`trim` of this section. -/
def splitEntry (signedChar : Bool) (storage : List Nat) (slice : Slice) :
    Except Fault LineStep :=
  let separator_ptr := find_first_of storage slice.ptr slice.end_ SEPARATORS
  if separator_ptr == slice.end_ then .ok LineStep.noSeparator
  else
    let separator_idx := separator_ptr - slice.ptr
    match slice.subslice 0 separator_idx, slice.subsliceFrom (separator_idx + 1) with
    | some key_raw, some val_raw =>
      match trim signedChar storage key_raw with
      | .error e => .error e
      | .ok key_slice =>
        match trim signedChar storage val_raw with
        | .error e => .error e
        | .ok val_slice =>
          let storage1 := storage.set (key_slice.ptr + key_slice.size) 0
          let storage2 := storage1.set (val_slice.ptr + val_slice.size) 0
          .ok (LineStep.pushed key_slice.ptr val_slice.ptr storage2)
    | _, _ => .error Fault.assertion

/-- The body of the tokenizing loop, as `lineStep`, with the `trim` of this section. -/
def lineStep (signedChar : Bool) (storage : List Nat) (tok : Nat) :
    Except Fault LineStep :=
  match stripComment storage ⟨tok, strlen storage tok⟩ with
  | none => .error Fault.assertion
  | some slice1 =>
    match trim signedChar storage slice1 with
    | .error e => .error e
    | .ok slice =>
      if slice.empty then .ok LineStep.skipped
      else splitEntry signedChar storage slice

/-- The tokenizing loop of the constructor, as `parseLoop`, with the loop body of this
section.  The result is `none` when the loop bound is reached, and a fault when the loop
body faults. -/
def parseLoop (signedChar : Bool) :
    Nat → List Nat → Nat → List (Nat × Nat) → Option (Except Fault Parsed)
  | 0, _, _, _ => none
  | fuel + 1, storage, save, entries =>
    match strtok storage save [13, 10] with
    | (none, _) => some (.ok ⟨entries, storage, true⟩)
    | (some (tok, storage1), save1) =>
      match lineStep signedChar storage1 tok with
      | .error e => some (.error e)
      | .ok LineStep.skipped => parseLoop signedChar fuel storage1 save1 entries
      | .ok LineStep.noSeparator => some (.ok ⟨entries, storage1, false⟩)
      | .ok (LineStep.pushed key value storage2) =>
        parseLoop signedChar fuel storage2 save1 (entries ++ [(key, value)])

/-- The constructor `CFG(filename)` for a file that holds the bytes `content`, as
`CFG.load`, with the tokenizing loop of this section. -/
def load (signedChar : Bool) (content : List Nat) : Option (Except Fault CFG) :=
  let storage := content ++ [0]
  match parseLoop signedChar (storage.length + 1) storage 0 [] with
  | none => none
  | some (.error e) => some (.error e)
  | some (.ok p) =>
    if !p.ok then some (.ok ⟨p.entries, p.storage, false⟩)
    else
      let entries := std_sort (fun a b => decide (strcmp p.storage a.1 b.1 < 0)) p.entries
      if hasDuplicate p.storage none entries then some (.ok ⟨entries, p.storage, false⟩)
      else some (.ok ⟨entries, p.storage, true⟩)

/-- The constructor `CFG(filename)`; `file` is `none` when the file cannot be opened. -/
def ofFile (signedChar : Bool) (file : Option (List Nat)) : Option (Except Fault CFG) :=
  match file with
  | none => some (.ok ⟨[], [], false⟩)
  | some content => load signedChar content

end PlainChar

end Cfg5

/-! ## `std::string` members and `std::getline` -/

/-- The member `str.find_first_of(set)`; `none` is `std::string::npos`. -/
def string_find_first_of (str set : List Nat) : Option Nat :=
  str.findIdx? (fun c => set.contains c)

/-- The member `str.find_first_not_of(set)`; `none` is `std::string::npos`. -/
def string_find_first_not_of (str set : List Nat) : Option Nat :=
  str.findIdx? (fun c => !set.contains c)

/-- The member `str.find_last_not_of(set)`; `none` is `std::string::npos`. -/
def string_find_last_not_of (str set : List Nat) : Option Nat :=
  (str.reverse.findIdx? (fun c => !set.contains c)).map (fun i => str.length - 1 - i)

/-- The lines that the loop `while(std::getline(file, line))` reads from a file with the
bytes `content`: the pieces between LF bytes; a final piece that is empty is not read
(the call that finds no byte left fails). -/
def getlines (content : List Nat) : List (List Nat) :=
  let pieces := content.splitOnP (fun c => c == 10)
  if pieces.getLast? == some [] then pieces.dropLast else pieces

/-! ## `cfg.h` -/

namespace Cfg1

/-- The string constant `SPACES = " \t"`. -/
def SPACES : List Nat := [32, 9]

/-- The string constant `COMMENTS = ";#"`. -/
def COMMENTS : List Nat := [59, 35]

/-- The string constant `SEPARATORS = "="`. -/
def SEPARATORS : List Nat := [61]

/-- The function `ltrim`: cuts the string after its last byte that is not in `SPACES`;
when there is no such byte (`npos`), it returns the string as it is. -/
def ltrim (str : List Nat) : List Nat :=
  match string_find_last_not_of str SPACES with
  | none => str
  | some endpos => str.take (endpos + 1)

/-- The function `rtrim`: cuts the string before its first byte that is not in `SPACES`;
when there is no such byte (`npos`), it returns the string as it is. -/
def rtrim (str : List Nat) : List Nat :=
  match string_find_first_not_of str SPACES with
  | none => str
  | some startpos => str.drop startpos

/-- The function `trim`. -/
def trim (str : List Nat) : List Nat := ltrim (rtrim str)

/-- The outcome of the line-processing statements of the reading loop for one line. -/
inductive LineStep where
  /-- The statement `continue` was reached. -/
  | skipped
  /-- The line has no separator: `valid = false; return;`. -/
  | noSeparator
  /-- The strings `key` and `value` were computed. -/
  | entry (key value : List Nat)
  deriving DecidableEq, Repr

/-- The statements of the reading loop from "Strip comments" to the computation of `key`
and `value` (the same text in `cfg.h` and in `cfg2-nomap.h`). -/
def lineStep (line0 : List Nat) : LineStep :=
  let line1 :=
    match string_find_first_of line0 COMMENTS with
    | some comment_idx => line0.take comment_idx
    | none => line0
  let line := trim line1
  if line.isEmpty then LineStep.skipped
  else
    match string_find_first_of line SEPARATORS with
    | none => LineStep.noSeparator
    | some separator_idx =>
      LineStep.entry (trim (line.take separator_idx)) (trim (line.drop (separator_idx + 1)))

/-- The class `CFG` of `cfg.h`.  The `std::map` is the list of its pairs in the order of
iteration (ascending keys, no key twice). -/
structure CFG where
  entries : List (List Nat × List Nat)
  valid : Bool
  deriving DecidableEq, Repr

/-- The member `std::map::find` as an index into the pairs; `none` is `end()`. -/
def mapFind (entries : List (List Nat × List Nat)) (key : List Nat) : Option Nat :=
  entries.findIdx? (fun e => e.1 == key)

/-- The assignment `entries[key] = value` on a `std::map`. -/
def mapAssign : List (List Nat × List Nat) → List Nat → List Nat → List (List Nat × List Nat)
  | [], key, value => [(key, value)]
  | e :: es, key, value =>
    if lexLt key e.1 then (key, value) :: e :: es
    else if key = e.1 then (key, value) :: es
    else e :: mapAssign es key value

/-- The reading loop of the constructor over the lines still to be read. -/
def parseLines : List (List Nat) → List (List Nat × List Nat) → CFG
  | [], entries => ⟨entries, true⟩
  | line :: rest, entries =>
    match lineStep line with
    | LineStep.skipped => parseLines rest entries
    | LineStep.noSeparator => ⟨entries, false⟩
    | LineStep.entry key value =>
      if (mapFind entries key).isSome then ⟨entries, false⟩
      else parseLines rest (mapAssign entries key value)

/-- The constructor `CFG(filename)` for a file that could be opened. -/
def CFG.load (content : List Nat) : CFG := parseLines (getlines content) []

/-- The method `is_valid()`. -/
def CFG.is_valid (t : CFG) : Bool := t.valid

/-- The method `size()`, with its assertion `valid`. -/
def CFG.size (t : CFG) : Except Fault Nat :=
  if t.valid then .ok t.entries.length else .error Fault.assertion

end Cfg1

/-! ## `cfg2-nomap.h` -/

namespace Cfg2

/-- The class `CFG` of `cfg2-nomap.h`: a vector of pairs of strings and the flag. -/
structure CFG where
  entries : List (List Nat × List Nat)
  valid : Bool
  deriving DecidableEq, Repr

/-- The reading loop of the constructor: the entries pushed, and `false` when the loop was
left by the `return` of the missing-separator branch.  The statements that process a line
are those of `cfg.h`. -/
def parseLines : List (List Nat) → List (List Nat × List Nat) →
    List (List Nat × List Nat) × Bool
  | [], entries => (entries, true)
  | line :: rest, entries =>
    match Cfg1.lineStep line with
    | Cfg1.LineStep.skipped => parseLines rest entries
    | Cfg1.LineStep.noSeparator => (entries, false)
    | Cfg1.LineStep.entry key value => parseLines rest (entries ++ [(key, value)])

/-- The scan for duplicates after sorting, with `prev_key == key_value.first` on strings
(`prev` is absent while `first_key` is true). -/
def hasDuplicate : Option (List Nat) → List (List Nat × List Nat) → Bool
  | _, [] => false
  | none, kv :: rest => hasDuplicate (some kv.1) rest
  | some prev_key, kv :: rest =>
    if prev_key == kv.1 then true else hasDuplicate (some kv.1) rest

/-- The part of the constructor after the reading loop: sort by `a.first < b.first`, then
scan for duplicates. -/
def finish (pushed : List (List Nat × List Nat)) : CFG :=
  let entries := std_sort (fun a b => decide (lexLt a.1 b.1)) pushed
  if hasDuplicate none entries then ⟨entries, false⟩ else ⟨entries, true⟩

/-- The constructor `CFG(filename)` for a file that could be opened. -/
def CFG.load (content : List Nat) : CFG :=
  match parseLines (getlines content) [] with
  | (pushed, false) => ⟨pushed, false⟩
  | (pushed, true) => finish pushed

/-- The method `is_valid()`. -/
def CFG.is_valid (t : CFG) : Bool := t.valid

/-- The method `size()`, with its assertion `valid`. -/
def CFG.size (t : CFG) : Except Fault Nat :=
  if t.valid then .ok t.entries.length else .error Fault.assertion

/-- The method `end()` as an index into the entries, with its assertion `valid`. -/
def CFG.end_ (t : CFG) : Except Fault Nat :=
  if t.valid then .ok t.entries.length else .error Fault.assertion

/-- The method `find(const std::string key)`.  Iterators are indices into the entries.
The expression `lower_bound->first` reads the element at the lower bound, which is not
dereferenceable when the lower bound is `entries.end()`. -/
def CFG.find (t : CFG) (key : List Nat) : Except Fault Nat :=
  if !t.valid then .error Fault.assertion
  else
    let lower_bound :=
      std_lower_bound (fun (a : List Nat × List Nat) (b : List Nat) => decide (lexLt a.1 b))
        t.entries key
    match t.entries.get? lower_bound with
    | none => .error Fault.outOfBounds
    | some e => if e.1 == key then .ok lower_bound else .ok t.entries.length

end Cfg2

/-! ## `cfg3-slices.h`

The class `Slice` of this file has the members of the class `Slice` of `cfg5-noalloc.h`
(on a `const` pointer), so `Cfg5.Slice` is used.  A slice here views the `std::string line`
of the reading loop: pointers are offsets into `line`. -/

namespace Cfg3

/-- The string constant `SPACES = " \t"`. -/
def SPACES : List Nat := [32, 9]

/-- The first loop of `trim`: `while(!slice.empty() && SPACES.find(slice.front()) !=
std::string::npos) slice.pop_front();` on the slice `(ptr, size)`. -/
def trimFront (mem : List Nat) : Nat → Nat → Cfg5.Slice
  | ptr, 0 => ⟨ptr, 0⟩
  | ptr, n + 1 =>
    if SPACES.contains (mem.getD ptr 0) then trimFront mem (ptr + 1) n else ⟨ptr, n + 1⟩

/-- The second loop of `trim`: `while(!slice.empty() && SPACES.find(slice.back()) !=
std::string::npos) slice.pop_back();` on the slice `(ptr, size)`. -/
def trimBack (mem : List Nat) (ptr : Nat) : Nat → Cfg5.Slice
  | 0 => ⟨ptr, 0⟩
  | n + 1 =>
    if SPACES.contains (mem.getD (ptr + n) 0) then trimBack mem ptr n else ⟨ptr, n + 1⟩

/-- The function `trim(Slice<char>)` of `cfg3-slices.h`. -/
def trim (mem : List Nat) (slice : Cfg5.Slice) : Cfg5.Slice :=
  let s := trimFront mem slice.ptr slice.size
  trimBack mem s.ptr s.size

/-- The statements of the reading loop from "Strip comments" to the two trimmed
sub-slices, for the line `line`, with the bytes the key slice and the value slice view.
The function `trimf` is the `trim` of the file (`cfg4-cstrings.h` has the same statements
with its own `trim`).  The result is `none` if an assertion of `Slice` fails. -/
def lineStepWith (trimf : List Nat → Cfg5.Slice → Cfg5.Slice) (line : List Nat) :
    Option Cfg1.LineStep :=
  match Cfg5.stripComment line ⟨0, line.length⟩ with
  | none => none
  | some slice1 =>
    let slice := trimf line slice1
    if slice.empty then some Cfg1.LineStep.skipped
    else
      let separator_ptr := find_first_of line slice.ptr slice.end_ Cfg5.SEPARATORS
      if separator_ptr == slice.end_ then some Cfg1.LineStep.noSeparator
      else
        let separator_idx := separator_ptr - slice.ptr
        match slice.subslice 0 separator_idx, slice.subsliceFrom (separator_idx + 1) with
        | some key_raw, some val_raw =>
          some (Cfg1.LineStep.entry ((trimf line key_raw).bytes line)
            ((trimf line val_raw).bytes line))
        | _, _ => none

/-- The reading loop of the constructor: the entries pushed (as `std::string` copies of
the slices), and `false` when the loop was left by the `return` of the missing-separator
branch. -/
def parseLines : List (List Nat) → List (List Nat × List Nat) →
    Option (List (List Nat × List Nat) × Bool)
  | [], entries => some (entries, true)
  | line :: rest, entries =>
    match lineStepWith trim line with
    | none => none
    | some Cfg1.LineStep.skipped => parseLines rest entries
    | some Cfg1.LineStep.noSeparator => some (entries, false)
    | some (Cfg1.LineStep.entry key value) => parseLines rest (entries ++ [(key, value)])

/-- The constructor `CFG(filename)` for a file that could be opened.  After the reading
loop the class has the text of `cfg2-nomap.h` (sort, duplicate scan, `is_valid`, `find`,
`begin`, `end`, `size`), so the table is a `Cfg2.CFG`. -/
def CFG.load (content : List Nat) : Option Cfg2.CFG :=
  match parseLines (getlines content) [] with
  | none => none
  | some (pushed, false) => some ⟨pushed, false⟩
  | some (pushed, true) => some (Cfg2.finish pushed)

end Cfg3

/-! ## `cfg4-cstrings.h`

Every key and every value is a C string in a block of its own, allocated by
`new char[]`.  The heap is the list of these blocks in the order of allocation, and a
pointer returned by `new` is the index of its block. -/

namespace Cfg4

/-- The C string in block `b` of the heap. -/
def blockStr (heap : List (List Nat)) (b : Nat) : List Nat :=
  (heap.getD b []).takeWhile (fun c => c != 0)

/-- The class `CFG` of `cfg4-cstrings.h`: the blocks it allocated, the entries (pairs of
pointers to blocks) and the flag. -/
structure CFG where
  heap : List (List Nat)
  entries : List (Nat × Nat)
  valid : Bool
  deriving DecidableEq, Repr

/-- The reading loop of the constructor.  For an entry, `new char[key_slice.size() + 1]`
and `new char[val_slice.size() + 1]` give two new blocks, filled by `memcpy` and a zero
terminator.  The slices are computed as in `cfg3-slices.h`, with the table-driven `trim`. -/
def parseLines : List (List Nat) → List (List Nat) → List (Nat × Nat) →
    Option (List (List Nat) × List (Nat × Nat) × Bool)
  | [], heap, entries => some (heap, entries, true)
  | line :: rest, heap, entries =>
    match Cfg3.lineStepWith Cfg5.trim line with
    | none => none
    | some Cfg1.LineStep.skipped => parseLines rest heap entries
    | some Cfg1.LineStep.noSeparator => some (heap, entries, false)
    | some (Cfg1.LineStep.entry key value) =>
      parseLines rest (heap ++ [key ++ [0], value ++ [0]])
        (entries ++ [(heap.length, heap.length + 1)])

/-- The scan for duplicates after sorting, with `prev_key == key_value.first` between a
`std::string` and a C string (`prev` is absent while `first_key` is true). -/
def hasDuplicate (heap : List (List Nat)) : Option (List Nat) → List (Nat × Nat) → Bool
  | _, [] => false
  | none, kv :: rest => hasDuplicate heap (some (blockStr heap kv.1)) rest
  | some prev_key, kv :: rest =>
    if prev_key == blockStr heap kv.1 then true
    else hasDuplicate heap (some (blockStr heap kv.1)) rest

/-- The constructor `CFG(filename)` for a file that could be opened. -/
def CFG.load (content : List Nat) : Option CFG :=
  match parseLines (getlines content) [] [] with
  | none => none
  | some (heap, pushed, false) => some ⟨heap, pushed, false⟩
  | some (heap, pushed, true) =>
    let entries :=
      std_sort (fun a b => decide (strcmpL (blockStr heap a.1) (blockStr heap b.1) < 0)) pushed
    if hasDuplicate heap none entries then some ⟨heap, entries, false⟩
    else some ⟨heap, entries, true⟩

/-- The argument `const char* key` of `find`: either a pointer to a block of the table,
or a pointer to a zero-terminated string held anywhere else in memory. -/
inductive KeyPtr where
  /-- The pointer to block `b`. -/
  | block (b : Nat)
  /-- A pointer to memory the table does not own, to the bytes `str` followed by a zero
  byte. -/
  | elsewhere (str : List Nat)
  deriving DecidableEq, Repr

/-- The C string a key pointer points to. -/
def KeyPtr.str (heap : List (List Nat)) : KeyPtr → List Nat
  | .block b => blockStr heap b
  | .elsewhere str => str.takeWhile (fun c => c != 0)

/-- The pointer comparison `lower_bound->first == key`. -/
def KeyPtr.ptrEq (entryKey : Nat) : KeyPtr → Bool
  | .block b => entryKey == b
  | .elsewhere _ => false

/-- The method `is_valid()`. -/
def CFG.is_valid (t : CFG) : Bool := t.valid

/-- The method `size()`, with its assertion `valid`. -/
def CFG.size (t : CFG) : Except Fault Nat :=
  if t.valid then .ok t.entries.length else .error Fault.assertion

/-- The method `end()` as an index into the entries, with its assertion `valid`. -/
def CFG.end_ (t : CFG) : Except Fault Nat :=
  if t.valid then .ok t.entries.length else .error Fault.assertion

/-- The method `find(const char* key)`, as in `cfg5-noalloc.h`. -/
def CFG.find (t : CFG) (key : KeyPtr) : Except Fault Nat :=
  if !t.valid then .error Fault.assertion
  else
    let lower_bound :=
      std_lower_bound (fun (a : Nat × Nat) (b : KeyPtr) =>
        decide (strcmpL (blockStr t.heap a.1) (b.str t.heap) < 0)) t.entries key
    match t.entries.get? lower_bound with
    | none => .error Fault.outOfBounds
    | some e => if key.ptrEq e.1 then .ok lower_bound else .ok t.entries.length

/-- The strings of the table's entries, in the order of iteration. -/
def CFG.strings (t : CFG) : List (List Nat × List Nat) :=
  t.entries.map (fun e => (blockStr t.heap e.1, blockStr t.heap e.2))

/-- The call `strlen(p)` for a pointer `p` to the start of `block`: the number of bytes
before the first zero byte of the block; a block without zero byte is read past its end. -/
def strlenBlock (block : List Nat) : Except Fault Nat :=
  if block.contains 0 then .ok (block.takeWhile (fun c => c != 0)).length
  else .error Fault.outOfBounds

/-- The bytes that `memcpy(dst, src, n)` reads when `src` points to the start of `block`:
the first `n` bytes of the block; more than the block holds is a read past its end. -/
def memcpyFrom (block : List Nat) (n : Nat) : Except Fault (List Nat) :=
  if n ≤ block.length then .ok (block.take n) else .error Fault.outOfBounds

/-- The loop `for(auto entry: other.entries)` of the copy constructor over the entries
still to be copied; `heap` and `entries` are the blocks allocated and the entries pushed
so far by the new object.  Both calls of `memcpy` read from `entry.first`. -/
def copyLoop (other : CFG) :
    List (Nat × Nat) → List (List Nat) → List (Nat × Nat) →
      Except Fault (List (List Nat) × List (Nat × Nat))
  | [], heap, entries => .ok (heap, entries)
  | entry :: rest, heap, entries =>
    match strlenBlock (other.heap.getD entry.1 []), strlenBlock (other.heap.getD entry.2 []) with
    | .ok key_strlen, .ok val_strlen =>
      let key_len := key_strlen + 1
      let val_len := val_strlen + 1
      match memcpyFrom (other.heap.getD entry.1 []) key_len,
          memcpyFrom (other.heap.getD entry.1 []) val_len with
      | .ok key_copy, .ok val_copy =>
        copyLoop other rest (heap ++ [key_copy, val_copy])
          (entries ++ [(heap.length, heap.length + 1)])
      | _, _ => .error Fault.outOfBounds
    | _, _ => .error Fault.outOfBounds

/-- The copy constructor `CFG(const CFG& other)`.  It has no initializer for `valid` and
does not assign it, so `valid` has the value of its default member initializer
(`bool valid = true;`). -/
def CFG.copy (other : CFG) : Except Fault CFG :=
  match copyLoop other other.entries [] [] with
  | .error e => .error e
  | .ok (heap, entries) => .ok ⟨heap, entries, true⟩

/-- The default constructor `CFG()`. -/
def CFG.default : CFG := ⟨[], [], false⟩

/-- The function `swap(first, second)`: the two objects after the call (the blocks go
with the pointers to them). -/
def CFG.swap (first second : CFG) : CFG × CFG :=
  (⟨second.heap, second.entries, second.valid⟩, ⟨first.heap, first.entries, first.valid⟩)

/-- The assignment `self = t` for an object `t` that is not a temporary: the parameter
`other` of `operator=(CFG other)` is made from `t` by the copy constructor, then
`swap(*this, other)`; the result is `*this`. -/
def CFG.assign (self t : CFG) : Except Fault CFG :=
  match CFG.copy t with
  | .error e => .error e
  | .ok other => .ok (CFG.swap self other).1

end Cfg4

/-! ## The file format in the words of the specification

These definitions do not come from the code: they restate the format of the
specification (lines, comment stripping, trimming, key and value) on lists of bytes, and
the code is compared with them. -/

namespace Spec

/-- A line terminator: CR (13) or LF (10). -/
def isNewline (c : Nat) : Bool := c == 13 || c == 10

/-- A comment marker: `;` (59) or `#` (35). -/
def isComment (c : Nat) : Bool := c == 59 || c == 35

/-- Whitespace for trimming: space (32) or tab (9). -/
def isSpaceTab (c : Nat) : Bool := c == 32 || c == 9

/-- The separator `=` (61). -/
def isSeparator (c : Nat) : Bool := c == 61

/-- The lines of a file content: the pieces between line terminators. -/
def lines (content : List Nat) : List (List Nat) := content.splitOnP isNewline

/-- A line cut at its first comment marker. -/
def cutComment (line : List Nat) : List Nat := line.takeWhile (fun c => !isComment c)

/-- A byte string without its leading and trailing spaces and tabs. -/
def trimSpaces (l : List Nat) : List Nat := (l.dropWhile isSpaceTab).rdropWhile isSpaceTab

/-- A line after comment stripping and trimming. -/
def stripped (line : List Nat) : List Nat := trimSpaces (cutComment line)

/-- The stripped lines of a content that are not empty, in file order. -/
def entryLines (content : List Nat) : List (List Nat) :=
  ((lines content).map stripped).filter (fun l => !l.isEmpty)

/-- The key of a stripped line: the trimmed text before the first `=`. -/
def keyOf (l : List Nat) : List Nat := trimSpaces (l.takeWhile (fun c => !isSeparator c))

/-- The value of a stripped line: the trimmed text after the first `=`. -/
def valueOf (l : List Nat) : List Nat :=
  trimSpaces ((l.dropWhile (fun c => !isSeparator c)).drop 1)

/-- The pair `(key, value)` of a stripped line. -/
def pairOf (l : List Nat) : List Nat × List Nat := (keyOf l, valueOf l)

/-- The stripped line has a separator. -/
def hasSeparator (l : List Nat) : Bool := l.any isSeparator

/-- The text written for a list of pairs: one line `key = value` per pair (the key, a
space, `=`, a space, the value), each line ended by LF. -/
def serialize : List (List Nat × List Nat) → List Nat
  | [] => []
  | kv :: rest => kv.1 ++ [32, 61, 32] ++ kv.2 ++ [10] ++ serialize rest

/-- A content in which the line terminators are replaced: the first LF by the bytes
`tss[0]`, the second LF by `tss[1]`, and so on (an LF for which `tss` has no item stays
as it is); every other byte is kept. -/
def replaceTerminators : List (List Nat) → List Nat → List Nat
  | _, [] => []
  | tss, b :: c =>
    if b == 10 then tss.headD [10] ++ replaceTerminators tss.tail c
    else b :: replaceTerminators tss c

/-- What is asked of the two terminator writes of one pass `w` of the loop body, the line
of the pass being the token from `w.tok` to `lineEnd` and `eqpos` the position of its
first `=`: the buffer after the pass is the buffer before it with the two writes; both
writes are inside the buffer; the key slice lies between the start of the line and the
`=`, with its terminator at or before the `=`; the value slice lies after the `=`, with
its terminator at or before the end of the line; and no byte before the line or from
the end of the line on has changed. -/
def WritesSafe (w : Cfg5.Recorded) (lineEnd eqpos : Nat) : Prop :=
  w.after = (w.before.set w.key_slice.end_ 0).set w.val_slice.end_ 0 ∧
  w.key_slice.end_ < w.before.length ∧ w.val_slice.end_ < w.before.length ∧
  (∀ i, w.tok ≤ i → i < lineEnd → w.before.getD i 0 ≠ 0) ∧
  w.before.getD lineEnd 0 = 0 ∧
  w.before.getD eqpos 0 = 61 ∧
  (∀ i, w.tok ≤ i → i < eqpos → w.before.getD i 0 ≠ 61) ∧
  w.tok ≤ w.key_slice.ptr ∧ w.key_slice.end_ ≤ eqpos ∧
  eqpos < w.val_slice.ptr ∧ w.val_slice.end_ ≤ lineEnd ∧
  lineEnd ≤ w.resume ∧
  (∀ i, i < w.tok ∨ lineEnd ≤ i → w.after.getD i 0 = w.before.getD i 0)

end Spec

/-! # Theorems -/

open Cfg5

/-! ## Buffers: reading and writing through `drop` -/

theorem getD_of_drop {mem : List Nat} {p x : Nat} {t : List Nat} (h : mem.drop p = x :: t) :
    mem.getD p 0 = x := by
  have : mem[p]? = some x := by
    have h2 := congrArg (fun l => l[0]?) h
    simpa [List.getElem?_drop] using h2
  simp [List.getD_eq_getElem?_getD, this]

theorem getD_of_drop_nil {mem : List Nat} {p : Nat} (h : mem.drop p = []) :
    mem.getD p 0 = 0 := by
  have : mem.length ≤ p := List.drop_eq_nil_iff.mp h
  simp [List.getD_eq_getElem?_getD, List.getElem?_eq_none this]

theorem drop_add_of_drop {mem : List Nat} {p : Nat} {A B : List Nat}
    (h : mem.drop p = A ++ B) : mem.drop (p + A.length) = B := by
  have : mem.drop (p + A.length) = (mem.drop p).drop A.length := by
    rw [List.drop_drop]
  rw [this, h, List.drop_left]

theorem getD_add_of_drop {mem : List Nat} {p x : Nat} {A t : List Nat}
    (h : mem.drop p = A ++ x :: t) : mem.getD (p + A.length) 0 = x :=
  getD_of_drop (drop_add_of_drop h)

theorem drop_set_of_drop {mem : List Nat} {p x y : Nat} {A t : List Nat}
    (h : mem.drop p = A ++ x :: t) : (mem.set (p + A.length) y).drop p = A ++ y :: t := by
  rw [List.drop_set]
  have : ¬ (p + A.length < p) := by omega
  simp only [this, if_false, h]
  have : p + A.length - p = A.length := by omega
  rw [this]
  simp [List.set_append]

theorem takeWhile_append_stop {p : Nat → Bool} {A : List Nat} {x : Nat} {t : List Nat}
    (hA : ∀ a ∈ A, p a = true) (hx : p x = false) :
    (A ++ x :: t).takeWhile p = A := by
  induction A with
  | nil => simp [List.takeWhile, hx]
  | cons a A ih =>
    have ha : p a = true := hA a (List.mem_cons_self _ _)
    simp only [List.cons_append, List.takeWhile_cons, ha, if_true]
    rw [ih (fun b hb => hA b (List.mem_cons_of_mem _ hb))]

theorem cstr_of_drop {mem : List Nat} {p : Nat} {A t : List Nat}
    (h : mem.drop p = A ++ 0 :: t) (hA : ∀ a ∈ A, a ≠ 0) : cstr mem p = A := by
  unfold cstr
  rw [h]
  exact takeWhile_append_stop (by simpa using hA) (by simp)

theorem strlen_eq_cstr_length (mem : List Nat) (p : Nat) : strlen mem p = (cstr mem p).length := rfl



/-! ## The lookup table and `trim` -/

theorem spacesLookup_eq (c : Nat) : spacesLookup c = Spec.isSpaceTab c := by
  unfold spacesLookup SPACES_LOOKUP Spec.isSpaceTab
  by_cases h : c < 33
  · interval_cases c <;> rfl
  · have h1 : (c == 32) = false := by simp; omega
    have h2 : (c == 9) = false := by simp; omega
    rw [h1, h2, List.getD_eq_getElem?_getD,
      List.getElem?_append_right (by simp only [List.length_cons, List.length_nil]; omega),
      List.getElem?_replicate]
    split <;> rfl

theorem trimFront_spec (mem : List Nat) (B : List Nat) :
    ∀ (p : Nat) (rest : List Nat), mem.drop p = B ++ rest →
      trimFront mem p B.length =
        ⟨p + (B.takeWhile Spec.isSpaceTab).length, (B.dropWhile Spec.isSpaceTab).length⟩ := by
  induction B with
  | nil => intro p rest _; simp [trimFront]
  | cons b B ih =>
    intro p rest h
    have hb : mem.getD p 0 = b := getD_of_drop h
    have hd : mem.drop (p + 1) = B ++ rest := by
      have := drop_add_of_drop (A := [b]) (B := B ++ rest) (by simpa using h)
      simpa using this
    simp only [List.length_cons, trimFront, hb, spacesLookup_eq]
    by_cases hs : Spec.isSpaceTab b = true
    · simp only [hs, if_true, List.takeWhile_cons, List.dropWhile_cons, List.length_cons]
      rw [ih (p + 1) rest hd]
      congr 1; omega
    · simp [hs]

theorem trimBack_spec (mem : List Nat) (p : Nat) (B : List Nat) :
    ∀ (rest : List Nat), mem.drop p = B ++ rest →
      trimBack mem p B.length = ⟨p, (B.rdropWhile Spec.isSpaceTab).length⟩ := by
  induction B using List.reverseRecOn with
  | nil => intro rest _; simp [trimBack]
  | append_singleton B x ih =>
    intro rest h
    have hx : mem.getD (p + B.length) 0 = x :=
      getD_add_of_drop (A := B) (t := rest) (by simpa using h)
    simp only [List.length_append, List.length_singleton, trimBack, hx, spacesLookup_eq,
      List.rdropWhile_concat]
    by_cases hs : Spec.isSpaceTab x = true
    · simp only [hs, if_true]
      exact ih ([x] ++ rest) (by simpa using h)
    · simp [hs]

/-- The function `trim` on a slice that views the bytes `B`: the result views
`Spec.trimSpaces B`, and starts after the leading spaces and tabs of `B`. -/
theorem trim_spec (mem : List Nat) (p : Nat) (B rest : List Nat) (h : mem.drop p = B ++ rest) :
    trim mem ⟨p, B.length⟩ =
      ⟨p + (B.takeWhile Spec.isSpaceTab).length, (Spec.trimSpaces B).length⟩ := by
  unfold trim
  simp only [trimFront_spec mem B p rest h]
  have hd : mem.drop (p + (B.takeWhile Spec.isSpaceTab).length) =
      B.dropWhile Spec.isSpaceTab ++ rest := by
    apply drop_add_of_drop (A := B.takeWhile Spec.isSpaceTab)
    rw [← List.append_assoc, List.takeWhile_append_dropWhile]; exact h
  rw [trimBack_spec mem _ _ rest hd]
  rfl

/-- Splitting a byte string around its trimmed part. -/
theorem trimSpaces_decomp (B : List Nat) :
    ∃ post, B = B.takeWhile Spec.isSpaceTab ++ Spec.trimSpaces B ++ post := by
  obtain ⟨post, hpost⟩ := List.rdropWhile_prefix Spec.isSpaceTab (B.dropWhile Spec.isSpaceTab)
  refine ⟨post, ?_⟩
  unfold Spec.trimSpaces
  rw [List.append_assoc, hpost, List.takeWhile_append_dropWhile]



theorem find_first_of_spec (mem : List Nat) (first : Nat) (B rest : List Nat) (set : List Nat)
    (h : mem.drop first = B ++ rest) :
    find_first_of mem first (first + B.length) set =
      first + (B.takeWhile (fun c => !set.contains c)).length := by
  unfold find_first_of
  have : first + B.length - first = B.length := by omega
  rw [this, h, List.take_left]

theorem comments_pred : (fun c => !COMMENTS.contains c) = (fun c => !Spec.isComment c) := by
  funext c
  simp only [COMMENTS, Spec.isComment, List.contains, List.elem]
  cases (c == 59) <;> cases (c == 35) <;> rfl

theorem separators_pred : (fun c => !SEPARATORS.contains c) = (fun c => !Spec.isSeparator c) := by
  funext c
  simp only [SEPARATORS, Spec.isSeparator, List.contains, List.elem]
  cases (c == 61) <;> rfl

theorem stripComment_spec (S : List Nat) (tok : Nat) (L rest : List Nat)
    (h : S.drop tok = L ++ rest) :
    stripComment S ⟨tok, L.length⟩ = some ⟨tok, (Spec.cutComment L).length⟩ := by
  unfold stripComment
  simp only [Slice.end_]
  rw [find_first_of_spec S tok L rest COMMENTS h, comments_pred]
  have hle : (Spec.cutComment L).length ≤ L.length := (List.takeWhile_sublist _).length_le
  unfold Spec.cutComment at *
  by_cases hc : (List.takeWhile (fun c => !Spec.isComment c) L).length = L.length
  · simp [hc]
  · have h1 : (tok + (List.takeWhile (fun c => !Spec.isComment c) L).length != tok + L.length)
        = true := by simp; omega
    simp only [h1, if_true, Slice.subslice]
    have h2 : tok + (List.takeWhile (fun c => !Spec.isComment c) L).length - tok =
        (List.takeWhile (fun c => !Spec.isComment c) L).length := by omega
    rw [h2]
    have h3 : (0 + (List.takeWhile (fun c => !Spec.isComment c) L).length) % 2 ^ 64 ≤ L.length :=
      le_trans (Nat.mod_le _ _) (by omega)
    rw [if_pos h3]
    rfl

theorem lineStep_skipped (S : List Nat) (tok : Nat) (L X : List Nat)
    (h : S.drop tok = L ++ 0 :: X) (hL : ∀ a ∈ L, a ≠ 0) (hs : Spec.stripped L = []) :
    lineStep S tok = some LineStep.skipped := by
  unfold lineStep
  simp only [strlen_eq_cstr_length, cstr_of_drop h hL, stripComment_spec S tok L _ h]
  have hcut : S.drop tok = Spec.cutComment L ++ (L.dropWhile (fun c => !Spec.isComment c) ++ 0 :: X) := by
    rw [← List.append_assoc]; unfold Spec.cutComment
    rw [List.takeWhile_append_dropWhile]; exact h
  rw [trim_spec S tok _ _ hcut]
  unfold Spec.stripped at hs
  simp [Slice.empty, hs]

theorem splitEntry_noSeparator (S : List Nat) (p : Nat) (t R : List Nat)
    (h : S.drop p = t ++ R) (hsep : Spec.hasSeparator t = false) :
    splitEntry S ⟨p, t.length⟩ = some LineStep.noSeparator := by
  unfold splitEntry
  simp only [Slice.end_]
  rw [find_first_of_spec S p t R SEPARATORS h, separators_pred]
  have : t.takeWhile (fun c => !Spec.isSeparator c) = t := by
    rw [List.takeWhile_eq_self_iff]
    intro x hx
    unfold Spec.hasSeparator at hsep
    rw [List.any_eq_false] at hsep
    simpa using hsep x hx
  simp [this]

/-- A line with a separator, split at its first separator. -/
theorem split_at_separator (t : List Nat) (hsep : Spec.hasSeparator t = true) :
    t = t.takeWhile (fun c => !Spec.isSeparator c) ++
      61 :: (t.dropWhile (fun c => !Spec.isSeparator c)).drop 1 := by
  induction t with
  | nil => simp [Spec.hasSeparator] at hsep
  | cons a t ih =>
    by_cases ha : Spec.isSeparator a = true
    · have h61 : a = 61 := by simpa [Spec.isSeparator] using ha
      subst h61
      simp [List.takeWhile_cons, List.dropWhile_cons, ha]
    · have hs : Spec.hasSeparator t = true := by
        simpa [Spec.hasSeparator, ha] using hsep
      simp only [Bool.not_eq_true] at ha
      simp only [List.takeWhile_cons, List.dropWhile_cons, ha, Bool.not_false, if_true,
        List.cons_append]
      congr 1
      exact ih hs



theorem ZeroedFrom.refl (p : Nat) (S : List Nat) : ZeroedFrom p S S :=
  ⟨rfl, fun _ => Or.inl rfl⟩

theorem ZeroedFrom.weaken {p q : Nat} {S S' : List Nat} (hq : q ≤ p) (h : ZeroedFrom p S S') :
    ZeroedFrom q S S' :=
  ⟨h.1, fun i => (h.2 i).imp id (fun ⟨h1, h2⟩ => ⟨le_trans hq h1, h2⟩)⟩

theorem ZeroedFrom.trans {p : Nat} {S S1 S2 : List Nat} (h1 : ZeroedFrom p S S1)
    (h2 : ZeroedFrom p S1 S2) : ZeroedFrom p S S2 := by
  refine ⟨h2.1.trans h1.1, fun i => ?_⟩
  rcases h2.2 i with h | h
  · rw [h]; exact h1.2 i
  · exact Or.inr h

theorem getD_set_zero (S : List Nat) (i j : Nat) :
    (S.set i 0).getD j 0 = if i = j then 0 else S.getD j 0 := by
  simp only [List.getD_eq_getElem?_getD, List.getElem?_set]
  by_cases h : i = j
  · subst h
    by_cases hl : i < S.length <;> simp [hl]
  · simp [h]

theorem ZeroedFrom.set {p i : Nat} (S : List Nat) (h : p ≤ i) : ZeroedFrom p S (S.set i 0) := by
  refine ⟨by simp, fun j => ?_⟩
  rw [getD_set_zero]
  by_cases hij : i = j
  · subst hij; right; simp [h]
  · left; simp [hij]

theorem getD_add_eq_getD_drop (S : List Nat) (k j : Nat) :
    S.getD (k + j) 0 = (S.drop k).getD j 0 := by
  simp [List.getD_eq_getElem?_getD, List.getElem?_drop]

theorem drop_eq_cons_of_getD_ne_zero (mem : List Nat) (k : Nat) (h : mem.getD k 0 ≠ 0) :
    mem.drop k = mem.getD k 0 :: mem.drop (k + 1) := by
  have hk : k < mem.length := by
    by_contra hc
    apply h
    simp [List.getD_eq_getElem?_getD, List.getElem?_eq_none (not_lt.mp hc)]
  rw [List.drop_eq_getElem_cons hk]
  simp [List.getD_eq_getElem?_getD, List.getElem?_eq_getElem hk]

theorem cstr_eq_of_getD (mem : List Nat) :
    ∀ (w : List Nat) (k : Nat), (∀ j, j < w.length → mem.getD (k + j) 0 = w.getD j 0) →
      (∀ a ∈ w, a ≠ 0) → mem.getD (k + w.length) 0 = 0 → cstr mem k = w := by
  intro w
  induction w with
  | nil =>
    intro k _ _ h0
    unfold cstr
    cases hd : mem.drop k with
    | nil => rfl
    | cons x t =>
      have : x = 0 := by rw [← getD_of_drop hd]; simpa using h0
      simp [this]
  | cons a w ih =>
    intro k hj hw h0
    have ha : mem.getD k 0 = a := by simpa using hj 0 (by simp)
    have hne : a ≠ 0 := hw a (List.mem_cons_self _ _)
    have hd := drop_eq_cons_of_getD_ne_zero mem k (by rw [ha]; exact hne)
    have hrec : cstr mem (k + 1) = w := by
      apply ih
      · intro j hjl
        have := hj (j + 1) (by simp; omega)
        simpa [Nat.add_assoc, Nat.add_comm 1 j] using this
      · intro b hb; exact hw b (List.mem_cons_of_mem _ hb)
      · have : k + 1 + w.length = k + (a :: w).length := by simp; omega
        rw [this]; exact h0
    unfold cstr at hrec ⊢
    rw [hd, ha, List.takeWhile_cons]
    simp [hne, hrec]

/-- A C string whose terminator lies at or before `p` is not changed by zeroing bytes
from `p` on. -/
theorem cstr_stable {p k : Nat} {S S' : List Nat} {w T : List Nat}
    (hd : S.drop k = w ++ 0 :: T) (hw : ∀ a ∈ w, a ≠ 0) (hp : k + w.length ≤ p)
    (hz : ZeroedFrom p S S') : cstr S' k = w := by
  apply cstr_eq_of_getD S' w k _ hw
  · rcases hz.2 (k + w.length) with h | h
    · rw [h]; exact getD_add_of_drop hd
    · exact h.2
  · intro j hj
    rcases hz.2 (k + j) with h | h
    · rw [h, getD_add_eq_getD_drop, hd]
      simp [List.getD_eq_getElem?_getD, List.getElem?_append_left hj]
    · omega



theorem two_writes {S : List Nat} {p x y : Nat} {A B C : List Nat}
    (h : S.drop p = A ++ x :: (B ++ y :: C)) :
    ((S.set (p + A.length) 0).set (p + (A.length + 1 + B.length)) 0).drop p =
      A ++ 0 :: (B ++ 0 :: C) := by
  have h1 := drop_set_of_drop (y := 0) h
  have h1' : (S.set (p + A.length) 0).drop p = (A ++ 0 :: B) ++ y :: C := by
    rw [h1]; simp
  have h2 := drop_set_of_drop (y := 0) h1'
  have hl : (A ++ 0 :: B).length = A.length + 1 + B.length := by simp; omega
  rw [hl] at h2
  rw [h2]; simp

theorem splitEntry_pushed (S : List Nat) (p : Nat) (t R : List Nat)
    (h : S.drop p = t ++ R) (hR : R ≠ []) (hsep : Spec.hasSeparator t = true) :
    ∃ k v S2, splitEntry S ⟨p, t.length⟩ = some (LineStep.pushed k v S2) ∧
      ZeroedFrom p S S2 ∧
      (∃ T, S2.drop k = Spec.keyOf t ++ 0 :: T) ∧
      (∃ T, S2.drop v = Spec.valueOf t ++ 0 :: T) ∧
      p ≤ k ∧ k + (Spec.keyOf t).length ≤ p + (t.takeWhile (fun c => !Spec.isSeparator c)).length ∧
      p + (t.takeWhile (fun c => !Spec.isSeparator c)).length < v ∧
      v + (Spec.valueOf t).length ≤ p + t.length ∧
      (S2.drop (p + t.length) = R ∨ ∃ y C, R = y :: C ∧ S2.drop (p + t.length) = 0 :: C) := by
  -- the pieces of the line
  set kraw := t.takeWhile (fun c => !Spec.isSeparator c) with hkraw
  set vraw := (t.dropWhile (fun c => !Spec.isSeparator c)).drop 1 with hvraw
  have ht : t = kraw ++ 61 :: vraw := split_at_separator t hsep
  obtain ⟨post2, hk2⟩ := trimSpaces_decomp kraw
  obtain ⟨post3, hv3⟩ := trimSpaces_decomp vraw
  set pre2 := kraw.takeWhile Spec.isSpaceTab with hpre2
  set pre3 := vraw.takeWhile Spec.isSpaceTab with hpre3
  have hkey : Spec.keyOf t = Spec.trimSpaces kraw := rfl
  have hval : Spec.valueOf t = Spec.trimSpaces vraw := rfl
  set key := Spec.trimSpaces kraw with hkeydef
  set val := Spec.trimSpaces vraw with hvaldef
  have hlen_t : t.length = kraw.length + 1 + vraw.length := by
    have := congrArg List.length ht
    simp only [List.length_append, List.length_cons] at this
    omega
  have hlen_k : kraw.length = pre2.length + key.length + post2.length := by
    have := congrArg List.length hk2
    simp only [List.length_append] at this
    omega
  have hlen_v : vraw.length = pre3.length + val.length + post3.length := by
    have := congrArg List.length hv3
    simp only [List.length_append] at this
    omega
  -- views of the two raw sub-slices
  have hdk : S.drop p = kraw ++ (61 :: vraw ++ R) := by
    rw [h]; conv_lhs => rw [ht]
    simp
  have hdv : S.drop (p + (kraw.length + 1)) = vraw ++ R := by
    have := drop_add_of_drop (A := kraw ++ [61]) (B := vraw ++ R) (by rw [hdk]; simp)
    simpa using this
  -- evaluation of the code
  have hfind : find_first_of S p (p + t.length) SEPARATORS = p + kraw.length := by
    rw [find_first_of_spec S p t R SEPARATORS h, separators_pred]
  have e1 : splitEntry S ⟨p, t.length⟩ =
      some (LineStep.pushed (p + pre2.length) (p + (kraw.length + 1) + pre3.length)
        ((S.set (p + pre2.length + key.length) 0).set
          (p + (kraw.length + 1) + pre3.length + val.length) 0)) := by
    unfold splitEntry
    simp only [Slice.end_, hfind]
    have hne : (p + kraw.length == p + t.length) = false := by simp; omega
    simp only [hne, Bool.false_eq_true, if_false, Slice.subslice, Slice.subsliceFrom]
    have hsub : p + kraw.length - p = kraw.length := by omega
    rw [hsub]
    have c1 : (0 + kraw.length) % 2 ^ 64 ≤ t.length :=
      le_trans (Nat.mod_le _ _) (by omega)
    have c2 : kraw.length + 1 ≤ t.length := by omega
    rw [if_pos c1, if_pos c2]
    have hsz : t.length - (kraw.length + 1) = vraw.length := by omega
    simp only [hsz, Nat.add_zero]
    rw [trim_spec S p kraw _ hdk, trim_spec S _ vraw R hdv]
  -- the buffer around the two writes
  obtain ⟨x, P2, hxP⟩ : ∃ x P2, post2 ++ [61] = x :: P2 := by
    cases post2 with
    | nil => exact ⟨61, [], rfl⟩
    | cons a l => exact ⟨a, l ++ [61], by simp⟩
  obtain ⟨y, C, hyC⟩ : ∃ y C, post3 ++ R = y :: C := by
    cases post3 with
    | nil =>
      cases R with
      | nil => exact absurd rfl hR
      | cons a l => exact ⟨a, l, rfl⟩
    | cons a l => exact ⟨a, l ++ R, by simp⟩
  have hP2 : P2.length = post2.length := by
    have := congrArg List.length hxP
    simp only [List.length_append, List.length_cons, List.length_nil] at this
    omega
  have hC : C.length + 1 = post3.length + R.length := by
    have := congrArg List.length hyC
    simp only [List.length_append, List.length_cons] at this
    omega
  have hdecomp : S.drop p = (pre2 ++ key) ++ x :: ((P2 ++ pre3 ++ val) ++ y :: C) := by
    rw [hdk]
    conv_lhs => rw [hk2, hv3]
    have e : pre2 ++ key ++ post2 ++ (61 :: (pre3 ++ val ++ post3) ++ R) =
        (pre2 ++ key) ++ ((post2 ++ [61]) ++ (pre3 ++ val ++ (post3 ++ R))) := by simp
    rw [e, hxP, hyC]; simp
  have hw := two_writes hdecomp
  have i1 : p + pre2.length + key.length = p + (pre2 ++ key).length := by simp; omega
  have i2 : p + (kraw.length + 1) + pre3.length + val.length =
      p + ((pre2 ++ key).length + 1 + (P2 ++ pre3 ++ val).length) := by
    simp only [List.length_append]; omega
  rw [i1, i2] at e1
  refine ⟨_, _, _, e1, ?_, ?_, ?_, ?_, ?_, ?_, ?_, ?_⟩
  · exact (ZeroedFrom.set S (by omega)).trans (ZeroedFrom.set _ (by omega))
  · refine ⟨P2 ++ pre3 ++ val ++ 0 :: C, ?_⟩
    rw [hkey]
    apply drop_add_of_drop (A := pre2)
    rw [hw]; simp
  · refine ⟨C, ?_⟩
    rw [hval]
    have hl : p + (kraw.length + 1) + pre3.length = p + (pre2 ++ key ++ 0 :: (P2 ++ pre3)).length := by
      simp only [List.length_append, List.length_cons]; omega
    rw [hl]
    apply drop_add_of_drop
    rw [hw]; simp
  · omega
  · rw [hkey]; omega
  · omega
  · rw [hval]; omega
  · have hl : p + t.length = p + (pre2 ++ key ++ 0 :: (P2 ++ pre3 ++ val)).length + post3.length := by
      simp only [List.length_append, List.length_cons]; omega
    have hd2 : List.drop (p + (pre2 ++ key ++ 0 :: (P2 ++ pre3 ++ val)).length)
        ((S.set (p + (pre2 ++ key).length) 0).set
          (p + ((pre2 ++ key).length + 1 + (P2 ++ pre3 ++ val).length)) 0) = 0 :: C := by
      apply drop_add_of_drop
      rw [hw]; simp
    cases post3 with
    | nil =>
      right
      refine ⟨y, C, by simpa using hyC, ?_⟩
      rw [hl]; simpa using hd2
    | cons a l =>
      left
      have hC' : C = l ++ R := by
        have := hyC
        simp only [List.cons_append, List.cons.injEq] at this
        exact this.2.symm
      rw [hl]
      have := drop_add_of_drop (A := 0 :: l) (B := R) (by rw [hd2, hC']; simp)
      simpa [Nat.add_assoc] using this



/-- The view of the trimmed line inside the token `L` at `tok`. -/
theorem stripped_view (S : List Nat) (tok : Nat) (L X : List Nat)
    (h : S.drop tok = L ++ 0 :: X) :
    ∃ D, trim S ⟨tok, (Spec.cutComment L).length⟩ =
        ⟨tok + ((Spec.cutComment L).takeWhile Spec.isSpaceTab).length,
          (Spec.stripped L).length⟩ ∧
      S.drop (tok + ((Spec.cutComment L).takeWhile Spec.isSpaceTab).length) =
        Spec.stripped L ++ (D ++ 0 :: X) ∧
      ((Spec.cutComment L).takeWhile Spec.isSpaceTab).length + (Spec.stripped L).length +
        D.length = L.length := by
  have hcut : S.drop tok =
      Spec.cutComment L ++ (L.dropWhile (fun c => !Spec.isComment c) ++ 0 :: X) := by
    rw [← List.append_assoc]; unfold Spec.cutComment
    rw [List.takeWhile_append_dropWhile]; exact h
  obtain ⟨post1, hp1⟩ := trimSpaces_decomp (Spec.cutComment L)
  refine ⟨post1 ++ L.dropWhile (fun c => !Spec.isComment c), ?_, ?_, ?_⟩
  · rw [trim_spec S tok _ _ hcut]; rfl
  · apply drop_add_of_drop (A := (Spec.cutComment L).takeWhile Spec.isSpaceTab)
    rw [hcut]
    conv_lhs => rw [hp1]
    simp [Spec.stripped]
  · have h1 := congrArg List.length hp1
    have h2 := congrArg List.length
      (List.takeWhile_append_dropWhile (fun c => !Spec.isComment c) L)
    simp only [List.length_append] at h1 h2 ⊢
    unfold Spec.stripped
    unfold Spec.cutComment at h1 ⊢
    omega

theorem lineStep_unfold (S : List Nat) (tok : Nat) (L X : List Nat)
    (h : S.drop tok = L ++ 0 :: X) (hL : ∀ a ∈ L, a ≠ 0) (hs : Spec.stripped L ≠ []) :
    lineStep S tok = splitEntry S
      ⟨tok + ((Spec.cutComment L).takeWhile Spec.isSpaceTab).length,
        (Spec.stripped L).length⟩ := by
  obtain ⟨D, htrim, _, _⟩ := stripped_view S tok L X h
  unfold lineStep
  simp only [strlen_eq_cstr_length, cstr_of_drop h hL, stripComment_spec S tok L _ h, htrim]
  have : (Spec.stripped L).length ≠ 0 := by
    intro hc; exact hs (List.length_eq_zero.mp hc)
  simp [Slice.empty, this]

theorem lineStep_noSeparator (S : List Nat) (tok : Nat) (L X : List Nat)
    (h : S.drop tok = L ++ 0 :: X) (hL : ∀ a ∈ L, a ≠ 0) (hs : Spec.stripped L ≠ [])
    (hsep : Spec.hasSeparator (Spec.stripped L) = false) :
    lineStep S tok = some LineStep.noSeparator := by
  obtain ⟨D, _, hview, _⟩ := stripped_view S tok L X h
  rw [lineStep_unfold S tok L X h hL hs]
  exact splitEntry_noSeparator S _ _ _ hview hsep

theorem lineStep_pushed (S : List Nat) (tok : Nat) (L X : List Nat)
    (h : S.drop tok = L ++ 0 :: X) (hL : ∀ a ∈ L, a ≠ 0) (hs : Spec.stripped L ≠ [])
    (hsep : Spec.hasSeparator (Spec.stripped L) = true) :
    ∃ k v S2, lineStep S tok = some (LineStep.pushed k v S2) ∧
      ZeroedFrom tok S S2 ∧
      (∃ T, S2.drop k = Spec.keyOf (Spec.stripped L) ++ 0 :: T) ∧
      (∃ T, S2.drop v = Spec.valueOf (Spec.stripped L) ++ 0 :: T) ∧
      tok ≤ k ∧ k + (Spec.keyOf (Spec.stripped L)).length < v ∧
      v + (Spec.valueOf (Spec.stripped L)).length ≤ tok + L.length ∧
      S2.drop (tok + L.length) = 0 :: X := by
  obtain ⟨D, _, hview, hlen⟩ := stripped_view S tok L X h
  obtain ⟨k, v, S2, e, hz, hk, hv, b1, b2, b3, b4, htail⟩ :=
    splitEntry_pushed S _ (Spec.stripped L) (D ++ 0 :: X) hview (by simp) hsep
  refine ⟨k, v, S2, ?_, hz.weaken (by omega), hk, hv, by omega, by omega, by omega, ?_⟩
  · rw [lineStep_unfold S tok L X h hL hs]; exact e
  · have hpos : tok + L.length =
        tok + ((Spec.cutComment L).takeWhile Spec.isSpaceTab).length +
          (Spec.stripped L).length + D.length := by omega
    rw [hpos]
    rcases htail with ht | ⟨y, C, hyC, ht⟩
    · exact drop_add_of_drop ht
    · cases D with
      | nil =>
        simp only [List.nil_append, List.cons.injEq] at hyC
        simpa [hyC.2] using ht
      | cons d D' =>
        simp only [List.cons_append, List.cons.injEq] at hyC
        have := drop_add_of_drop (A := 0 :: D') (B := 0 :: X) (by rw [ht, ← hyC.2]; simp)
        simpa using this



theorem newline_pred :
    (fun c => c != 0 && [13, 10].contains c) = (fun c => c != 0 && Spec.isNewline c) := by
  funext c
  simp only [Spec.isNewline, List.contains, List.elem]
  cases (c == 13) <;> cases (c == 10) <;> rfl

theorem not_newline_pred :
    (fun c => c != 0 && !(List.contains [13, 10] c)) = (fun c => c != 0 && !Spec.isNewline c) := by
  funext c
  simp only [Spec.isNewline, List.contains, List.elem]
  cases (c == 13) <;> cases (c == 10) <;> rfl

theorem takeWhile_nonzero_and (f : Nat → Bool) (r X : List Nat) (hr : ∀ a ∈ r, a ≠ 0) :
    (r ++ 0 :: X).takeWhile (fun c => c != 0 && f c) = r.takeWhile f := by
  induction r with
  | nil => simp
  | cons a r ih =>
    have ha : a ≠ 0 := hr a (List.mem_cons_self _ _)
    have ih' := ih (fun b hb => hr b (List.mem_cons_of_mem _ hb))
    simp only [List.cons_append, List.takeWhile_cons]
    by_cases hf : f a = true
    · simp [ha, hf, ih']
    · simp [ha, hf]

/-- What `strtok` does on a buffer whose C string at `save` is `r`. -/
theorem strtok_none (S : List Nat) (save : Nat) (r X : List Nat)
    (h : S.drop save = r ++ 0 :: X) (hr : ∀ a ∈ r, a ≠ 0)
    (he : r.dropWhile Spec.isNewline = []) :
    (strtok S save [13, 10]).1 = none := by
  unfold strtok strspn
  rw [newline_pred, h, takeWhile_nonzero_and _ r X hr]
  have hd : S.drop (save + (r.takeWhile Spec.isNewline).length) =
      r.dropWhile Spec.isNewline ++ 0 :: X := by
    apply drop_add_of_drop (A := r.takeWhile Spec.isNewline)
    rw [← List.append_assoc, List.takeWhile_append_dropWhile]; exact h
  rw [he] at hd
  have := getD_of_drop (by simpa using hd : S.drop _ = 0 :: X)
  dsimp only
  rw [this]
  rfl

theorem strtok_some (S : List Nat) (save : Nat) (r X : List Nat)
    (h : S.drop save = r ++ 0 :: X) (hr : ∀ a ∈ r, a ≠ 0)
    (hne : r.dropWhile Spec.isNewline ≠ []) :
    ∃ tok S1 save1 X1, strtok S save [13, 10] = (some (tok, S1), save1) ∧
      S1.drop tok = (r.dropWhile Spec.isNewline).takeWhile (fun c => !Spec.isNewline c)
        ++ 0 :: X1 ∧
      ZeroedFrom save S S1 ∧ save ≤ tok ∧
      tok + ((r.dropWhile Spec.isNewline).takeWhile (fun c => !Spec.isNewline c)).length
        ≤ save1 ∧
      (∀ S2 : List Nat,
        S2.drop (tok +
          ((r.dropWhile Spec.isNewline).takeWhile (fun c => !Spec.isNewline c)).length)
            = 0 :: X1 →
        S2.drop save1 =
          (((r.dropWhile Spec.isNewline).dropWhile (fun c => !Spec.isNewline c)).drop 1)
            ++ 0 :: X) := by
  set r' := r.dropWhile Spec.isNewline with hr'
  set L := r'.takeWhile (fun c => !Spec.isNewline c) with hLdef
  set rn := r'.dropWhile (fun c => !Spec.isNewline c) with hrn
  have hr'0 : ∀ a ∈ r', a ≠ 0 := fun a ha => hr a ((List.dropWhile_suffix _).subset ha)
  have hd : S.drop (save + (r.takeWhile Spec.isNewline).length) = r' ++ 0 :: X := by
    apply drop_add_of_drop (A := r.takeWhile Spec.isNewline)
    rw [← List.append_assoc, List.takeWhile_append_dropWhile]; exact h
  have hdL : S.drop (save + (r.takeWhile Spec.isNewline).length) = L ++ (rn ++ 0 :: X) := by
    rw [hd, ← List.append_assoc, List.takeWhile_append_dropWhile]
  obtain ⟨c, r'', hc⟩ : ∃ c r'', r' = c :: r'' := by
    cases hcs : r' with
    | nil => exact absurd hcs hne
    | cons c r'' => exact ⟨c, r'', rfl⟩
  have hc0 : c ≠ 0 := hr'0 c (by rw [hc]; exact List.mem_cons_self _ _)
  have hg1 : S.getD (save + (r.takeWhile Spec.isNewline).length) 0 = c :=
    getD_of_drop (by rw [hd, hc]; rfl)
  have e0 : strtok S save [13, 10] =
      (if S.getD (save + (r.takeWhile Spec.isNewline).length + L.length) 0 == 0 then
        (some (save + (r.takeWhile Spec.isNewline).length, S),
          save + (r.takeWhile Spec.isNewline).length + L.length)
      else
        (some (save + (r.takeWhile Spec.isNewline).length,
            S.set (save + (r.takeWhile Spec.isNewline).length + L.length) 0),
          save + (r.takeWhile Spec.isNewline).length + L.length + 1)) := by
    unfold strtok strspn strcspn
    simp only [newline_pred, not_newline_pred]
    rw [h, takeWhile_nonzero_and _ r X hr, hg1]
    have : (c == 0) = false := by simpa using hc0
    simp only [this, Bool.false_eq_true, if_false]
    rw [hd, takeWhile_nonzero_and _ r' X hr'0]
  cases hrn' : rn with
  | nil =>
    have hdL' : S.drop (save + (r.takeWhile Spec.isNewline).length) = L ++ 0 :: X := by
      rw [hdL, hrn']; rfl
    have hg2 := getD_add_of_drop hdL'
    refine ⟨_, S, _, X, ?_, hdL', ZeroedFrom.refl _ _, by omega, le_refl _, ?_⟩
    · rw [e0, hg2]; rfl
    · intro S2 hS2
      rw [hS2]; simp
  | cons d rn' =>
    have hdL' : S.drop (save + (r.takeWhile Spec.isNewline).length) =
        L ++ d :: (rn' ++ 0 :: X) := by
      rw [hdL, hrn']; rfl
    have hd0 : d ≠ 0 := by
      apply hr'0
      have : d ∈ rn := by rw [hrn']; exact List.mem_cons_self _ _
      exact (List.dropWhile_suffix _).subset this
    have hg2 : S.getD (save + (r.takeWhile Spec.isNewline).length + L.length) 0 = d :=
      getD_add_of_drop hdL'
    refine ⟨save + (r.takeWhile Spec.isNewline).length,
      S.set (save + (r.takeWhile Spec.isNewline).length + L.length) 0,
      save + (r.takeWhile Spec.isNewline).length + L.length + 1, rn' ++ 0 :: X, ?_,
      drop_set_of_drop hdL', ZeroedFrom.set S (by omega), by omega, by omega, ?_⟩
    · rw [e0, hg2]
      have : (d == 0) = false := by simpa using hd0
      simp [this]
    · intro S2 hS2
      have := drop_add_of_drop (A := [0]) (B := rn' ++ 0 :: X) (by rw [hS2]; rfl)
      simpa [Nat.add_assoc] using this



/-! ## Lines of the specification, token by token -/

theorem lines_eq (cs : List Nat) :
    Spec.lines cs = cs.takeWhile (fun c => !Spec.isNewline c) ::
      (match cs.dropWhile (fun c => !Spec.isNewline c) with
       | [] => []
       | _ :: t => Spec.lines t) := by
  induction cs with
  | nil => simp [Spec.lines, List.splitOnP_nil]
  | cons c cs ih =>
    unfold Spec.lines at ih ⊢
    rw [List.splitOnP_cons]
    by_cases hc : Spec.isNewline c = true
    · simp [hc, List.takeWhile_cons, List.dropWhile_cons]
    · simp only [hc, if_false, Bool.false_eq_true]
      rw [ih]
      simp [List.takeWhile_cons, List.dropWhile_cons, hc, List.modifyHead]

theorem stripped_nil : Spec.stripped [] = [] := by
  simp [Spec.stripped, Spec.cutComment, Spec.trimSpaces, List.rdropWhile]

theorem entryLines_nil : Spec.entryLines [] = [] := by
  simp [Spec.entryLines, Spec.lines, List.splitOnP_nil, stripped_nil]

theorem entryLines_token (r : List Nat) :
    Spec.entryLines r =
      (if Spec.stripped (r.takeWhile (fun c => !Spec.isNewline c)) = [] then []
        else [Spec.stripped (r.takeWhile (fun c => !Spec.isNewline c))]) ++
      Spec.entryLines ((r.dropWhile (fun c => !Spec.isNewline c)).drop 1) := by
  have h := lines_eq r
  cases hrn : r.dropWhile (fun c => !Spec.isNewline c) with
  | nil =>
    rw [hrn] at h
    simp only [List.drop_nil, entryLines_nil, List.append_nil]
    unfold Spec.entryLines
    rw [h]
    by_cases hs : Spec.stripped (r.takeWhile (fun c => !Spec.isNewline c)) = []
    · simp [hs]
    · simp [hs]
  | cons d t =>
    rw [hrn] at h
    simp only [List.drop_succ_cons, List.drop_zero]
    unfold Spec.entryLines
    rw [h]
    by_cases hs : Spec.stripped (r.takeWhile (fun c => !Spec.isNewline c)) = []
    · simp [hs]
    · simp [hs]

theorem entryLines_dropNewlines (r : List Nat) :
    Spec.entryLines r = Spec.entryLines (r.dropWhile Spec.isNewline) := by
  induction r with
  | nil => rfl
  | cons c cs ih =>
    by_cases hc : Spec.isNewline c = true
    · rw [List.dropWhile_cons_of_pos hc, ← ih]
      unfold Spec.entryLines Spec.lines
      rw [List.splitOnP_cons]
      simp [hc, stripped_nil]
    · rw [List.dropWhile_cons_of_neg hc]

theorem trimSpaces_sublist (l : List Nat) : (Spec.trimSpaces l).Sublist l :=
  ( List.rdropWhile_prefix _ _).sublist.trans (List.dropWhile_suffix _).sublist

theorem stripped_sublist (l : List Nat) : (Spec.stripped l).Sublist l :=
  (trimSpaces_sublist _).trans (List.takeWhile_sublist _)

theorem keyOf_sublist (l : List Nat) : (Spec.keyOf l).Sublist l :=
  (trimSpaces_sublist _).trans (List.takeWhile_sublist _)

theorem valueOf_sublist (l : List Nat) : (Spec.valueOf l).Sublist l :=
  (trimSpaces_sublist _).trans ((List.drop_sublist _ _).trans (List.dropWhile_suffix _).sublist)



/-- The tokenizing loop against the specification: started at `save` on a buffer whose C
string there is `r`, it ends, pushes one entry per stripped non-empty line of `r` up to
the first line without a separator, and stops normally iff there is no such line.  Every
pushed entry lies at or after `save`, and its strings are read in the final buffer. -/
theorem parseLoop_spec : ∀ (fuel : Nat) (S : List Nat) (save : Nat) (acc : List (Nat × Nat))
    (r X : List Nat), S.drop save = r ++ 0 :: X → (∀ a ∈ r, a ≠ 0) → r.length < fuel →
    ∃ P new, parseLoop fuel S save acc = some P ∧ P.entries = acc ++ new ∧
      ZeroedFrom save S P.storage ∧
      entryStrings P.storage new =
        ((Spec.entryLines r).takeWhile Spec.hasSeparator).map Spec.pairOf ∧
      P.ok = (Spec.entryLines r).all Spec.hasSeparator := by
  intro fuel
  induction fuel with
  | zero => intro S save acc r X _ _ hlt; omega
  | succ fuel ih =>
    intro S save acc r X h hr hlt
    by_cases he : r.dropWhile Spec.isNewline = []
    · -- no further token
      have hnone := strtok_none S save r X h hr he
      refine ⟨⟨acc, S, true⟩, [], ?_, by simp, ZeroedFrom.refl _ _, ?_, ?_⟩
      · unfold parseLoop
        cases hst : strtok S save [13, 10] with
        | mk a b =>
          rw [hst] at hnone
          simp only at hnone
          subst hnone
          rfl
      · rw [entryLines_dropNewlines, he, entryLines_nil]; rfl
      · rw [entryLines_dropNewlines, he, entryLines_nil]; rfl
    · obtain ⟨tok, S1, save1, X1, hst, hd1, hz1, hle1, hle2, hnext⟩ :=
        strtok_some S save r X h hr he
      set r' := r.dropWhile Spec.isNewline with hr'
      set L := r'.takeWhile (fun c => !Spec.isNewline c) with hLdef
      set r1 := (r'.dropWhile (fun c => !Spec.isNewline c)).drop 1 with hr1
      have hr'0 : ∀ a ∈ r', a ≠ 0 := fun a ha => hr a ((List.dropWhile_suffix _).subset ha)
      have hL0 : ∀ a ∈ L, a ≠ 0 := fun a ha => hr'0 a ((List.takeWhile_sublist _).subset ha)
      have hr10 : ∀ a ∈ r1, a ≠ 0 := fun a ha =>
        hr'0 a ((List.dropWhile_suffix _).subset ((List.drop_sublist _ _).subset ha))
      have hLne : L ≠ [] := by
        cases hcs : r' with
        | nil => exact absurd hcs he
        | cons c t =>
          have hcn : Spec.isNewline c = false := by
            have := List.head_dropWhile_not Spec.isNewline r (by rw [← hr', hcs]; simp)
            simpa [← hr', hcs] using this
          rw [hLdef, hcs, List.takeWhile_cons]
          simp [hcn]
      have hlen1 : r1.length < fuel := by
        have h1 : r1.length ≤ (r'.dropWhile (fun c => !Spec.isNewline c)).length := by
          rw [hr1, List.length_drop]; omega
        have h2 : L.length + (r'.dropWhile (fun c => !Spec.isNewline c)).length = r'.length := by
          rw [← List.length_append, hLdef, List.takeWhile_append_dropWhile]
        have h3 : r'.length ≤ r.length := (List.dropWhile_suffix _).sublist.length_le
        have h4 : 0 < L.length := List.length_pos.mpr hLne
        omega
      have hspec : Spec.entryLines r =
          (if Spec.stripped L = [] then [] else [Spec.stripped L]) ++ Spec.entryLines r1 := by
        rw [entryLines_dropNewlines, entryLines_token]
      by_cases hs : Spec.stripped L = []
      · -- a blank line
        have hstep := lineStep_skipped S1 tok L X1 hd1 hL0 hs
        obtain ⟨P, new, hP, hent, hz, hstr, hok⟩ :=
          ih S1 save1 acc r1 X (hnext S1 (drop_add_of_drop hd1)) hr10 hlen1
        refine ⟨P, new, ?_, hent, hz1.trans (hz.weaken (by omega)), ?_, ?_⟩
        · unfold parseLoop
          simp only [hst, hstep]
          exact hP
        · rw [hspec, hs]; simpa using hstr
        · rw [hspec, hs]; simpa using hok
      · by_cases hsep : Spec.hasSeparator (Spec.stripped L) = true
        · -- an entry
          obtain ⟨k, v, S2, hstep, hz2, ⟨Tk, hk⟩, ⟨Tv, hv⟩, b1, b2, b3, htail⟩ :=
            lineStep_pushed S1 tok L X1 hd1 hL0 hs hsep
          obtain ⟨P, new, hP, hent, hz, hstr, hok⟩ :=
            ih S2 save1 (acc ++ [(k, v)]) r1 X (hnext S2 htail) hr10 hlen1
          have hkey0 : ∀ a ∈ Spec.keyOf (Spec.stripped L), a ≠ 0 := fun a ha =>
            hL0 a ((stripped_sublist L).subset ((keyOf_sublist _).subset ha))
          have hval0 : ∀ a ∈ Spec.valueOf (Spec.stripped L), a ≠ 0 := fun a ha =>
            hL0 a ((stripped_sublist L).subset ((valueOf_sublist _).subset ha))
          have hck : cstr P.storage k = Spec.keyOf (Spec.stripped L) :=
            cstr_stable hk hkey0 (by omega) hz
          have hcv : cstr P.storage v = Spec.valueOf (Spec.stripped L) :=
            cstr_stable hv hval0 (by omega) hz
          refine ⟨P, (k, v) :: new, ?_, by simp [hent],
            hz1.trans ((hz2.weaken (by omega)).trans (hz.weaken (by omega))), ?_, ?_⟩
          · unfold parseLoop
            simp only [hst, hstep]
            exact hP
          · rw [hspec]
            simp only [hs, if_false, List.singleton_append, List.takeWhile_cons, hsep, if_true,
              List.map_cons]
            unfold entryStrings at hstr ⊢
            simp only [List.map_cons, hck, hcv, hstr]
            rfl
          · rw [hspec]
            simp only [hs, if_false, List.singleton_append, List.all_cons, hsep, Bool.true_and]
            exact hok
        · -- a line without separator
          have hsep' : Spec.hasSeparator (Spec.stripped L) = false := by simpa using hsep
          have hstep := lineStep_noSeparator S1 tok L X1 hd1 hL0 hs hsep'
          refine ⟨⟨acc, S1, false⟩, [], ?_, by simp, hz1, ?_, ?_⟩
          · unfold parseLoop
            simp only [hst, hstep]
          · rw [hspec]
            simp [hs, List.takeWhile_cons, hsep', entryStrings]
          · rw [hspec]
            simp [hs, hsep']



theorem lexLt_iff_lt (a b : List Nat) : lexLt a b ↔ a < b := Iff.rfl

theorem cstr_ne_zero (mem : List Nat) (p : Nat) : ∀ a ∈ cstr mem p, a ≠ 0 := by
  intro a ha
  have := List.mem_takeWhile_imp ha
  simpa using this

theorem strcmpL_lt_iff : ∀ (a b : List Nat), (∀ x ∈ a, x ≠ 0) → (∀ x ∈ b, x ≠ 0) →
    (strcmpL a b < 0 ↔ lexLt a b) := by
  intro a
  induction a with
  | nil =>
    intro b _ hb
    cases b with
    | nil => simp [strcmpL, lexLt]
    | cons y ys =>
      have : y ≠ 0 := hb y (List.mem_cons_self _ _)
      simp only [strcmpL, lexLt]
      constructor
      · intro _; exact List.Lex.nil
      · intro _; omega
  | cons x xs ih =>
    intro b ha hb
    cases b with
    | nil =>
      simp only [strcmpL, lexLt]
      constructor
      · intro h; omega
      · intro h; exact absurd h (List.Lex.not_nil_right _ _)
    | cons y ys =>
      simp only [strcmpL]
      by_cases hxy : x = y
      · subst hxy
        simp only [if_true]
        rw [ih ys (fun z hz => ha z (List.mem_cons_of_mem _ hz))
          (fun z hz => hb z (List.mem_cons_of_mem _ hz))]
        unfold lexLt
        exact (List.Lex.cons_iff).symm
      · simp only [hxy, if_false]
        unfold lexLt
        constructor
        · intro h; exact List.Lex.rel (by omega)
        · intro h
          cases h with
          | cons h' => exact absurd rfl hxy
          | rel h' => omega

theorem strcmpL_eq_zero_iff : ∀ (a b : List Nat), (∀ x ∈ a, x ≠ 0) → (∀ x ∈ b, x ≠ 0) →
    (strcmpL a b = 0 ↔ a = b) := by
  intro a
  induction a with
  | nil =>
    intro b _ hb
    cases b with
    | nil => simp [strcmpL]
    | cons y ys =>
      have : y ≠ 0 := hb y (List.mem_cons_self _ _)
      simp only [strcmpL]
      constructor
      · intro h; omega
      · intro h; cases h
  | cons x xs ih =>
    intro b ha hb
    have hx : x ≠ 0 := ha x (List.mem_cons_self _ _)
    cases b with
    | nil =>
      simp only [strcmpL]
      constructor
      · intro h; omega
      · intro h; cases h
    | cons y ys =>
      simp only [strcmpL]
      by_cases hxy : x = y
      · subst hxy
        simp only [if_true]
        rw [ih ys (fun z hz => ha z (List.mem_cons_of_mem _ hz))
          (fun z hz => hb z (List.mem_cons_of_mem _ hz))]
        simp
      · simp only [hxy, if_false]
        constructor
        · intro h; omega
        · intro h; exact absurd (List.cons.inj h).1 hxy

theorem keyLE_iff (x y : List Nat × List Nat) : keyLE x y ↔ x.1 ≤ y.1 := by
  unfold keyLE
  rw [lexLt_iff_lt]
  exact not_lt

theorem entryStrings_std_sort (mem : List Nat) (es : List (Nat × Nat)) :
    entryStrings mem (std_sort (fun a b => decide (strcmp mem a.1 b.1 < 0)) es) =
      (entryStrings mem es).insertionSort keyLE := by
  unfold entryStrings std_sort
  apply List.map_insertionSort
  intro a _ b _
  simp only [decide_eq_false_iff_not, keyLE, strcmp]
  rw [strcmpL_lt_iff _ _ (cstr_ne_zero _ _) (cstr_ne_zero _ _)]

theorem sorted_insertionSort_keyLE (l : List (List Nat × List Nat)) :
    (l.insertionSort keyLE).Sorted keyLE := by
  haveI : IsTotal (List Nat × List Nat) keyLE :=
    ⟨fun a b => by simp only [keyLE_iff]; exact le_total _ _⟩
  haveI : IsTrans (List Nat × List Nat) keyLE :=
    ⟨fun a b c => by simp only [keyLE_iff]; exact le_trans⟩
  exact List.sorted_insertionSort keyLE l



theorem hasDuplicate_some (mem : List Nat) : ∀ (es : List (Nat × Nat)) (pk : Nat),
    (hasDuplicate mem (some pk) es = false ↔
      List.Chain (fun a b => a ≠ b) (cstr mem pk) ((entryStrings mem es).map Prod.fst)) := by
  intro es
  induction es with
  | nil => intro pk; simp [hasDuplicate, entryStrings]
  | cons e es ih =>
    intro pk
    simp only [hasDuplicate, entryStrings, List.map_cons, List.chain_cons]
    have ih' := ih e.1
    unfold entryStrings at ih'
    by_cases h0 : strcmp mem pk e.1 = 0
    · have heq : cstr mem pk = cstr mem e.1 :=
        (strcmpL_eq_zero_iff _ _ (cstr_ne_zero _ _) (cstr_ne_zero _ _)).mp h0
      simp [h0, heq]
    · have hne : cstr mem pk ≠ cstr mem e.1 := fun hc =>
        h0 ((strcmpL_eq_zero_iff _ _ (cstr_ne_zero _ _) (cstr_ne_zero _ _)).mpr hc)
      simp only [beq_iff_eq, h0, if_false, ih', hne, ne_eq, not_false_eq_true, true_and]

theorem hasDuplicate_none (mem : List Nat) (es : List (Nat × Nat)) :
    (hasDuplicate mem none es = false ↔
      List.Chain' (fun a b => a ≠ b) ((entryStrings mem es).map Prod.fst)) := by
  cases es with
  | nil => simp [hasDuplicate, entryStrings]
  | cons e es => exact hasDuplicate_some mem es e.1

theorem chain_and {α : Type} {R T : α → α → Prop} : ∀ (l : List α) (a : α),
    List.Chain R a l → List.Chain T a l → List.Chain (fun x y => R x y ∧ T x y) a l := by
  intro l
  induction l with
  | nil => intro a _ _; exact List.Chain.nil
  | cons b l ih =>
    intro a h1 h2
    rw [List.chain_cons] at h1 h2 ⊢
    exact ⟨⟨h1.1, h2.1⟩, ih b h1.2 h2.2⟩

theorem chain'_and {α : Type} {R T : α → α → Prop} (l : List α)
    (h1 : List.Chain' R l) (h2 : List.Chain' T l) :
    List.Chain' (fun x y => R x y ∧ T x y) l := by
  cases l with
  | nil => exact List.chain'_nil
  | cons a l => exact chain_and l a h1 h2

/-- A list sorted by `keyLE` has no two adjacent equal keys iff its keys are pairwise
distinct, and then its keys are strictly ascending. -/
theorem sorted_chain_iff_nodup (l : List (List Nat × List Nat)) (hs : l.Sorted keyLE) :
    (List.Chain' (fun a b => a ≠ b) (l.map Prod.fst) ↔ (l.map Prod.fst).Nodup) ∧
    ((l.map Prod.fst).Nodup → (l.map Prod.fst).Sorted lexLt) := by
  have hle : (l.map Prod.fst).Sorted (· ≤ ·) := by
    rw [List.Sorted, List.pairwise_map]
    exact hs.imp (fun {a b} h => (keyLE_iff a b).mp h)
  have hlt : (l.map Prod.fst).Nodup → (l.map Prod.fst).Sorted lexLt := by
    intro hn
    have : (l.map Prod.fst).Sorted (· < ·) := hle.lt_of_le hn
    exact this
  refine ⟨⟨fun hc => ?_, fun hn => ?_⟩, hlt⟩
  · have h1 : List.Chain' (· ≤ ·) (l.map Prod.fst) := List.Pairwise.chain' hle
    have h2 : List.Chain' (· < ·) (l.map Prod.fst) :=
      (chain'_and _ hc h1).imp (fun {a b} h => lt_of_le_of_ne h.2 h.1)
    have h3 : (l.map Prod.fst).Pairwise (· < ·) := List.chain'_iff_pairwise.mp h2
    exact h3.imp (fun {a b} h => ne_of_lt h)
  · exact List.Pairwise.chain' hn



/-- The part of a content that the C-string functions see: the bytes before the first
zero byte. -/
theorem storage_decomp (content : List Nat) :
    ∃ X, content ++ [0] = content.takeWhile (fun c => c != 0) ++ 0 :: X := by
  cases hd : content.dropWhile (fun c => c != 0) with
  | nil =>
    refine ⟨[], ?_⟩
    have := List.takeWhile_append_dropWhile (fun c => c != 0) content
    rw [hd, List.append_nil] at this
    rw [this]
  | cons d rest =>
    have hd0 : d = 0 := by
      have := List.head_dropWhile_not (fun c => c != 0) content (by rw [hd]; simp)
      simpa [hd] using this
    refine ⟨rest ++ [0], ?_⟩
    have := List.takeWhile_append_dropWhile (fun c => c != 0) content
    rw [hd, hd0] at this
    conv_lhs => rw [← this]
    simp

theorem takeWhile_ne_zero_of_no_zero (content : List Nat) (h : ∀ c ∈ content, c ≠ 0) :
    content.takeWhile (fun c => c != 0) = content := by
  rw [List.takeWhile_eq_self_iff]
  intro c hc
  simpa using h c hc

/-- The constructor against the specification, where `E` is the list of stripped non-empty
lines of the content (up to its first zero byte, if it has one). -/
theorem load_spec (content : List Nat) :
    ∃ t, CFG.load content = some t ∧
      t.strings.Perm
        (((Spec.entryLines (content.takeWhile (fun c => c != 0))).takeWhile
          Spec.hasSeparator).map Spec.pairOf) ∧
      (t.valid = true ↔
        (Spec.entryLines (content.takeWhile (fun c => c != 0))).all Spec.hasSeparator = true ∧
        ((Spec.entryLines (content.takeWhile (fun c => c != 0))).map Spec.keyOf).Nodup) ∧
      (t.valid = true → (t.strings.map Prod.fst).Sorted lexLt) ∧
      ((Spec.entryLines (content.takeWhile (fun c => c != 0))).all Spec.hasSeparator = false →
        t.strings = ((Spec.entryLines (content.takeWhile (fun c => c != 0))).takeWhile
          Spec.hasSeparator).map Spec.pairOf) := by
  obtain ⟨X, hX⟩ := storage_decomp content
  set c0 := content.takeWhile (fun c => c != 0) with hc0
  have hc00 : ∀ a ∈ c0, a ≠ 0 := by
    intro a ha
    have := List.mem_takeWhile_imp ha
    simpa using this
  have hlen : c0.length < (content ++ [0]).length + 1 := by
    have : c0.length ≤ content.length := (List.takeWhile_sublist _).length_le
    simp; omega
  obtain ⟨P, new, hP, hent, _, hstr, hok⟩ :=
    parseLoop_spec ((content ++ [0]).length + 1) (content ++ [0]) 0 [] c0 X
      (by simpa using hX) hc00 hlen
  simp only [List.nil_append] at hent
  rw [← hent] at hstr
  set E := Spec.entryLines c0 with hE
  by_cases hokb : P.ok = true
  · -- the loop ended normally
    have hall : E.all Spec.hasSeparator = true := by rw [← hok]; exact hokb
    have htw : E.takeWhile Spec.hasSeparator = E := by
      rw [List.takeWhile_eq_self_iff]
      intro x hx
      exact (List.all_eq_true.mp hall) x hx
    set sorted := std_sort (fun a b => decide (strcmp P.storage a.1 b.1 < 0)) P.entries
      with hsorted
    have hss : entryStrings P.storage sorted =
        (entryStrings P.storage P.entries).insertionSort keyLE :=
      entryStrings_std_sort P.storage P.entries
    have hperm : (entryStrings P.storage sorted).Perm (E.map Spec.pairOf) := by
      rw [hss, hstr, htw]
      exact List.perm_insertionSort _ _
    have hsrt : (entryStrings P.storage sorted).Sorted keyLE := by
      rw [hss]; exact sorted_insertionSort_keyLE _
    obtain ⟨hiff, hlt⟩ := sorted_chain_iff_nodup _ hsrt
    have hkeys : ((entryStrings P.storage sorted).map Prod.fst).Perm (E.map Spec.keyOf) := by
      have := hperm.map Prod.fst
      simpa [Spec.pairOf, Function.comp] using this
    by_cases hdup : hasDuplicate P.storage none sorted = true
    · refine ⟨⟨sorted, P.storage, false⟩, ?_, ?_, ?_, ?_, ?_⟩
      · unfold CFG.load
        simp only [hP, hokb, ← hsorted, hdup]
        simp
      · rw [htw]; exact hperm
      · simp only [Bool.false_eq_true, false_iff, not_and]
        intro _ hn
        have hch := hiff.mpr (hkeys.nodup_iff.mpr hn)
        rw [← hasDuplicate_none] at hch
        rw [hch] at hdup
        exact Bool.noConfusion hdup
      · intro h; exact Bool.noConfusion h
      · intro h; rw [hall] at h; exact Bool.noConfusion h
    · have hdup' : hasDuplicate P.storage none sorted = false := by simpa using hdup
      have hn : ((entryStrings P.storage sorted).map Prod.fst).Nodup :=
        hiff.mp ((hasDuplicate_none _ _).mp hdup')
      refine ⟨⟨sorted, P.storage, true⟩, ?_, ?_, ?_, ?_, ?_⟩
      · unfold CFG.load
        simp only [hP, hokb, ← hsorted, hdup']
        simp
      · rw [htw]; exact hperm
      · simp only [true_iff]
        exact ⟨hall, hkeys.nodup_iff.mp hn⟩
      · intro _; exact hlt hn
      · intro h; rw [hall] at h; exact Bool.noConfusion h
  · -- a line without separator stopped the loop
    have hokf : P.ok = false := by simpa using hokb
    have hall : E.all Spec.hasSeparator = false := by rw [← hok]; exact hokf
    refine ⟨⟨P.entries, P.storage, false⟩, ?_, ?_, ?_, ?_, ?_⟩
    · unfold CFG.load
      simp only [hP, hokf]
      simp
    · show (entryStrings P.storage P.entries).Perm _
      rw [hstr]
    · simp only [Bool.false_eq_true, false_iff, not_and]
      intro h; rw [hall] at h; exact Bool.noConfusion h
    · intro h; exact Bool.noConfusion h
    · intro _; exact hstr



/-! ## Lines of a prefix of a content -/

theorem takeWhile_initial_append (p : Nat → Bool) (A B : List Nat) :
    (A.takeWhile p) <+: (A ++ B).takeWhile p := by
  induction A with
  | nil => exact List.nil_prefix
  | cons a A ih =>
    by_cases ha : p a = true
    · simp only [List.cons_append, List.takeWhile_cons, ha, if_true]
      exact List.cons_prefix_cons.mpr ⟨rfl, ih⟩
    · simp [List.takeWhile_cons, ha]

theorem dropWhile_append_of_cons (p : Nat → Bool) (A B : List Nat) (d : Nat) (t : List Nat)
    (h : A.dropWhile p = d :: t) : (A ++ B).dropWhile p = d :: (t ++ B) := by
  induction A with
  | nil => simp at h
  | cons a A ih =>
    by_cases ha : p a = true
    · simp only [List.cons_append, List.dropWhile_cons, ha, if_true] at h ⊢
      exact ih h
    · simp only [List.cons_append, List.dropWhile_cons, ha, if_false, Bool.false_eq_true] at h ⊢
      obtain ⟨h1, h2⟩ := List.cons.inj h
      subst h1; subst h2; rfl

/-- Every line of a prefix of a content is a prefix of a line of the content. -/
theorem lines_of_initial_part : ∀ (n : Nat) (A B : List Nat), A.length ≤ n →
    ∀ l' ∈ Spec.lines A, ∃ l ∈ Spec.lines (A ++ B), l' <+: l := by
  intro n
  induction n with
  | zero =>
    intro A B hA l' hl'
    have : A = [] := List.length_eq_zero.mp (Nat.le_zero.mp hA)
    subst this
    rw [lines_eq] at hl'
    simp only [List.takeWhile_nil, List.dropWhile_nil, List.mem_singleton] at hl'
    subst hl'
    rw [lines_eq]
    exact ⟨_, List.mem_cons_self _ _, List.nil_prefix⟩
  | succ n ih =>
    intro A B hA l' hl'
    rw [lines_eq] at hl'
    rw [lines_eq (A ++ B)]
    rcases List.mem_cons.mp hl' with hhead | htail
    · subst hhead
      exact ⟨_, List.mem_cons_self _ _, takeWhile_initial_append _ A B⟩
    · cases hd : A.dropWhile (fun c => !Spec.isNewline c) with
      | nil => rw [hd] at htail; simp at htail
      | cons d t =>
        rw [hd] at htail
        simp only at htail
        have hlen : t.length ≤ n := by
          have h1 : (A.dropWhile (fun c => !Spec.isNewline c)).length ≤ A.length :=
            (List.dropWhile_suffix _).sublist.length_le
          rw [hd, List.length_cons] at h1
          omega
        obtain ⟨l, hl, hpre⟩ := ih t B hlen l' htail
        refine ⟨l, ?_, hpre⟩
        rw [dropWhile_append_of_cons _ A B d t hd]
        exact List.mem_cons_of_mem _ hl

theorem trimSpaces_eq_nil_of_all (l : List Nat) (h : ∀ c ∈ l, Spec.isSpaceTab c = true) :
    Spec.trimSpaces l = [] := by
  unfold Spec.trimSpaces
  have : l.dropWhile Spec.isSpaceTab = [] := List.dropWhile_eq_nil_iff.mpr h
  rw [this]
  simp [List.rdropWhile]

/-- Lines that are blank or hold only a comment give no entry line, also when only the
part of the content before its first zero byte is read. -/
theorem entryLines_takeWhile_eq_nil (content : List Nat)
    (h : ∀ l ∈ Spec.lines content, ∀ c ∈ Spec.cutComment l, Spec.isSpaceTab c = true) :
    Spec.entryLines (content.takeWhile (fun c => c != 0)) = [] := by
  unfold Spec.entryLines
  rw [List.filter_eq_nil_iff]
  intro s hs
  obtain ⟨l', hl', rfl⟩ := List.mem_map.mp hs
  have hcontent : content = content.takeWhile (fun c => c != 0) ++
      content.dropWhile (fun c => c != 0) := (List.takeWhile_append_dropWhile _ _).symm
  obtain ⟨l, hl, B, hB⟩ := lines_of_initial_part _ (content.takeWhile (fun c => c != 0))
    (content.dropWhile (fun c => c != 0)) (le_refl _) l' hl'
  rw [← hcontent] at hl
  have hcut : ∀ c ∈ Spec.cutComment l', Spec.isSpaceTab c = true := by
    intro c hc
    apply h l hl c
    have hp := takeWhile_initial_append (fun c => !Spec.isComment c) l' B
    rw [hB] at hp
    exact hp.subset hc
  simp [Spec.stripped, trimSpaces_eq_nil_of_all _ hcut]



/-! ## A line of the form `key = value ; comment` -/

theorem append_zero_decomp (c X : List Nat) :
    ∃ X1, c ++ 0 :: X = c.takeWhile (fun b => b != 0) ++ 0 :: X1 := by
  cases hd : c.dropWhile (fun b => b != 0) with
  | nil =>
    refine ⟨X, ?_⟩
    have := List.takeWhile_append_dropWhile (fun b => b != 0) c
    rw [hd, List.append_nil] at this
    rw [this]
  | cons d rest =>
    have hd0 : d = 0 := by
      have := List.head_dropWhile_not (fun b => b != 0) c (by rw [hd]; simp)
      simpa [hd] using this
    refine ⟨rest ++ 0 :: X, ?_⟩
    have := List.takeWhile_append_dropWhile (fun b => b != 0) c
    rw [hd, hd0] at this
    conv_lhs => rw [← this]
    simp

theorem rdropWhile_append_of_pos (p : Nat → Bool) (m b : List Nat) (hb : ∀ c ∈ b, p c = true) :
    (m ++ b).rdropWhile p = m.rdropWhile p := by
  unfold List.rdropWhile
  rw [List.reverse_append, List.dropWhile_append_of_pos (by simpa using hb)]

theorem rdropWhile_eq_self_of_last (p : Nat → Bool) (m : List Nat)
    (hl : ∀ c, m.getLast? = some c → p c = false) : m.rdropWhile p = m := by
  induction m using List.reverseRecOn with
  | nil => rfl
  | append_singleton m x _ =>
    have : p x = false := hl x (by simp)
    rw [List.rdropWhile_concat]
    simp [this]

theorem dropWhile_eq_self_of_head (p : Nat → Bool) (m : List Nat)
    (hh : ∀ c, m.head? = some c → p c = false) : m.dropWhile p = m := by
  cases m with
  | nil => rfl
  | cons x m =>
    have : p x = false := hh x rfl
    simp [List.dropWhile_cons, this]

/-- Trimming a string with spaces and tabs around a part that has none at its ends gives
that part. -/
theorem trimSpaces_sandwich (a m b : List Nat) (ha : ∀ c ∈ a, Spec.isSpaceTab c = true)
    (hb : ∀ c ∈ b, Spec.isSpaceTab c = true)
    (hh : ∀ c, m.head? = some c → Spec.isSpaceTab c = false)
    (hl : ∀ c, m.getLast? = some c → Spec.isSpaceTab c = false) :
    Spec.trimSpaces (a ++ m ++ b) = m := by
  unfold Spec.trimSpaces
  rw [List.append_assoc, List.dropWhile_append_of_pos ha]
  cases m with
  | nil =>
    simp only [List.nil_append]
    rw [List.dropWhile_eq_nil_iff.mpr hb]
    rfl
  | cons x m' =>
    have hx : Spec.isSpaceTab x = false := hh x rfl
    have : (x :: m' ++ b).dropWhile Spec.isSpaceTab = x :: m' ++ b := by
      simp [List.dropWhile_cons, hx]
    rw [this, rdropWhile_append_of_pos _ _ _ hb, rdropWhile_eq_self_of_last _ _ hl]

theorem head?_append_of_ne_nil (k r : List Nat) (hk : k ≠ []) : (k ++ r).head? = k.head? := by
  cases k with
  | nil => exact absurd rfl hk
  | cons x k => rfl

theorem getLast?_append_of_ne_nil (r v : List Nat) (hv : v ≠ []) :
    (r ++ v).getLast? = v.getLast? := by
  induction v using List.reverseRecOn with
  | nil => exact absurd rfl hv
  | append_singleton v x _ =>
    rw [← List.append_assoc]
    simp


/-! ## General facts about `find` -/

theorem std_lower_bound_of_all {α β : Type} (comp : α → β → Bool) (l : List α) (value : β)
    (h : ∀ a ∈ l, comp a value = true) : std_lower_bound comp l value = l.length := by
  unfold std_lower_bound
  rw [List.takeWhile_eq_self_iff.mpr h]

/-- In `cfg5-noalloc.h`, `find` with a pointer to a string outside `storage` never returns
an entry: whenever it returns, it returns `end()`. -/
theorem cfg5_find_elsewhere_never_finds (t : Cfg5.CFG) (s : List Nat) (i : Nat)
    (h : t.find (Cfg5.KeyPtr.elsewhere s) = .ok i) : i = t.entries.length := by
  unfold Cfg5.CFG.find at h
  by_cases hv : t.valid = true
  · simp only [hv, Bool.not_true, Bool.false_eq_true, if_false] at h
    split at h
    · exact Except.noConfusion h
    · simp only [Cfg5.KeyPtr.ptrEq, Bool.false_eq_true, if_false] at h
      exact (Except.ok.inj h).symm
  · simp [hv] at h

/-- In `cfg5-noalloc.h`, `find` with a key that compares greater than every stored key
reads the entry at index `size()`. -/
theorem cfg5_find_greater_key_outOfBounds (t : Cfg5.CFG) (key : Cfg5.KeyPtr)
    (hv : t.valid = true)
    (hall : ∀ e ∈ t.entries, strcmpL (cstr t.storage e.1) (key.str t.storage) < 0) :
    t.find key = .error Fault.outOfBounds := by
  unfold Cfg5.CFG.find
  simp only [hv, Bool.not_true, Bool.false_eq_true, if_false]
  rw [std_lower_bound_of_all _ _ _ (by simpa using hall)]
  simp

/-- In `cfg2-nomap.h` (and `cfg3-slices.h`, which has the same `find`), `find` with a key
that compares greater than every stored key reads the entry at index `size()`. -/
theorem cfg2_find_greater_key_outOfBounds (t : Cfg2.CFG) (key : List Nat)
    (hv : t.valid = true) (hall : ∀ e ∈ t.entries, lexLt e.1 key) :
    t.find key = .error Fault.outOfBounds := by
  unfold Cfg2.CFG.find
  simp only [hv, Bool.not_true, Bool.false_eq_true, if_false]
  rw [std_lower_bound_of_all _ _ _ (by simpa using hall)]
  simp

/-- In `cfg.h` and `cfg2-nomap.h`, `trim` returns a non-empty string of spaces and tabs
as it is. -/
theorem cfg1_trim_of_all_spaces (str : List Nat) (h : ∀ c ∈ str, c = 32 ∨ c = 9) :
    Cfg1.trim str = str := by
  have hnone : str.findIdx? (fun c => !Cfg1.SPACES.contains c) = none := by
    rw [List.findIdx?_eq_none_iff]
    intro c hc
    rcases h c hc with rfl | rfl <;> rfl
  have hnone' : str.reverse.findIdx? (fun c => !Cfg1.SPACES.contains c) = none := by
    rw [List.findIdx?_eq_none_iff]
    intro c hc
    rcases h c (List.mem_reverse.mp hc) with rfl | rfl <;> rfl
  have hr : Cfg1.rtrim str = str := by
    unfold Cfg1.rtrim string_find_first_not_of
    rw [hnone]
  have hl : Cfg1.ltrim str = str := by
    unfold Cfg1.ltrim string_find_last_not_of
    rw [hnone']
    rfl
  rw [Cfg1.trim, hr, hl]

theorem cfg1_lineStep_of_all_spaces (ws : List Nat) (hne : ws ≠ [])
    (h : ∀ c ∈ ws, c = 32 ∨ c = 9) : Cfg1.lineStep ws = Cfg1.LineStep.noSeparator := by
  have hc : string_find_first_of ws Cfg1.COMMENTS = none := by
    unfold string_find_first_of
    rw [List.findIdx?_eq_none_iff]
    intro c hc
    rcases h c hc with rfl | rfl <;> rfl
  have hs : string_find_first_of ws Cfg1.SEPARATORS = none := by
    unfold string_find_first_of
    rw [List.findIdx?_eq_none_iff]
    intro c hc
    rcases h c hc with rfl | rfl <;> rfl
  have hemp : ws.isEmpty = false := by
    cases ws with
    | nil => exact absurd rfl hne
    | cons a l => rfl
  unfold Cfg1.lineStep
  simp only [hc, cfg1_trim_of_all_spaces ws h, hemp, hs, Bool.false_eq_true, if_false]

theorem splitOnP_ne_nil (p : Nat → Bool) (l : List Nat) : l.splitOnP p ≠ [] := by
  induction l with
  | nil => simp [List.splitOnP_nil]
  | cons a l ih =>
    rw [List.splitOnP_cons]
    split
    · simp
    · cases h : l.splitOnP p with
      | nil => exact absurd h ih
      | cons x xs => simp [List.modifyHead]

theorem getlines_blank_line_first (ws content : List Nat) (h : ∀ c ∈ ws, c = 32 ∨ c = 9) :
    getlines (ws ++ 10 :: content) = ws :: getlines content := by
  have hsplit : (ws ++ 10 :: content).splitOnP (fun c => c == 10) =
      ws :: content.splitOnP (fun c => c == 10) := by
    induction ws with
    | nil => simp [List.splitOnP_cons]
    | cons a ws ih =>
      have ha : (a == 10) = false := by
        rcases h a (List.mem_cons_self _ _) with rfl | rfl <;> rfl
      rw [List.cons_append, List.splitOnP_cons, ha, ih (fun c hc => h c (List.mem_cons_of_mem _ hc))]
      simp [List.modifyHead]
  unfold getlines
  simp only [hsplit]
  cases hp : content.splitOnP (fun c => c == 10) with
  | nil => exact absurd hp (splitOnP_ne_nil _ _)
  | cons x xs =>
    rw [List.getLast?_cons_cons, List.dropLast_cons₂]
    split <;> rfl

/-- In `cfg.h` and in `cfg2-nomap.h`, for every content, a first line that is a non-empty
string of spaces and tabs makes the table not Valid. -/
theorem inserted_blank_line_invalid (ws content : List Nat) (hne : ws ≠ [])
    (h : ∀ c ∈ ws, c = 32 ∨ c = 9) :
    (Cfg1.CFG.load (ws ++ 10 :: content)).is_valid = false ∧
    (Cfg2.CFG.load (ws ++ 10 :: content)).is_valid = false := by
  constructor
  · unfold Cfg1.CFG.load
    rw [getlines_blank_line_first ws content h]
    simp [Cfg1.parseLines, cfg1_lineStep_of_all_spaces ws hne h, Cfg1.CFG.is_valid]
  · unfold Cfg2.CFG.load
    rw [getlines_blank_line_first ws content h]
    simp [Cfg2.parseLines, cfg1_lineStep_of_all_spaces ws hne h, Cfg2.CFG.is_valid]



/-! ## Claims about the constructor of `cfg5-noalloc.h` -/

/-- The validity rule with the table read at the value of the byte: for a file content
without a zero byte, the table built by the constructor is Valid iff (a) every line that
is non-empty after comment stripping and trimming has a `=` and (b) no two such lines
have equal trimmed keys; and a Valid table holds exactly the (trimmed key, trimmed value)
pairs of those lines, one entry per line, so that `size()` is the number of such lines. -/
theorem load_valid_iff_and_entries (content : List Nat) (h0 : ∀ c ∈ content, c ≠ 0) :
    ∃ t, CFG.ofFile (some content) = some t ∧
      (t.is_valid = true ↔
        (∀ l ∈ Spec.entryLines content, Spec.hasSeparator l = true) ∧
        ((Spec.entryLines content).map Spec.keyOf).Nodup) ∧
      (t.is_valid = true →
        t.strings.Perm ((Spec.entryLines content).map Spec.pairOf) ∧
        t.size = .ok (Spec.entryLines content).length) := by
  obtain ⟨t, hload, hperm, hvalid, _, _⟩ := load_spec content
  rw [takeWhile_ne_zero_of_no_zero content h0] at hperm hvalid
  refine ⟨t, hload, ?_, ?_⟩
  · rw [CFG.is_valid, hvalid, List.all_eq_true]
  · intro hv
    have hall := (hvalid.mp hv).1
    have htw : (Spec.entryLines content).takeWhile Spec.hasSeparator =
        Spec.entryLines content := by
      rw [List.takeWhile_eq_self_iff]
      exact List.all_eq_true.mp hall
    rw [htw] at hperm
    refine ⟨hperm, ?_⟩
    have hlen := hperm.length_eq
    simp only [CFG.strings, entryStrings, List.length_map] at hlen
    have hv' : t.valid = true := hv
    simp [CFG.size, hv', hlen]

/-- The validity rule at the content `b=2`, LF, `a=1`. -/
theorem load_valid_iff_and_entries_witness :
    (∀ c ∈ [98, 61, 50, 10, 97, 61, 49], c ≠ 0) ∧
    ∃ t, CFG.ofFile (some [98, 61, 50, 10, 97, 61, 49]) = some t ∧
      (t.is_valid = true ↔
        (∀ l ∈ Spec.entryLines [98, 61, 50, 10, 97, 61, 49], Spec.hasSeparator l = true) ∧
        ((Spec.entryLines [98, 61, 50, 10, 97, 61, 49]).map Spec.keyOf).Nodup) ∧
      (t.is_valid = true →
        t.strings.Perm ((Spec.entryLines [98, 61, 50, 10, 97, 61, 49]).map Spec.pairOf) ∧
        t.size = .ok (Spec.entryLines [98, 61, 50, 10, 97, 61, 49]).length) :=
  ⟨by decide, load_valid_iff_and_entries [98, 61, 50, 10, 97, 61, 49] (by decide)⟩

/-- C5: in every Valid table built by `CFG(filename)`, iteration from `begin()` to `end()`
yields keys in strictly ascending byte-wise lexicographic order: every key is strictly
below every later key (so each is below the next, and no two are equal). -/
theorem keys_strictly_ascending (file : Option (List Nat)) (t : CFG)
    (hload : CFG.ofFile file = some t) (hvalid : t.is_valid = true) :
    (t.strings.map Prod.fst).Sorted lexLt ∧ (t.strings.map Prod.fst).Nodup := by
  cases file with
  | none =>
    simp only [CFG.ofFile, Option.some.injEq] at hload
    subst hload
    exact Bool.noConfusion hvalid
  | some content =>
    obtain ⟨t', hload', _, _, hsorted, _⟩ := load_spec content
    have : t' = t := by
      have h := hload'.symm.trans hload
      exact Option.some.inj h
    subst this
    have hs := hsorted hvalid
    refine ⟨hs, ?_⟩
    have hs' : (t'.strings.map Prod.fst).Sorted (· < ·) := hs
    exact hs'.nodup

/-- C5, at the content `b=2`, LF, `a=1`. -/
theorem keys_strictly_ascending_witness :
    CFG.ofFile (some [98, 61, 50, 10, 97, 61, 49]) =
      some ⟨[(4, 6), (0, 2)], [98, 0, 50, 0, 97, 0, 49, 0], true⟩ ∧
    (CFG.mk [(4, 6), (0, 2)] [98, 0, 50, 0, 97, 0, 49, 0] true).is_valid = true ∧
    (((CFG.mk [(4, 6), (0, 2)] [98, 0, 50, 0, 97, 0, 49, 0] true).strings.map
        Prod.fst).Sorted lexLt ∧
      ((CFG.mk [(4, 6), (0, 2)] [98, 0, 50, 0, 97, 0, 49, 0] true).strings.map
        Prod.fst).Nodup) :=
  ⟨by decide, rfl, keys_strictly_ascending (some [98, 61, 50, 10, 97, 61, 49]) _
    (by decide) rfl⟩



/-- C6 as stated fails on a content with a zero byte: in `a=1`, LF, `#`, NUL, LF, `a=2`
the first and the third line have the key `a`, but `strtok` stops at the zero byte, only
`a=1` is recorded, and the table is Valid, whether plain `char` is signed or not. -/
theorem duplicate_after_zero_byte_is_valid :
    (∃ pre l1 mid l2 post,
      Spec.entryLines [97, 61, 49, 10, 35, 0, 10, 97, 61, 50] =
        pre ++ l1 :: (mid ++ l2 :: post) ∧ Spec.keyOf l1 = Spec.keyOf l2) ∧
    ∃ t, CFG.ofFile (some [97, 61, 49, 10, 35, 0, 10, 97, 61, 50]) = some t ∧
      (∀ signedChar, PlainChar.ofFile signedChar
        (some [97, 61, 49, 10, 35, 0, 10, 97, 61, 50]) = some (.ok t)) ∧
      t.is_valid = true ∧ t.strings = [([97], [49])] :=
  ⟨⟨[], [97, 61, 49], [], [97, 61, 50], [], by decide, by decide⟩,
    ⟨⟨[(0, 2)], [97, 0, 49, 0, 35, 0, 10, 97, 61, 50, 0], true⟩, by decide, by decide, rfl,
      by decide⟩⟩

/-- Duplicate keys with the table read at the value of the byte: for every file content
without a zero byte in which two lines have the same key after comment stripping and
trimming, wherever the two lines are and whatever the other lines are, the constructor
yields a table with `is_valid() == false`. -/
theorem duplicate_key_invalid (content : List Nat) (h0 : ∀ c ∈ content, c ≠ 0)
    (pre mid post : List (List Nat)) (l1 l2 : List Nat)
    (hlines : Spec.entryLines content = pre ++ l1 :: (mid ++ l2 :: post))
    (hkey : Spec.keyOf l1 = Spec.keyOf l2) :
    ∃ t, CFG.ofFile (some content) = some t ∧ t.is_valid = false := by
  obtain ⟨t, hload, _, hvalid, _, _⟩ := load_spec content
  rw [takeWhile_ne_zero_of_no_zero content h0] at hvalid
  refine ⟨t, hload, ?_⟩
  cases hv : t.is_valid with
  | false => rfl
  | true =>
    exfalso
    have hnd := (hvalid.mp hv).2
    rw [hlines] at hnd
    simp only [List.map_append, List.map_cons, List.nodup_append, List.nodup_cons,
      List.mem_append, List.mem_cons, List.mem_map] at hnd
    exact hnd.2.1.1 (Or.inr (Or.inl hkey))

/-- Duplicate keys at the content `a=1`, LF, `b=2`, LF, `a=3`. -/
theorem duplicate_key_invalid_witness :
    (∀ c ∈ [97, 61, 49, 10, 98, 61, 50, 10, 97, 61, 51], c ≠ 0) ∧
    Spec.entryLines [97, 61, 49, 10, 98, 61, 50, 10, 97, 61, 51] =
      [] ++ [97, 61, 49] :: ([[98, 61, 50]] ++ [97, 61, 51] :: []) ∧
    Spec.keyOf [97, 61, 49] = Spec.keyOf [97, 61, 51] ∧
    ∃ t, CFG.ofFile (some [97, 61, 49, 10, 98, 61, 50, 10, 97, 61, 51]) = some t ∧
      t.is_valid = false :=
  ⟨by decide, by decide, by decide,
    duplicate_key_invalid [97, 61, 49, 10, 98, 61, 50, 10, 97, 61, 51] (by decide)
      [] [[98, 61, 50]] [] [97, 61, 49] [97, 61, 51] (by decide) (by decide)⟩

/-- C7 as stated fails on a content with a zero byte: in `#`, NUL, LF, `x` the second line
is `x`, non-empty and without `=`, but `strtok` stops at the zero byte and the table is
Valid, whether plain `char` is signed or not. -/
theorem missing_separator_after_zero_byte_is_valid :
    (∃ l ∈ Spec.entryLines [35, 0, 10, 120], Spec.hasSeparator l = false) ∧
    ∃ t, CFG.ofFile (some [35, 0, 10, 120]) = some t ∧
      (∀ signedChar, PlainChar.ofFile signedChar (some [35, 0, 10, 120]) = some (.ok t)) ∧
      t.is_valid = true :=
  ⟨⟨[120], by decide, by decide⟩,
    ⟨⟨[], [35, 0, 10, 120, 0], true⟩, by decide, by decide, rfl⟩⟩

/-- A line without separator, with the table read at the value of the byte: for every
file content without a zero byte that has a line which, after comment stripping and
trimming, is non-empty and has no `=`, the constructor yields `is_valid() == false`, and
the recorded entries are, in file order, exactly those of the lines before the first such
line: no entry is added for that line or any later line. -/
theorem missing_separator_invalid (content : List Nat) (h0 : ∀ c ∈ content, c ≠ 0)
    (l : List Nat) (hl : l ∈ Spec.entryLines content) (hsep : Spec.hasSeparator l = false) :
    ∃ t, CFG.ofFile (some content) = some t ∧ t.is_valid = false ∧
      t.strings = ((Spec.entryLines content).takeWhile Spec.hasSeparator).map Spec.pairOf := by
  obtain ⟨t, hload, _, hvalid, _, hbad⟩ := load_spec content
  rw [takeWhile_ne_zero_of_no_zero content h0] at hvalid hbad
  have hall : (Spec.entryLines content).all Spec.hasSeparator = false := by
    cases h : (Spec.entryLines content).all Spec.hasSeparator with
    | false => rfl
    | true =>
      have := List.all_eq_true.mp h l hl
      rw [hsep] at this
      exact Bool.noConfusion this
  refine ⟨t, hload, ?_, hbad hall⟩
  cases hv : t.is_valid with
  | false => rfl
  | true =>
    have := (hvalid.mp hv).1
    rw [hall] at this
    exact Bool.noConfusion this

/-- A line without separator at the content `a=1`, LF, `x`, LF, `b=2`. -/
theorem missing_separator_invalid_witness :
    (∀ c ∈ [97, 61, 49, 10, 120, 10, 98, 61, 50], c ≠ 0) ∧
    [120] ∈ Spec.entryLines [97, 61, 49, 10, 120, 10, 98, 61, 50] ∧
    Spec.hasSeparator [120] = false ∧
    ∃ t, CFG.ofFile (some [97, 61, 49, 10, 120, 10, 98, 61, 50]) = some t ∧
      t.is_valid = false ∧
      t.strings = ((Spec.entryLines [97, 61, 49, 10, 120, 10, 98, 61, 50]).takeWhile
        Spec.hasSeparator).map Spec.pairOf :=
  ⟨by decide, by decide, by decide,
    missing_separator_invalid [97, 61, 49, 10, 120, 10, 98, 61, 50] (by decide) [120]
      (by decide) (by decide)⟩



/-- C9: for every file content in which every line is empty, consists only of spaces and
tabs, or has only spaces and tabs before its first `;` or `#` (the empty file included),
`CFG(filename)` yields a Valid table with `size() == 0`. -/
theorem blank_and_comment_lines_give_empty_valid_table (content : List Nat)
    (h : ∀ l ∈ Spec.lines content,
      l = [] ∨ (∀ c ∈ l, Spec.isSpaceTab c = true) ∨
      (∃ pre m post, l = pre ++ m :: post ∧ Spec.isComment m = true ∧
        ∀ c ∈ pre, Spec.isSpaceTab c = true)) :
    ∃ t, CFG.ofFile (some content) = some t ∧ t.is_valid = true ∧ t.size = .ok 0 := by
  have hcut : ∀ l ∈ Spec.lines content, ∀ c ∈ Spec.cutComment l, Spec.isSpaceTab c = true := by
    intro l hl c hc
    rcases h l hl with h1 | h2 | ⟨pre, m, post, hlm, hm, hpre⟩
    · subst h1; simp [Spec.cutComment] at hc
    · exact h2 c ((List.takeWhile_sublist _).subset hc)
    · subst hlm
      have hstop : (pre ++ m :: post).takeWhile (fun c => !Spec.isComment c) = pre := by
        apply takeWhile_append_stop
        · intro a ha
          have hs := hpre a ha
          have : a = 32 ∨ a = 9 := by simpa [Spec.isSpaceTab] using hs
          rcases this with rfl | rfl <;> rfl
        · simp [hm]
      unfold Spec.cutComment at hc
      rw [hstop] at hc
      exact hpre c hc
  have hE := entryLines_takeWhile_eq_nil content hcut
  obtain ⟨t, hload, hperm, hvalid, _, _⟩ := load_spec content
  rw [hE] at hperm hvalid
  have hv : t.valid = true := hvalid.mpr ⟨rfl, List.nodup_nil⟩
  have hnil : t.entries = [] := by
    have := hperm.length_eq
    simp only [CFG.strings, entryStrings, List.length_map, List.takeWhile_nil, List.map_nil,
      List.length_nil] at this
    exact List.length_eq_zero.mp this
  refine ⟨t, hload, hv, ?_⟩
  simp [CFG.size, hv, hnil]

/-- C9, at the content of a blank line, a line of a space and a tab, and a comment after
a space: LF, space, tab, LF, space, `#`, `x`. -/
theorem blank_and_comment_lines_give_empty_valid_table_witness :
    (∀ l ∈ Spec.lines [10, 32, 9, 10, 32, 35, 120],
      l = [] ∨ (∀ c ∈ l, Spec.isSpaceTab c = true) ∨
      (∃ pre m post, l = pre ++ m :: post ∧ Spec.isComment m = true ∧
        ∀ c ∈ pre, Spec.isSpaceTab c = true)) ∧
    ∃ t, CFG.ofFile (some [10, 32, 9, 10, 32, 35, 120]) = some t ∧ t.is_valid = true ∧
      t.size = .ok 0 :=
  have hyp : ∀ l ∈ Spec.lines [10, 32, 9, 10, 32, 35, 120],
      l = [] ∨ (∀ c ∈ l, Spec.isSpaceTab c = true) ∨
      (∃ pre m post, l = pre ++ m :: post ∧ Spec.isComment m = true ∧
        ∀ c ∈ pre, Spec.isSpaceTab c = true) := by
    intro l hl
    have hlines : Spec.lines [10, 32, 9, 10, 32, 35, 120] = [[], [32, 9], [32, 35, 120]] := by
      decide
    rw [hlines] at hl
    simp only [List.mem_cons, List.mem_singleton, List.not_mem_nil, or_false] at hl
    rcases hl with rfl | rfl | rfl
    · exact Or.inl rfl
    · exact Or.inr (Or.inl (by decide))
    · exact Or.inr (Or.inr ⟨[32], 35, [120], rfl, rfl, by decide⟩)
  ⟨hyp, blank_and_comment_lines_give_empty_valid_table [10, 32, 9, 10, 32, 35, 120] hyp⟩



/-- The specification's reading of a line `ws1 k ws2 = ws3 v ws4 comment`. -/
theorem spec_of_key_value_line (k v ws1 ws2 ws3 ws4 cmt : List Nat)
    (hk : k ≠ []) (hv : v ≠ [])
    (hkh : ∀ c, k.head? = some c → Spec.isSpaceTab c = false)
    (hkl : ∀ c, k.getLast? = some c → Spec.isSpaceTab c = false)
    (hvh : ∀ c, v.head? = some c → Spec.isSpaceTab c = false)
    (hvl : ∀ c, v.getLast? = some c → Spec.isSpaceTab c = false)
    (hkb : ∀ c ∈ k, c ∉ [59, 35, 61, 13, 10, 0])
    (hvb : ∀ c ∈ v, c ∉ [59, 35, 61, 13, 10, 0])
    (h1 : ∀ c ∈ ws1, Spec.isSpaceTab c = true) (h2 : ∀ c ∈ ws2, Spec.isSpaceTab c = true)
    (h3 : ∀ c ∈ ws3, Spec.isSpaceTab c = true) (h4 : ∀ c ∈ ws4, Spec.isSpaceTab c = true)
    (hcmt : cmt = [] ∨ ∃ m text, cmt = m :: text ∧ Spec.isComment m = true) :
    Spec.stripped (ws1 ++ k ++ ws2 ++ [61] ++ ws3 ++ v ++ ws4 ++ cmt) =
        k ++ ws2 ++ [61] ++ ws3 ++ v ∧
      Spec.hasSeparator (k ++ ws2 ++ [61] ++ ws3 ++ v) = true ∧
      Spec.keyOf (k ++ ws2 ++ [61] ++ ws3 ++ v) = k ∧
      Spec.valueOf (k ++ ws2 ++ [61] ++ ws3 ++ v) = v := by
  have sp_nc : ∀ c, Spec.isSpaceTab c = true → Spec.isComment c = false ∧
      Spec.isSeparator c = false := by
    intro c hc
    have : c = 32 ∨ c = 9 := by simpa [Spec.isSpaceTab] using hc
    rcases this with rfl | rfl <;> exact ⟨rfl, rfl⟩
  have k_nc : ∀ c ∈ k, Spec.isComment c = false ∧ Spec.isSeparator c = false := by
    intro c hc
    have := hkb c hc
    simp only [List.mem_cons, List.mem_singleton, List.not_mem_nil, or_false, not_or] at this
    simp [Spec.isComment, Spec.isSeparator, this.1, this.2.1, this.2.2.1]
  have v_nc : ∀ c ∈ v, Spec.isComment c = false := by
    intro c hc
    have := hvb c hc
    simp only [List.mem_cons, List.mem_singleton, List.not_mem_nil, or_false, not_or] at this
    simp [Spec.isComment, this.1, this.2.1]
  -- comment stripping
  have hbody : ∀ c ∈ ws1 ++ k ++ ws2 ++ [61] ++ ws3 ++ v ++ ws4,
      (fun c => !Spec.isComment c) c = true := by
    intro c hc
    simp only [List.mem_append, List.mem_singleton] at hc
    simp only [Bool.not_eq_true']
    rcases hc with (((((hc | hc) | hc) | hc) | hc) | hc) | hc
    · exact (sp_nc c (h1 c hc)).1
    · exact (k_nc c hc).1
    · exact (sp_nc c (h2 c hc)).1
    · subst hc; rfl
    · exact (sp_nc c (h3 c hc)).1
    · exact v_nc c hc
    · exact (sp_nc c (h4 c hc)).1
  have hcut : Spec.cutComment (ws1 ++ k ++ ws2 ++ [61] ++ ws3 ++ v ++ ws4 ++ cmt) =
      ws1 ++ k ++ ws2 ++ [61] ++ ws3 ++ v ++ ws4 := by
    unfold Spec.cutComment
    rcases hcmt with rfl | ⟨m, text, rfl, hm⟩
    · rw [List.append_nil, List.takeWhile_eq_self_iff]; exact hbody
    · exact takeWhile_append_stop hbody (by simp [hm])
  have hMh : ∀ c, (k ++ ws2 ++ [61] ++ ws3 ++ v).head? = some c → Spec.isSpaceTab c = false := by
    intro c hc
    apply hkh c
    rw [← hc]
    simp only [List.append_assoc]
    exact (head?_append_of_ne_nil k _ hk).symm
  have hMl : ∀ c, (k ++ ws2 ++ [61] ++ ws3 ++ v).getLast? = some c →
      Spec.isSpaceTab c = false := by
    intro c hc
    apply hvl c
    rw [← hc]
    exact (getLast?_append_of_ne_nil _ v hv).symm
  refine ⟨?_, ?_, ?_, ?_⟩
  · unfold Spec.stripped
    rw [hcut]
    have e : ws1 ++ k ++ ws2 ++ [61] ++ ws3 ++ v ++ ws4 =
        ws1 ++ (k ++ ws2 ++ [61] ++ ws3 ++ v) ++ ws4 := by simp
    rw [e]
    exact trimSpaces_sandwich ws1 _ ws4 h1 h4 hMh hMl
  · simp [Spec.hasSeparator, Spec.isSeparator]
  · unfold Spec.keyOf
    have hpre : ∀ c ∈ k ++ ws2, (fun c => !Spec.isSeparator c) c = true := by
      intro c hc
      simp only [List.mem_append] at hc
      simp only [Bool.not_eq_true']
      rcases hc with hc | hc
      · exact (k_nc c hc).2
      · exact (sp_nc c (h2 c hc)).2
    have e : k ++ ws2 ++ [61] ++ ws3 ++ v = (k ++ ws2) ++ 61 :: (ws3 ++ v) := by simp
    rw [e, takeWhile_append_stop hpre (by rfl)]
    have := trimSpaces_sandwich [] k ws2 (by simp) h2 hkh hkl
    simpa using this
  · unfold Spec.valueOf
    have hpre : ∀ c ∈ k ++ ws2, (fun c => !Spec.isSeparator c) c = true := by
      intro c hc
      simp only [List.mem_append] at hc
      simp only [Bool.not_eq_true']
      rcases hc with hc | hc
      · exact (k_nc c hc).2
      · exact (sp_nc c (h2 c hc)).2
    have e : k ++ ws2 ++ [61] ++ ws3 ++ v = (k ++ ws2) ++ 61 :: (ws3 ++ v) := by simp
    rw [e, List.dropWhile_append_of_pos hpre]
    have hd : (61 :: (ws3 ++ v)).dropWhile (fun c => !Spec.isSeparator c) = 61 :: (ws3 ++ v) := by
      rw [List.dropWhile_cons_of_neg]; simp [Spec.isSeparator]
    rw [hd]
    have := trimSpaces_sandwich ws3 v [] h3 (by simp) hvh hvl
    simpa using this

/-- A key-value line with the table read at the value of the byte: for a key `k` and a
value `v` that are non-empty, have no space or tab at their two ends and contain none of
`;`, `#`, `=`, CR, LF, NUL, a line made of spaces/tabs, `k`,
spaces/tabs, `=`, spaces/tabs, `v`, spaces/tabs and then nothing or a `;` or `#` with any
comment text is parsed by the loop body (for the token at `tok`, ended by a zero byte)
into exactly the entry `(k, v)`: the entry is pushed, and the C strings at its key pointer
and at its value pointer are `k` and `v`. -/
theorem lineStep_key_value (k v ws1 ws2 ws3 ws4 cmt : List Nat)
    (hk : k ≠ []) (hv : v ≠ [])
    (hkh : ∀ c, k.head? = some c → Spec.isSpaceTab c = false)
    (hkl : ∀ c, k.getLast? = some c → Spec.isSpaceTab c = false)
    (hvh : ∀ c, v.head? = some c → Spec.isSpaceTab c = false)
    (hvl : ∀ c, v.getLast? = some c → Spec.isSpaceTab c = false)
    (hkb : ∀ c ∈ k, c ∉ [59, 35, 61, 13, 10, 0])
    (hvb : ∀ c ∈ v, c ∉ [59, 35, 61, 13, 10, 0])
    (h1 : ∀ c ∈ ws1, Spec.isSpaceTab c = true) (h2 : ∀ c ∈ ws2, Spec.isSpaceTab c = true)
    (h3 : ∀ c ∈ ws3, Spec.isSpaceTab c = true) (h4 : ∀ c ∈ ws4, Spec.isSpaceTab c = true)
    (hcmt : cmt = [] ∨ ∃ m text, cmt = m :: text ∧ Spec.isComment m = true)
    (S : List Nat) (tok : Nat) (X : List Nat)
    (hS : S.drop tok = (ws1 ++ k ++ ws2 ++ [61] ++ ws3 ++ v ++ ws4 ++ cmt) ++ 0 :: X) :
    ∃ kp vp S2, lineStep S tok = some (LineStep.pushed kp vp S2) ∧
      cstr S2 kp = k ∧ cstr S2 vp = v := by
  -- the token ends at the first zero byte, which can only be in the comment text
  obtain ⟨X1, hX1⟩ := append_zero_decomp cmt X
  have hcmt' : cmt.takeWhile (fun b => b != 0) = [] ∨
      ∃ m text, cmt.takeWhile (fun b => b != 0) = m :: text ∧ Spec.isComment m = true := by
    rcases hcmt with rfl | ⟨m, text, rfl, hm⟩
    · exact Or.inl rfl
    · right
      have hm0 : (m != 0) = true := by
        have : m = 59 ∨ m = 35 := by simpa [Spec.isComment] using hm
        rcases this with rfl | rfl <;> rfl
      exact ⟨m, text.takeWhile (fun b => b != 0), by simp [List.takeWhile_cons, hm0], hm⟩
  have hS' : S.drop tok =
      (ws1 ++ k ++ ws2 ++ [61] ++ ws3 ++ v ++ ws4 ++ cmt.takeWhile (fun b => b != 0))
        ++ 0 :: X1 := by
    rw [hS, List.append_assoc, hX1, ← List.append_assoc]
  have sp0 : ∀ c, Spec.isSpaceTab c = true → c ≠ 0 := by
    intro c hc
    have : c = 32 ∨ c = 9 := by simpa [Spec.isSpaceTab] using hc
    rcases this with rfl | rfl <;> decide
  have hL0 : ∀ a ∈ ws1 ++ k ++ ws2 ++ [61] ++ ws3 ++ v ++ ws4 ++
      cmt.takeWhile (fun b => b != 0), a ≠ 0 := by
    intro a ha
    simp only [List.mem_append, List.mem_singleton] at ha
    rcases ha with ((((((ha | ha) | ha) | ha) | ha) | ha) | ha) | ha
    · exact sp0 a (h1 a ha)
    · have := hkb a ha
      simp only [List.mem_cons, List.mem_singleton, List.not_mem_nil, or_false, not_or] at this
      exact this.2.2.2.2.2
    · exact sp0 a (h2 a ha)
    · subst ha; decide
    · exact sp0 a (h3 a ha)
    · have := hvb a ha
      simp only [List.mem_cons, List.mem_singleton, List.not_mem_nil, or_false, not_or] at this
      exact this.2.2.2.2.2
    · exact sp0 a (h4 a ha)
    · have := List.mem_takeWhile_imp ha
      simpa using this
  obtain ⟨hstr, hsep, hkey, hval⟩ := spec_of_key_value_line k v ws1 ws2 ws3 ws4
    (cmt.takeWhile (fun b => b != 0)) hk hv hkh hkl hvh hvl hkb hvb h1 h2 h3 h4 hcmt'
  have hne : Spec.stripped (ws1 ++ k ++ ws2 ++ [61] ++ ws3 ++ v ++ ws4 ++
      cmt.takeWhile (fun b => b != 0)) ≠ [] := by
    rw [hstr]; simp
  obtain ⟨kp, vp, S2, hstep, _, ⟨Tk, hdk⟩, ⟨Tv, hdv⟩, _, _, _, _⟩ :=
    lineStep_pushed S tok _ X1 hS' hL0 hne (by rw [hstr]; exact hsep)
  rw [hstr, hkey] at hdk
  rw [hstr, hval] at hdv
  have hk0 : ∀ a ∈ k, a ≠ 0 := fun a ha => hL0 a (by simp [ha])
  have hv0 : ∀ a ∈ v, a ≠ 0 := fun a ha => hL0 a (by simp [ha])
  exact ⟨kp, vp, S2, hstep, cstr_of_drop hdk hk0, cstr_of_drop hdv hv0⟩

/-- The line `  key = value ; trailing comment` of the specification: key `key`, value
`value`. -/
theorem lineStep_key_value_witness :
    ∃ kp vp S2,
      lineStep ([32, 32, 107, 101, 121, 32, 61, 32, 118, 97, 108, 117, 101, 32, 59, 32, 116,
        114, 97, 105, 108, 105, 110, 103, 32, 99, 111, 109, 109, 101, 110, 116] ++ [0]) 0 =
        some (LineStep.pushed kp vp S2) ∧
      cstr S2 kp = [107, 101, 121] ∧ cstr S2 vp = [118, 97, 108, 117, 101] :=
  lineStep_key_value [107, 101, 121] [118, 97, 108, 117, 101] [32, 32] [32] [32] [32]
    [59, 32, 116, 114, 97, 105, 108, 105, 110, 103, 32, 99, 111, 109, 109, 101, 110, 116]
    (by decide) (by decide) (by decide) (by decide) (by decide) (by decide) (by decide)
    (by decide) (by decide) (by decide) (by decide) (by decide)
    (Or.inr ⟨59, _, rfl, rfl⟩)
    ([32, 32, 107, 101, 121, 32, 61, 32, 118, 97, 108, 117, 101, 32, 59, 32, 116,
        114, 97, 105, 108, 105, 110, 103, 32, 99, 111, 109, 109, 101, 110, 116] ++ [0]) 0 []
    rfl


/-! ## Claims about `find` and about blank lines in the string-based variants -/

/-- C2 (the code departs from it): the table of `cfg5-noalloc.h` built from the content
`a=1` is Valid and holds the entry (`a`, `1`); `find` called with the table's own pointer
to the key returns the entry (index 0), but called with a pointer to another
zero-terminated string `a` it returns `end()`, because the last comparison
`lower_bound->first == key` compares pointers.  The table of `cfg4-cstrings.h` does the
same. -/
theorem find_equal_key_elsewhere_returns_end :
    (∃ t, Cfg5.CFG.ofFile (some [97, 61, 49]) = some t ∧ t.is_valid = true ∧
      t.strings = [([97], [49])] ∧ t.find (Cfg5.KeyPtr.inStorage 0) = .ok 0 ∧
      t.end_ = .ok 1 ∧ t.find (Cfg5.KeyPtr.elsewhere [97]) = .ok 1) ∧
    (∃ t, Cfg4.CFG.load [97, 61, 49] = some t ∧ t.is_valid = true ∧
      t.strings = [([97], [49])] ∧ t.find (Cfg4.KeyPtr.block 0) = .ok 0 ∧
      t.end_ = .ok 1 ∧ t.find (Cfg4.KeyPtr.elsewhere [97]) = .ok 1) :=
  ⟨⟨⟨[(0, 2)], [97, 0, 49, 0], true⟩, by decide, rfl, by decide, by decide, by decide,
      by decide⟩,
    ⟨⟨[[97, 0], [49, 0]], [(0, 1)], true⟩, by decide, rfl, by decide, by decide, by decide,
      by decide⟩⟩

/-- C3 (the code departs from it): in `cfg3-slices.h`, for a key that sorts after every
stored key the lower bound is `entries.end()`, and `find` reads `lower_bound->first`
there instead of returning `end()`: so for the Valid table of the empty file and the key
`<<<NOT=HERE>>>` of the test in `cfg3.cpp`, and for the Valid table of the content `a=1`
and the key `b`. -/
theorem find_key_after_all_reads_past_end :
    (∃ t, Cfg3.CFG.load [] = some t ∧ t.is_valid = true ∧ t.end_ = .ok 0 ∧
      t.find [60, 60, 60, 78, 79, 84, 61, 72, 69, 82, 69, 62, 62, 62] =
        .error Fault.outOfBounds) ∧
    (∃ t, Cfg3.CFG.load [97, 61, 49] = some t ∧ t.is_valid = true ∧
      t.entries = [([97], [49])] ∧ t.find [98] = .error Fault.outOfBounds) :=
  ⟨⟨⟨[], true⟩, by decide, rfl, by decide, by decide⟩,
    ⟨⟨[([97], [49])], true⟩, by decide, rfl, rfl, by decide⟩⟩

/-- C4 (the code departs from it): in `cfg5-noalloc.h` and in `cfg2-nomap.h`, when the
lower bound is past the end, `find` reads the entry at index `size()`: so for the Valid
table with zero entries (the empty file) and any key, and for the Valid table of the
content `a=1` and the greater key `b`. -/
theorem find_lower_bound_past_end_reads_entry :
    (∃ t, Cfg5.CFG.ofFile (some []) = some t ∧ t.is_valid = true ∧ t.size = .ok 0 ∧
      t.find (Cfg5.KeyPtr.elsewhere [97]) = .error Fault.outOfBounds) ∧
    (∃ t, Cfg5.CFG.ofFile (some [97, 61, 49]) = some t ∧ t.is_valid = true ∧
      t.size = .ok 1 ∧ t.find (Cfg5.KeyPtr.elsewhere [98]) = .error Fault.outOfBounds) ∧
    ((Cfg2.CFG.load []).is_valid = true ∧ (Cfg2.CFG.load []).size = .ok 0 ∧
      (Cfg2.CFG.load []).find [97] = .error Fault.outOfBounds) ∧
    ((Cfg2.CFG.load [97, 61, 49]).is_valid = true ∧
      (Cfg2.CFG.load [97, 61, 49]).size = .ok 1 ∧
      (Cfg2.CFG.load [97, 61, 49]).find [98] = .error Fault.outOfBounds) :=
  ⟨⟨⟨[], [0], true⟩, by decide, rfl, by decide, by decide⟩,
    ⟨⟨[(0, 2)], [97, 0, 49, 0], true⟩, by decide, rfl, by decide, by decide⟩,
    ⟨by decide, by decide, by decide⟩, ⟨by decide, by decide, by decide⟩⟩

/-- C10 (the code departs from it): in `cfg.h` and in `cfg2-nomap.h` the content `a=1`,
LF gives a Valid table with the entry (`a`, `1`), but with a line of two spaces inserted
before it, or a line of a space and the comment `#c`, the table is not Valid: `trim`
returns a string of spaces and tabs unchanged, so the line is not seen as blank and is
rejected for its missing separator.  An inserted empty line is ignored. -/
theorem blank_line_of_spaces_makes_table_invalid :
    ((Cfg1.CFG.load [97, 61, 49, 10]).is_valid = true ∧
      (Cfg1.CFG.load [97, 61, 49, 10]).entries = [([97], [49])] ∧
      (Cfg1.CFG.load [32, 32, 10, 97, 61, 49, 10]).is_valid = false ∧
      (Cfg1.CFG.load [32, 35, 99, 10, 97, 61, 49, 10]).is_valid = false ∧
      Cfg1.CFG.load [10, 97, 61, 49, 10] = Cfg1.CFG.load [97, 61, 49, 10]) ∧
    ((Cfg2.CFG.load [97, 61, 49, 10]).is_valid = true ∧
      (Cfg2.CFG.load [97, 61, 49, 10]).entries = [([97], [49])] ∧
      (Cfg2.CFG.load [32, 32, 10, 97, 61, 49, 10]).is_valid = false ∧
      (Cfg2.CFG.load [32, 35, 99, 10, 97, 61, 49, 10]).is_valid = false ∧
      Cfg2.CFG.load [10, 97, 61, 49, 10] = Cfg2.CFG.load [97, 61, 49, 10]) ∧
    Cfg1.trim [32, 32] = [32, 32] :=
  ⟨⟨by decide, by decide, by decide, by decide, by decide⟩,
    ⟨by decide, by decide, by decide, by decide, by decide⟩, by decide⟩



/-! ## More on trimming -/

theorem rdropWhile_decomp (p : Nat → Bool) (l : List Nat) :
    ∃ post, l = l.rdropWhile p ++ post ∧ ∀ c ∈ post, p c = true := by
  induction l using List.reverseRecOn with
  | nil => exact ⟨[], rfl, by simp⟩
  | append_singleton l x ih =>
    obtain ⟨post, hpost, hall⟩ := ih
    by_cases hx : p x = true
    · refine ⟨post ++ [x], ?_, ?_⟩
      · rw [List.rdropWhile_concat_pos _ _ _ hx, ← List.append_assoc, ← hpost]
      · intro c hc
        rcases List.mem_append.mp hc with h | h
        · exact hall c h
        · rw [List.mem_singleton.mp h]; exact hx
    · exact ⟨[], by rw [List.rdropWhile_concat_neg _ _ _ hx]; simp, by simp⟩

/-- A byte string is its leading spaces and tabs, its trimmed part, and trailing spaces
and tabs. -/
theorem trimSpaces_decomp_spaces (B : List Nat) :
    ∃ post, B = B.takeWhile Spec.isSpaceTab ++ Spec.trimSpaces B ++ post ∧
      (∀ c ∈ B.takeWhile Spec.isSpaceTab, Spec.isSpaceTab c = true) ∧
      (∀ c ∈ post, Spec.isSpaceTab c = true) := by
  obtain ⟨post, hpost, hall⟩ := rdropWhile_decomp Spec.isSpaceTab (B.dropWhile Spec.isSpaceTab)
  refine ⟨post, ?_, fun c hc => List.mem_takeWhile_imp hc, hall⟩
  unfold Spec.trimSpaces
  rw [List.append_assoc, ← hpost, List.takeWhile_append_dropWhile]

theorem trimSpaces_head_not_space (B : List Nat) :
    ∀ c, (Spec.trimSpaces B).head? = some c → Spec.isSpaceTab c = false := by
  intro c hc
  unfold Spec.trimSpaces at hc
  obtain ⟨post, hpost⟩ := List.rdropWhile_prefix Spec.isSpaceTab (B.dropWhile Spec.isSpaceTab)
  cases hr : (B.dropWhile Spec.isSpaceTab).rdropWhile Spec.isSpaceTab with
  | nil => rw [hr] at hc; simp at hc
  | cons x r =>
    rw [hr] at hc hpost
    have hxc : x = c := by simpa using hc
    subst hxc
    have hne : B.dropWhile Spec.isSpaceTab ≠ [] := by rw [← hpost]; simp
    have hnot := List.head_dropWhile_not Spec.isSpaceTab B hne
    have hhead : (B.dropWhile Spec.isSpaceTab).head hne = x := by
      simp only [← hpost]; rfl
    rw [hhead] at hnot
    simpa using hnot

theorem trimSpaces_last_not_space (B : List Nat) :
    ∀ c, (Spec.trimSpaces B).getLast? = some c → Spec.isSpaceTab c = false := by
  intro c hc
  unfold Spec.trimSpaces at hc
  have hne : (B.dropWhile Spec.isSpaceTab).rdropWhile Spec.isSpaceTab ≠ [] := by
    intro h; rw [h] at hc; simp at hc
  have hnot := List.rdropWhile_last_not Spec.isSpaceTab (B.dropWhile Spec.isSpaceTab) hne
  rw [List.getLast?_eq_getLast _ hne] at hc
  have : ((B.dropWhile Spec.isSpaceTab).rdropWhile Spec.isSpaceTab).getLast hne = c :=
    Option.some.inj hc
  rw [this] at hnot
  simpa using hnot

theorem trimSpaces_idempotent (B : List Nat) :
    Spec.trimSpaces (Spec.trimSpaces B) = Spec.trimSpaces B := by
  have := trimSpaces_sandwich [] (Spec.trimSpaces B) [] (by simp) (by simp)
    (trimSpaces_head_not_space B) (trimSpaces_last_not_space B)
  simpa using this

theorem takeWhile_space_trimSpaces (B : List Nat) :
    (Spec.trimSpaces B).takeWhile Spec.isSpaceTab = [] := by
  cases h : Spec.trimSpaces B with
  | nil => rfl
  | cons x r =>
    have := trimSpaces_head_not_space B x (by rw [h]; rfl)
    simp [List.takeWhile_cons, this]

/-- A slice that lies inside the buffer views bytes of the buffer. -/
theorem slice_view (mem : List Nat) (s : Slice) (h : s.ptr + s.size ≤ mem.length) :
    (s.bytes mem).length = s.size ∧ ∃ rest, mem.drop s.ptr = s.bytes mem ++ rest := by
  unfold Slice.bytes
  refine ⟨by rw [List.length_take, List.length_drop]; omega, (mem.drop s.ptr).drop s.size, ?_⟩
  rw [List.take_append_drop]



/-! ## The constructor: the exact sequence of entries -/

/-- The constructor against the specification, with the exact order of the entries: when
every stripped non-empty line has a separator the entries are the pairs of these lines
sorted by key, otherwise they are the pairs of the lines before the first line without
separator, in file order. -/
theorem load_spec_strings (content : List Nat) :
    ∃ t, CFG.load content = some t ∧
      t.valid =
        ((Spec.entryLines (content.takeWhile (fun c => c != 0))).all Spec.hasSeparator &&
          decide ((Spec.entryLines (content.takeWhile (fun c => c != 0))).map
            Spec.keyOf).Nodup) ∧
      t.strings =
        if (Spec.entryLines (content.takeWhile (fun c => c != 0))).all Spec.hasSeparator then
          ((Spec.entryLines (content.takeWhile (fun c => c != 0))).map
            Spec.pairOf).insertionSort keyLE
        else
          ((Spec.entryLines (content.takeWhile (fun c => c != 0))).takeWhile
            Spec.hasSeparator).map Spec.pairOf := by
  obtain ⟨X, hX⟩ := storage_decomp content
  set c0 := content.takeWhile (fun c => c != 0) with hc0
  have hc00 : ∀ a ∈ c0, a ≠ 0 := by
    intro a ha
    have := List.mem_takeWhile_imp ha
    simpa using this
  have hlen : c0.length < (content ++ [0]).length + 1 := by
    have : c0.length ≤ content.length := (List.takeWhile_sublist _).length_le
    simp; omega
  obtain ⟨P, new, hP, hent, _, hstr, hok⟩ :=
    parseLoop_spec ((content ++ [0]).length + 1) (content ++ [0]) 0 [] c0 X
      (by simpa using hX) hc00 hlen
  simp only [List.nil_append] at hent
  rw [← hent] at hstr
  set E := Spec.entryLines c0 with hE
  by_cases hokb : P.ok = true
  · have hall : E.all Spec.hasSeparator = true := by rw [← hok]; exact hokb
    have htw : E.takeWhile Spec.hasSeparator = E := by
      rw [List.takeWhile_eq_self_iff]
      intro x hx
      exact (List.all_eq_true.mp hall) x hx
    set sorted := std_sort (fun a b => decide (strcmp P.storage a.1 b.1 < 0)) P.entries
      with hsorted
    have hss : entryStrings P.storage sorted = (E.map Spec.pairOf).insertionSort keyLE := by
      rw [hsorted, entryStrings_std_sort P.storage P.entries, hstr, htw]
    have hsrt : (entryStrings P.storage sorted).Sorted keyLE := by
      rw [hss]; exact sorted_insertionSort_keyLE _
    obtain ⟨hiff, _⟩ := sorted_chain_iff_nodup _ hsrt
    have hkeys : ((entryStrings P.storage sorted).map Prod.fst).Perm (E.map Spec.keyOf) := by
      have := ((hss ▸ List.perm_insertionSort keyLE (E.map Spec.pairOf) :
        (entryStrings P.storage sorted).Perm (E.map Spec.pairOf))).map Prod.fst
      simpa [Spec.pairOf, Function.comp] using this
    by_cases hdup : hasDuplicate P.storage none sorted = true
    · have hnn : ¬ (E.map Spec.keyOf).Nodup := by
        intro hn
        have hch := hiff.mpr (hkeys.nodup_iff.mpr hn)
        rw [← hasDuplicate_none] at hch
        rw [hch] at hdup
        exact Bool.noConfusion hdup
      refine ⟨⟨sorted, P.storage, false⟩, ?_, ?_, ?_⟩
      · unfold CFG.load
        simp only [hP, hokb, ← hsorted, hdup]
        simp
      · simp [hall, hnn]
      · show entryStrings P.storage sorted = _
        rw [hall, hss]; rfl
    · have hdup' : hasDuplicate P.storage none sorted = false := by simpa using hdup
      have hn : (E.map Spec.keyOf).Nodup :=
        hkeys.nodup_iff.mp (hiff.mp ((hasDuplicate_none _ _).mp hdup'))
      refine ⟨⟨sorted, P.storage, true⟩, ?_, ?_, ?_⟩
      · unfold CFG.load
        simp only [hP, hokb, ← hsorted, hdup']
        simp
      · simp [hall, hn]
      · show entryStrings P.storage sorted = _
        rw [hall, hss]; rfl
  · have hokf : P.ok = false := by simpa using hokb
    have hall : E.all Spec.hasSeparator = false := by rw [← hok]; exact hokf
    refine ⟨⟨P.entries, P.storage, false⟩, ?_, ?_, ?_⟩
    · unfold CFG.load
      simp only [hP, hokf]
      simp
    · simp [hall]
    · show entryStrings P.storage P.entries = _
      rw [hall, hstr]; rfl

/-- Two contents with the same stripped non-empty lines give tables with the same flag
and the same sequence of entries. -/
theorem load_congr (c1 c2 : List Nat)
    (h : Spec.entryLines (c1.takeWhile (fun c => c != 0)) =
      Spec.entryLines (c2.takeWhile (fun c => c != 0))) :
    ∃ t1 t2, CFG.load c1 = some t1 ∧ CFG.load c2 = some t2 ∧
      t1.valid = t2.valid ∧ t1.strings = t2.strings := by
  obtain ⟨t1, h1, hv1, hs1⟩ := load_spec_strings c1
  obtain ⟨t2, h2, hv2, hs2⟩ := load_spec_strings c2
  refine ⟨t1, t2, h1, h2, ?_, ?_⟩
  · rw [hv1, hv2, h]
  · rw [hs1, hs2, h]



/-! ## Line terminators -/

theorem lines_cons_newline (b : Nat) (c : List Nat) (hb : Spec.isNewline b = true) :
    Spec.lines (b :: c) = [] :: Spec.lines c := by
  unfold Spec.lines
  rw [List.splitOnP_cons, if_pos hb]

theorem lines_cons_other (b : Nat) (c : List Nat) (h : List Nat) (rest : List (List Nat))
    (hb : Spec.isNewline b = false) (hl : Spec.lines c = h :: rest) :
    Spec.lines (b :: c) = (b :: h) :: rest := by
  unfold Spec.lines at hl ⊢
  rw [List.splitOnP_cons, hb, hl]
  rfl

theorem lines_terminators_append (ts X : List Nat) (hts : ∀ b ∈ ts, b = 13 ∨ b = 10) :
    Spec.lines (ts ++ X) = List.replicate ts.length [] ++ Spec.lines X := by
  induction ts with
  | nil => rfl
  | cons b ts ih =>
    have hb : Spec.isNewline b = true := by
      rcases hts b (List.mem_cons_self _ _) with rfl | rfl <;> rfl
    rw [List.cons_append, lines_cons_newline _ _ hb,
      ih (fun x hx => hts x (List.mem_cons_of_mem _ hx))]
    rfl

theorem filter_replicate_nil (n : Nat) :
    (List.replicate n ([] : List Nat)).filter (fun l => !l.isEmpty) = [] := by
  induction n with
  | zero => rfl
  | succ n ih => rw [List.replicate_succ, List.filter_cons]; simp [ih]

/-- Replacing line terminators keeps the first line, and keeps the non-empty lines after
it. -/
theorem lines_replaceTerminators : ∀ (c : List Nat) (tss : List (List Nat)),
    (∀ ts ∈ tss, ts ≠ [] ∧ ∀ b ∈ ts, b = 13 ∨ b = 10) →
    ∃ h rest rest1, Spec.lines c = h :: rest ∧
      Spec.lines (Spec.replaceTerminators tss c) = h :: rest1 ∧
      rest.filter (fun l => !l.isEmpty) = rest1.filter (fun l => !l.isEmpty) := by
  intro c
  induction c with
  | nil =>
    intro tss _
    exact ⟨[], [], [], rfl, rfl, rfl⟩
  | cons b c ih =>
    intro tss htss
    by_cases hb : b = 10
    · subst hb
      have htail : ∀ ts ∈ tss.tail, ts ≠ [] ∧ ∀ b ∈ ts, b = 13 ∨ b = 10 :=
        fun ts hts => htss ts (List.mem_of_mem_tail hts)
      obtain ⟨h0, r0, r1, hl0, hl1, hf⟩ := ih tss.tail htail
      have hhead : tss.headD [10] ≠ [] ∧ ∀ b ∈ tss.headD [10], b = 13 ∨ b = 10 := by
        cases tss with
        | nil => exact ⟨by simp, by simp⟩
        | cons ts rest => exact htss ts (List.mem_cons_self _ _)
      obtain ⟨x, ts1, hts1⟩ : ∃ x ts1, tss.headD [10] = x :: ts1 := by
        cases hc : tss.headD [10] with
        | nil => exact absurd hc hhead.1
        | cons x ts1 => exact ⟨x, ts1, rfl⟩
      refine ⟨[], h0 :: r0, List.replicate ts1.length [] ++ h0 :: r1, ?_, ?_, ?_⟩
      · rw [lines_cons_newline _ _ (by rfl), hl0]
      · have : Spec.replaceTerminators tss (10 :: c) =
            tss.headD [10] ++ Spec.replaceTerminators tss.tail c := by
          simp [Spec.replaceTerminators]
        rw [this, lines_terminators_append _ _ hhead.2, hl1, hts1]
        rfl
      · rw [List.filter_append, filter_replicate_nil, List.nil_append, List.filter_cons,
          List.filter_cons, hf]
    · obtain ⟨h0, r0, r1, hl0, hl1, hf⟩ := ih tss htss
      have hrep : Spec.replaceTerminators tss (b :: c) =
          b :: Spec.replaceTerminators tss c := by
        simp [Spec.replaceTerminators, hb]
      by_cases hnl : Spec.isNewline b = true
      · refine ⟨[], h0 :: r0, h0 :: r1, ?_, ?_, ?_⟩
        · rw [lines_cons_newline _ _ hnl, hl0]
        · rw [hrep, lines_cons_newline _ _ hnl, hl1]
        · rw [List.filter_cons, List.filter_cons, hf]
      · have hnl' : Spec.isNewline b = false := by simpa using hnl
        refine ⟨b :: h0, r0, r1, ?_, ?_, hf⟩
        · exact lines_cons_other b c h0 r0 hnl' hl0
        · rw [hrep]; exact lines_cons_other b _ h0 r1 hnl' hl1

theorem filter_map_stripped (l : List (List Nat)) :
    (l.map Spec.stripped).filter (fun x => !x.isEmpty) =
      ((l.filter (fun x => !x.isEmpty)).map Spec.stripped).filter (fun x => !x.isEmpty) := by
  induction l with
  | nil => rfl
  | cons a l ih =>
    cases a with
    | nil => simp [stripped_nil, ih]
    | cons x a => simp [List.filter_cons, ih]

/-- Replacing line terminators by non-empty runs of CR and LF keeps the stripped
non-empty lines. -/
theorem entryLines_replaceTerminators (c : List Nat) (tss : List (List Nat))
    (htss : ∀ ts ∈ tss, ts ≠ [] ∧ ∀ b ∈ ts, b = 13 ∨ b = 10) :
    Spec.entryLines (Spec.replaceTerminators tss c) = Spec.entryLines c := by
  obtain ⟨h, rest, rest1, hl, hl1, hf⟩ := lines_replaceTerminators c tss htss
  unfold Spec.entryLines
  rw [hl, hl1, List.map_cons, List.map_cons, List.filter_cons, List.filter_cons,
    filter_map_stripped rest, filter_map_stripped rest1, hf]

theorem replaceTerminators_ne_zero (c : List Nat) : ∀ (tss : List (List Nat)),
    (∀ ts ∈ tss, ts ≠ [] ∧ ∀ b ∈ ts, b = 13 ∨ b = 10) → (∀ b ∈ c, b ≠ 0) →
    ∀ b ∈ Spec.replaceTerminators tss c, b ≠ 0 := by
  induction c with
  | nil => intro tss _ _ b hb; simp [Spec.replaceTerminators] at hb
  | cons a c ih =>
    intro tss htss hc b hb
    by_cases ha : a = 10
    · subst ha
      have hrep : Spec.replaceTerminators tss (10 :: c) =
          tss.headD [10] ++ Spec.replaceTerminators tss.tail c := by
        simp [Spec.replaceTerminators]
      rw [hrep] at hb
      rcases List.mem_append.mp hb with h1 | h1
      · have hhead : ∀ b ∈ tss.headD [10], b = 13 ∨ b = 10 := by
          cases tss with
          | nil => simp
          | cons ts rest => exact (htss ts (List.mem_cons_self _ _)).2
        rcases hhead b h1 with rfl | rfl <;> decide
      · exact ih tss.tail (fun ts hts => htss ts (List.mem_of_mem_tail hts))
          (fun x hx => hc x (List.mem_cons_of_mem _ hx)) b h1
    · have hrep : Spec.replaceTerminators tss (a :: c) =
          a :: Spec.replaceTerminators tss c := by
        simp [Spec.replaceTerminators, ha]
      rw [hrep] at hb
      rcases List.mem_cons.mp hb with h1 | h1
      · rw [h1]; exact hc a (List.mem_cons_self _ _)
      · exact ih tss htss (fun x hx => hc x (List.mem_cons_of_mem _ hx)) b h1



/-! ## Key and value of a line, read off the untrimmed line -/

theorem trimSpaces_append_left_spaces (a m : List Nat)
    (ha : ∀ c ∈ a, Spec.isSpaceTab c = true) :
    Spec.trimSpaces (a ++ m) = Spec.trimSpaces m := by
  unfold Spec.trimSpaces
  rw [List.dropWhile_append_of_pos ha]

theorem trimSpaces_append_right_spaces (m b : List Nat)
    (hb : ∀ c ∈ b, Spec.isSpaceTab c = true) :
    Spec.trimSpaces (m ++ b) = Spec.trimSpaces m := by
  unfold Spec.trimSpaces
  rw [List.dropWhile_append]
  cases hd : m.dropWhile Spec.isSpaceTab with
  | nil =>
    simp only [List.isEmpty_nil, if_true]
    rw [List.dropWhile_eq_nil_iff.mpr hb]
  | cons x r =>
    simp only [List.isEmpty_cons, Bool.false_eq_true, if_false]
    exact rdropWhile_append_of_pos _ _ _ hb

theorem trimSpaces_of_clean_ends (m : List Nat)
    (hh : ∀ c, m.head? = some c → Spec.isSpaceTab c = false)
    (hl : ∀ c, m.getLast? = some c → Spec.isSpaceTab c = false) :
    Spec.trimSpaces m = m := by
  have := trimSpaces_sandwich [] m [] (by simp) (by simp) hh hl
  simpa using this

theorem mem_trimSpaces_of_not_space (B : List Nat) (c : Nat) (hc : c ∈ B)
    (hns : Spec.isSpaceTab c = false) : c ∈ Spec.trimSpaces B := by
  obtain ⟨post, hpost, hpre_sp, hpost_sp⟩ := trimSpaces_decomp_spaces B
  rw [hpost] at hc
  simp only [List.mem_append] at hc
  rcases hc with (h | h) | h
  · have := hpre_sp c h; rw [hns] at this; exact Bool.noConfusion this
  · exact h
  · have := hpost_sp c h; rw [hns] at this; exact Bool.noConfusion this

theorem hasSeparator_iff_mem (t : List Nat) : Spec.hasSeparator t = true ↔ 61 ∈ t := by
  unfold Spec.hasSeparator Spec.isSeparator
  rw [List.any_eq_true]
  constructor
  · rintro ⟨x, hx, hx61⟩
    have : x = 61 := by simpa using hx61
    rw [← this]; exact hx
  · intro h; exact ⟨61, h, by rfl⟩

theorem space_not_separator (c : Nat) (hc : Spec.isSpaceTab c = true) :
    (fun c => !Spec.isSeparator c) c = true := by
  have : c = 32 ∨ c = 9 := by simpa [Spec.isSpaceTab] using hc
  rcases this with rfl | rfl <;> rfl

/-- The key and the value of the trimmed line are those read off the untrimmed line. -/
theorem key_value_of_trimmed (B : List Nat) (hsep : Spec.hasSeparator (Spec.trimSpaces B) = true) :
    Spec.keyOf (Spec.trimSpaces B) =
        Spec.trimSpaces (B.takeWhile (fun c => !Spec.isSeparator c)) ∧
      Spec.valueOf (Spec.trimSpaces B) =
        Spec.trimSpaces ((B.dropWhile (fun c => !Spec.isSeparator c)).drop 1) := by
  obtain ⟨post, hpost, hpre_sp, hpost_sp⟩ := trimSpaces_decomp_spaces B
  have hsplit := split_at_separator (Spec.trimSpaces B) hsep
  set T := Spec.trimSpaces B with hT
  set tk := T.takeWhile (fun c => !Spec.isSeparator c) with htk
  set tv := (T.dropWhile (fun c => !Spec.isSeparator c)).drop 1 with htv
  set pre := B.takeWhile Spec.isSpaceTab with hpre
  have hpre_ns : ∀ c ∈ pre, (fun c => !Spec.isSeparator c) c = true :=
    fun c hc => space_not_separator c (hpre_sp c hc)
  have htk_ns : ∀ c ∈ tk, (fun c => !Spec.isSeparator c) c = true := by
    intro c hc
    rw [htk] at hc
    have h := List.mem_takeWhile_imp hc
    exact h
  have hB : B = pre ++ (tk ++ 61 :: (tv ++ post)) := by
    conv_lhs => rw [hpost, hsplit]
    simp
  have h61 : (fun c => !Spec.isSeparator c) 61 = false := by rfl
  constructor
  · have htake : B.takeWhile (fun c => !Spec.isSeparator c) = pre ++ tk := by
      conv_lhs => rw [hB]
      rw [← List.append_assoc]
      apply takeWhile_append_stop _ h61
      intro c hc
      rcases List.mem_append.mp hc with h | h
      · exact hpre_ns c h
      · exact htk_ns c h
    rw [htake, trimSpaces_append_left_spaces _ _ hpre_sp]
    rfl
  · have hdrop : B.dropWhile (fun c => !Spec.isSeparator c) = 61 :: (tv ++ post) := by
      conv_lhs => rw [hB]
      rw [List.dropWhile_append_of_pos hpre_ns, List.dropWhile_append_of_pos htk_ns,
        List.dropWhile_cons_of_neg (by simp [Spec.isSeparator])]
    rw [hdrop]
    simp only [List.drop_succ_cons, List.drop_zero]
    rw [trimSpaces_append_right_spaces _ _ hpost_sp]
    rfl

/-- A line whose stripped form has a separator is made of spaces and tabs, its key,
spaces and tabs, `=`, spaces and tabs, its value, spaces and tabs, and then nothing or a
comment. -/
theorem line_decomposition (l : List Nat)
    (hsep : Spec.hasSeparator (Spec.stripped l) = true) :
    ∃ ws1 ws2 ws3 ws4 cmt,
      l = ws1 ++ Spec.keyOf (Spec.stripped l) ++ ws2 ++ [61] ++ ws3 ++
        Spec.valueOf (Spec.stripped l) ++ ws4 ++ cmt ∧
      (∀ c ∈ ws1 ++ ws2 ++ ws3 ++ ws4, Spec.isSpaceTab c = true) ∧
      (cmt = [] ∨ ∃ m text, cmt = m :: text ∧ Spec.isComment m = true) := by
  obtain ⟨post1, hp1, hpre1_sp, hpost1_sp⟩ := trimSpaces_decomp_spaces (Spec.cutComment l)
  have hsplit := split_at_separator (Spec.stripped l) hsep
  obtain ⟨post2, hp2, hpre2_sp, hpost2_sp⟩ := trimSpaces_decomp_spaces
    ((Spec.stripped l).takeWhile (fun c => !Spec.isSeparator c))
  obtain ⟨post3, hp3, hpre3_sp, hpost3_sp⟩ := trimSpaces_decomp_spaces
    (((Spec.stripped l).dropWhile (fun c => !Spec.isSeparator c)).drop 1)
  have hl : l = Spec.cutComment l ++ l.dropWhile (fun c => !Spec.isComment c) :=
    (List.takeWhile_append_dropWhile _ _).symm
  refine ⟨(Spec.cutComment l).takeWhile Spec.isSpaceTab ++
      ((Spec.stripped l).takeWhile (fun c => !Spec.isSeparator c)).takeWhile Spec.isSpaceTab,
    post2,
    (((Spec.stripped l).dropWhile (fun c => !Spec.isSeparator c)).drop 1).takeWhile
      Spec.isSpaceTab,
    post3 ++ post1, l.dropWhile (fun c => !Spec.isComment c), ?_, ?_, ?_⟩
  · have e1 : Spec.cutComment l = (Spec.cutComment l).takeWhile Spec.isSpaceTab ++
        Spec.stripped l ++ post1 := hp1
    have e2 : Spec.stripped l =
        (((Spec.stripped l).takeWhile (fun c => !Spec.isSeparator c)).takeWhile
            Spec.isSpaceTab ++ Spec.keyOf (Spec.stripped l) ++ post2) ++
          61 :: ((((Spec.stripped l).dropWhile (fun c => !Spec.isSeparator c)).drop
            1).takeWhile Spec.isSpaceTab ++ Spec.valueOf (Spec.stripped l) ++ post3) := by
      conv_lhs => rw [hsplit]
      conv_lhs => rw [hp2, hp3]
      rfl
    conv_lhs => rw [hl, e1]
    conv_lhs =>
      arg 1
      arg 1
      arg 2
      rw [e2]
    simp only [List.append_assoc, List.cons_append, List.nil_append, List.singleton_append]
  · intro c hc
    simp only [List.mem_append] at hc
    rcases hc with (((h | h) | h) | h) | h | h
    · exact hpre1_sp c h
    · exact hpre2_sp c h
    · exact hpost2_sp c h
    · exact hpre3_sp c h
    · exact hpost3_sp c h
    · exact hpost1_sp c h
  · cases hd : l.dropWhile (fun c => !Spec.isComment c) with
    | nil => exact Or.inl rfl
    | cons m text =>
      right
      refine ⟨m, text, rfl, ?_⟩
      have := List.head_dropWhile_not (fun c => !Spec.isComment c) l (by rw [hd]; simp)
      simpa [hd] using this



/-! ## Written lines `key = value` -/

/-- The specification's reading of a written line `key = value`, for a key and a value
without `=`, `;`, `#` and without space or tab at their ends (either may be empty). -/
theorem written_line_spec (k v : List Nat)
    (hkb : ∀ c ∈ k, c ∉ [61, 59, 35, 13, 10, 0]) (hvb : ∀ c ∈ v, c ∉ [61, 59, 35, 13, 10, 0])
    (hkh : ∀ c, k.head? = some c → Spec.isSpaceTab c = false)
    (hkl : ∀ c, k.getLast? = some c → Spec.isSpaceTab c = false)
    (hvh : ∀ c, v.head? = some c → Spec.isSpaceTab c = false)
    (hvl : ∀ c, v.getLast? = some c → Spec.isSpaceTab c = false) :
    Spec.stripped (k ++ [32, 61, 32] ++ v) ≠ [] ∧
      Spec.hasSeparator (Spec.stripped (k ++ [32, 61, 32] ++ v)) = true ∧
      Spec.pairOf (Spec.stripped (k ++ [32, 61, 32] ++ v)) = (k, v) := by
  have hk' : ∀ c ∈ k, c ≠ 61 ∧ c ≠ 59 ∧ c ≠ 35 := by
    intro c hc
    have := hkb c hc
    simp only [List.mem_cons, List.mem_singleton, List.not_mem_nil, or_false, not_or] at this
    exact ⟨this.1, this.2.1, this.2.2.1⟩
  have hv' : ∀ c ∈ v, c ≠ 61 ∧ c ≠ 59 ∧ c ≠ 35 := by
    intro c hc
    have := hvb c hc
    simp only [List.mem_cons, List.mem_singleton, List.not_mem_nil, or_false, not_or] at this
    exact ⟨this.1, this.2.1, this.2.2.1⟩
  have hcut : Spec.cutComment (k ++ [32, 61, 32] ++ v) = k ++ [32, 61, 32] ++ v := by
    unfold Spec.cutComment
    rw [List.takeWhile_eq_self_iff]
    intro c hc
    simp only [List.mem_append, List.mem_cons, List.mem_singleton, List.not_mem_nil,
      or_false] at hc
    rcases hc with (h | h | h | h) | h
    · simp [Spec.isComment, (hk' c h).2.1, (hk' c h).2.2]
    · subst h; rfl
    · subst h; rfl
    · subst h; rfl
    · simp [Spec.isComment, (hv' c h).2.1, (hv' c h).2.2]
  have hstr : Spec.stripped (k ++ [32, 61, 32] ++ v) =
      Spec.trimSpaces (k ++ [32, 61, 32] ++ v) := by
    unfold Spec.stripped; rw [hcut]
  have h61 : (61 : Nat) ∈ Spec.trimSpaces (k ++ [32, 61, 32] ++ v) :=
    mem_trimSpaces_of_not_space _ 61 (by simp) (by rfl)
  have hsep : Spec.hasSeparator (Spec.trimSpaces (k ++ [32, 61, 32] ++ v)) = true :=
    (hasSeparator_iff_mem _).mpr h61
  obtain ⟨hkey, hval⟩ := key_value_of_trimmed (k ++ [32, 61, 32] ++ v) hsep
  have hform : k ++ [32, 61, 32] ++ v = (k ++ [32]) ++ 61 :: ([32] ++ v) := by simp
  have hpre : ∀ c ∈ k ++ [32], (fun c => !Spec.isSeparator c) c = true := by
    intro c hc
    rcases List.mem_append.mp hc with h | h
    · simp [Spec.isSeparator, (hk' c h).1]
    · rw [List.mem_singleton.mp h]; rfl
  have hsp32 : ∀ c ∈ [32], Spec.isSpaceTab c = true := by
    intro c hc; rw [List.mem_singleton.mp hc]; rfl
  refine ⟨?_, ?_, ?_⟩
  · rw [hstr]; intro hc; rw [hc] at h61; exact absurd h61 (List.not_mem_nil _)
  · rw [hstr]; exact hsep
  · rw [hstr]
    unfold Spec.pairOf
    rw [hkey, hval, hform, takeWhile_append_stop hpre (by rfl),
      List.dropWhile_append_of_pos hpre,
      List.dropWhile_cons_of_neg (by simp [Spec.isSeparator])]
    simp only [List.drop_succ_cons, List.drop_zero]
    rw [trimSpaces_append_right_spaces _ _ hsp32, trimSpaces_append_left_spaces _ _ hsp32,
      trimSpaces_of_clean_ends k hkh hkl, trimSpaces_of_clean_ends v hvh hvl]

theorem written_line_no_newline (k v : List Nat)
    (hkb : ∀ c ∈ k, c ∉ [61, 59, 35, 13, 10, 0]) (hvb : ∀ c ∈ v, c ∉ [61, 59, 35, 13, 10, 0]) :
    (∀ c ∈ k ++ [32, 61, 32] ++ v, (fun c => !Spec.isNewline c) c = true) ∧
    (∀ c ∈ k ++ [32, 61, 32] ++ v, c ≠ 0) := by
  have hk' : ∀ c ∈ k, c ≠ 13 ∧ c ≠ 10 ∧ c ≠ 0 := by
    intro c hc
    have := hkb c hc
    simp only [List.mem_cons, List.mem_singleton, List.not_mem_nil, or_false, not_or] at this
    exact ⟨this.2.2.2.1, this.2.2.2.2.1, this.2.2.2.2.2⟩
  have hv' : ∀ c ∈ v, c ≠ 13 ∧ c ≠ 10 ∧ c ≠ 0 := by
    intro c hc
    have := hvb c hc
    simp only [List.mem_cons, List.mem_singleton, List.not_mem_nil, or_false, not_or] at this
    exact ⟨this.2.2.2.1, this.2.2.2.2.1, this.2.2.2.2.2⟩
  constructor
  · intro c hc
    simp only [List.mem_append, List.mem_cons, List.mem_singleton, List.not_mem_nil,
      or_false] at hc
    rcases hc with (h | h | h | h) | h
    · simp [Spec.isNewline, (hk' c h).1, (hk' c h).2.1]
    · subst h; rfl
    · subst h; rfl
    · subst h; rfl
    · simp [Spec.isNewline, (hv' c h).1, (hv' c h).2.1]
  · intro c hc
    simp only [List.mem_append, List.mem_cons, List.mem_singleton, List.not_mem_nil,
      or_false] at hc
    rcases hc with (h | h | h | h) | h
    · exact (hk' c h).2.2
    · subst h; decide
    · subst h; decide
    · subst h; decide
    · exact (hv' c h).2.2

/-- The stripped non-empty lines of the written text are the stripped written lines, and
the text has no zero byte. -/
theorem entryLines_serialize : ∀ (kvs : List (List Nat × List Nat)),
    (∀ kv ∈ kvs, (∀ c ∈ kv.1, c ∉ [61, 59, 35, 13, 10, 0]) ∧
      (∀ c ∈ kv.2, c ∉ [61, 59, 35, 13, 10, 0]) ∧
      (∀ c, kv.1.head? = some c → Spec.isSpaceTab c = false) ∧
      (∀ c, kv.1.getLast? = some c → Spec.isSpaceTab c = false) ∧
      (∀ c, kv.2.head? = some c → Spec.isSpaceTab c = false) ∧
      (∀ c, kv.2.getLast? = some c → Spec.isSpaceTab c = false)) →
    Spec.entryLines (Spec.serialize kvs) =
        kvs.map (fun kv => Spec.stripped (kv.1 ++ [32, 61, 32] ++ kv.2)) ∧
      (∀ c ∈ Spec.serialize kvs, c ≠ 0) := by
  intro kvs
  induction kvs with
  | nil => intro _; exact ⟨entryLines_nil, by simp [Spec.serialize]⟩
  | cons kv rest ih =>
    intro h
    obtain ⟨hkb, hvb, hkh, hkl, hvh, hvl⟩ := h kv (List.mem_cons_self _ _)
    obtain ⟨ihE, ih0⟩ := ih (fun x hx => h x (List.mem_cons_of_mem _ hx))
    obtain ⟨hne, _, _⟩ := written_line_spec kv.1 kv.2 hkb hvb hkh hkl hvh hvl
    obtain ⟨hnl, hnz⟩ := written_line_no_newline kv.1 kv.2 hkb hvb
    have hser : Spec.serialize (kv :: rest) =
        (kv.1 ++ [32, 61, 32] ++ kv.2) ++ 10 :: Spec.serialize rest := by
      simp [Spec.serialize]
    constructor
    · rw [hser, entryLines_token, takeWhile_append_stop hnl (by rfl),
        List.dropWhile_append_of_pos hnl, List.dropWhile_cons_of_neg (by simp [Spec.isNewline])]
      simp only [hne, if_false, List.drop_succ_cons, List.drop_zero, List.singleton_append,
        List.map_cons, ihE]
    · intro c hc
      rw [hser] at hc
      rcases List.mem_append.mp hc with h1 | h1
      · exact hnz c h1
      · rcases List.mem_cons.mp h1 with h2 | h2
        · rw [h2]; decide
        · exact ih0 c h2



/-! ## The table read at a plain `char` -/

theorem charBound_pos (sc : Bool) : 0 < charBound sc := by
  cases sc <;> decide

theorem spacesLookupAt_of_lt (sc : Bool) (c : Nat) (h : c < charBound sc) :
    spacesLookupAt (charIndex sc c) = .ok (spacesLookup c) := by
  have h256 : c < 256 := by
    cases sc
    · exact h
    · exact Nat.lt_of_lt_of_le h (by decide)
  have hidx : charIndex sc c = (c : Int) := by
    unfold charIndex
    cases sc
    · simp
    · have : ¬ 128 ≤ c := Nat.not_le.mpr h
      simp [this]
  rw [hidx]
  unfold spacesLookupAt spacesLookup
  have hc : (0 : Int) ≤ (c : Int) ∧ (c : Int) < 256 := ⟨Int.ofNat_nonneg c, by omega⟩
  rw [if_pos hc]
  simp

theorem getD_lt_charBound (sc : Bool) (mem : List Nat) (h : ∀ b ∈ mem, b < charBound sc)
    (i : Nat) : mem.getD i 0 < charBound sc := by
  rw [List.getD_eq_getElem?_getD]
  cases hi : mem[i]? with
  | none => exact charBound_pos sc
  | some x => exact h x (List.getElem?_mem hi)

theorem set_zero_lt_charBound (sc : Bool) (mem : List Nat)
    (h : ∀ b ∈ mem, b < charBound sc) (i : Nat) :
    ∀ b ∈ mem.set i 0, b < charBound sc := by
  intro b hb
  rcases List.mem_or_eq_of_mem_set hb with hm | he
  · exact h b hm
  · rw [he]; exact charBound_pos sc

theorem plainChar_trimFront_eq (sc : Bool) (mem : List Nat)
    (h : ∀ b ∈ mem, b < charBound sc) :
    ∀ n ptr, PlainChar.trimFront sc mem ptr n = .ok (trimFront mem ptr n) := by
  intro n
  induction n with
  | zero => intro ptr; rfl
  | succ n ih =>
    intro ptr
    unfold PlainChar.trimFront trimFront
    rw [spacesLookupAt_of_lt sc _ (getD_lt_charBound sc mem h ptr)]
    cases hs : spacesLookup (mem.getD ptr 0)
    · simp
    · simp [ih]

theorem plainChar_trimBack_eq (sc : Bool) (mem : List Nat)
    (h : ∀ b ∈ mem, b < charBound sc) (ptr : Nat) :
    ∀ n, PlainChar.trimBack sc mem ptr n = .ok (trimBack mem ptr n) := by
  intro n
  induction n with
  | zero => rfl
  | succ n ih =>
    unfold PlainChar.trimBack trimBack
    rw [spacesLookupAt_of_lt sc _ (getD_lt_charBound sc mem h (ptr + n))]
    cases hs : spacesLookup (mem.getD (ptr + n) 0)
    · simp
    · simp [ih]

/-- On a buffer whose bytes index inside the table, `trim` with the index type of the
source is `trim` with the table read at the value of the byte. -/
theorem plainChar_trim_eq_trim (sc : Bool) (mem : List Nat)
    (h : ∀ b ∈ mem, b < charBound sc) (s : Slice) :
    PlainChar.trim sc mem s = .ok (trim mem s) := by
  unfold PlainChar.trim trim
  rw [plainChar_trimFront_eq sc mem h]
  simp only
  rw [plainChar_trimBack_eq sc mem h]

theorem plainChar_splitEntry_eq (sc : Bool) (S : List Nat)
    (h : ∀ b ∈ S, b < charBound sc) (s : Slice) :
    PlainChar.splitEntry sc S s =
      match splitEntry S s with
      | none => .error Fault.assertion
      | some r => .ok r := by
  unfold PlainChar.splitEntry splitEntry
  simp only
  by_cases hsep : (find_first_of S s.ptr s.end_ SEPARATORS == s.end_) = true
  · simp only [hsep, if_true]
  · simp only [hsep, if_false]
    cases s.subslice 0 (find_first_of S s.ptr s.end_ SEPARATORS - s.ptr) <;>
      cases s.subsliceFrom (find_first_of S s.ptr s.end_ SEPARATORS - s.ptr + 1) <;>
      simp [plainChar_trim_eq_trim sc S h]

theorem plainChar_lineStep_eq (sc : Bool) (S : List Nat)
    (h : ∀ b ∈ S, b < charBound sc) (tok : Nat) :
    PlainChar.lineStep sc S tok =
      match lineStep S tok with
      | none => .error Fault.assertion
      | some r => .ok r := by
  unfold PlainChar.lineStep lineStep
  cases hc : stripComment S ⟨tok, strlen S tok⟩ with
  | none => rfl
  | some slice1 =>
    simp only [plainChar_trim_eq_trim sc S h]
    split
    · rfl
    · exact plainChar_splitEntry_eq sc S h _



theorem strtok_lt_charBound (sc : Bool) (S : List Nat) (h : ∀ b ∈ S, b < charBound sc)
    (save : Nat) (delim : List Nat) (tok : Nat) (S1 : List Nat) (save1 : Nat)
    (ht : strtok S save delim = (some (tok, S1), save1)) :
    ∀ b ∈ S1, b < charBound sc := by
  unfold strtok at ht
  simp only at ht
  split at ht
  · simp at ht
  · split at ht
    · simp only [Prod.mk.injEq, Option.some.injEq] at ht
      rw [← ht.1.2]; exact h
    · simp only [Prod.mk.injEq, Option.some.injEq] at ht
      rw [← ht.1.2]; exact set_zero_lt_charBound sc S h _

theorem splitEntry_lt_charBound (sc : Bool) (S : List Nat) (h : ∀ b ∈ S, b < charBound sc)
    (s : Slice) (k v : Nat) (S2 : List Nat)
    (hs : splitEntry S s = some (LineStep.pushed k v S2)) :
    ∀ b ∈ S2, b < charBound sc := by
  unfold splitEntry at hs
  simp only at hs
  split at hs
  · simp at hs
  · split at hs
    · simp only [Option.some.injEq, LineStep.pushed.injEq] at hs
      rw [← hs.2.2]
      exact set_zero_lt_charBound sc _ (set_zero_lt_charBound sc S h _) _
    · simp at hs

theorem lineStep_lt_charBound (sc : Bool) (S : List Nat) (h : ∀ b ∈ S, b < charBound sc)
    (tok k v : Nat) (S2 : List Nat)
    (hs : lineStep S tok = some (LineStep.pushed k v S2)) :
    ∀ b ∈ S2, b < charBound sc := by
  unfold lineStep at hs
  split at hs
  · simp at hs
  · simp only at hs
    split at hs
    · simp at hs
    · exact splitEntry_lt_charBound sc S h _ k v S2 hs

theorem plainChar_parseLoop_eq (sc : Bool) :
    ∀ (fuel : Nat) (S : List Nat) (save : Nat) (es : List (Nat × Nat)) (p : Parsed),
      (∀ b ∈ S, b < charBound sc) → parseLoop fuel S save es = some p →
      PlainChar.parseLoop sc fuel S save es = some (.ok p) := by
  intro fuel
  induction fuel with
  | zero => intro S save es p _ hp; simp [parseLoop] at hp
  | succ fuel ih =>
    intro S save es p h hp
    unfold parseLoop at hp
    unfold PlainChar.parseLoop
    rcases hst : strtok S save [13, 10] with ⟨_ | ⟨tok, S1⟩, save1⟩
    · rw [hst] at hp
      simp only [Option.some.injEq] at hp
      simp only [hp]
    · rw [hst] at hp
      simp only at hp ⊢
      have h1 := strtok_lt_charBound sc S h save [13, 10] tok S1 save1 hst
      rw [plainChar_lineStep_eq sc S1 h1 tok]
      cases hl : lineStep S1 tok with
      | none => rw [hl] at hp; simp at hp
      | some r =>
        rw [hl] at hp
        cases r with
        | skipped => exact ih S1 save1 es p h1 hp
        | noSeparator =>
          simp only [Option.some.injEq] at hp
          simp only [hp]
        | pushed k v S2 =>
          exact ih S2 save1 _ p (lineStep_lt_charBound sc S1 h1 tok k v S2 hl) hp

/-- On a content whose bytes index inside the table, the constructor with the index type
of the source builds the table that the constructor with the table read at the value of
the byte builds. -/
theorem plainChar_load_eq_load (sc : Bool) (content : List Nat)
    (h : ∀ b ∈ content, b < charBound sc) (t : CFG) (ht : CFG.load content = some t) :
    PlainChar.load sc content = some (.ok t) := by
  unfold CFG.load at ht
  unfold PlainChar.load
  simp only at ht ⊢
  have hS : ∀ b ∈ content ++ [0], b < charBound sc := by
    intro b hb
    rcases List.mem_append.mp hb with hb | hb
    · exact h b hb
    · rw [List.mem_singleton.mp hb]; exact charBound_pos sc
  cases hp : parseLoop ((content ++ [0]).length + 1) (content ++ [0]) 0 [] with
  | none => rw [hp] at ht; simp at ht
  | some p =>
    rw [hp] at ht
    rw [plainChar_parseLoop_eq sc _ _ _ _ p hS hp]
    simp only at ht ⊢
    split at ht
    · rename_i hok
      rw [if_pos hok]
      simp only [Option.some.injEq] at ht
      rw [ht]
    · rename_i hok
      rw [if_neg hok]
      split at ht
      · rename_i hd
        rw [if_pos hd]
        simp only [Option.some.injEq] at ht
        rw [ht]
      · rename_i hd
        rw [if_neg hd]
        simp only [Option.some.injEq] at ht
        rw [ht]

theorem plainChar_ofFile_eq_ofFile (sc : Bool) (content : List Nat)
    (h : ∀ b ∈ content, b < charBound sc) (t : CFG)
    (ht : CFG.ofFile (some content) = some t) :
    PlainChar.ofFile sc (some content) = some (.ok t) :=
  plainChar_load_eq_load sc content h t ht



theorem replaceTerminators_lt_charBound (sc : Bool) (c : List Nat) :
    ∀ (tss : List (List Nat)),
    (∀ ts ∈ tss, ts ≠ [] ∧ ∀ b ∈ ts, b = 13 ∨ b = 10) → (∀ b ∈ c, b < charBound sc) →
    ∀ b ∈ Spec.replaceTerminators tss c, b < charBound sc := by
  have h13 : 13 < charBound sc := by cases sc <;> decide
  have h10 : 10 < charBound sc := by cases sc <;> decide
  induction c with
  | nil => intro tss _ _ b hb; simp [Spec.replaceTerminators] at hb
  | cons a c ih =>
    intro tss htss hc b hb
    by_cases ha : a = 10
    · subst ha
      have hrep : Spec.replaceTerminators tss (10 :: c) =
          tss.headD [10] ++ Spec.replaceTerminators tss.tail c := by
        simp [Spec.replaceTerminators]
      rw [hrep] at hb
      rcases List.mem_append.mp hb with h1 | h1
      · have hhead : ∀ b ∈ tss.headD [10], b = 13 ∨ b = 10 := by
          cases tss with
          | nil => simp
          | cons ts rest => exact (htss ts (List.mem_cons_self _ _)).2
        rcases hhead b h1 with rfl | rfl
        · exact h13
        · exact h10
      · exact ih tss.tail (fun ts hts => htss ts (List.mem_of_mem_tail hts))
          (fun x hx => hc x (List.mem_cons_of_mem _ hx)) b h1
    · have hrep : Spec.replaceTerminators tss (a :: c) =
          a :: Spec.replaceTerminators tss c := by
        simp [Spec.replaceTerminators, ha]
      rw [hrep] at hb
      rcases List.mem_cons.mp hb with h1 | h1
      · rw [h1]; exact hc a (List.mem_cons_self _ _)
      · exact ih tss htss (fun x hx => hc x (List.mem_cons_of_mem _ hx)) b h1



/-! ## The concrete scenario, and the class `Slice` -/

/-- C11 (the code departs from it): for the input of the scenario, `b = 2`, `a = 1`,
`# comment`, `c=3  ; trailing`, each line ended by LF, the table is Valid, `size()` is 3
and iteration yields (`a`, `1`), (`b`, `2`), (`c`, `3`); but `find("c")`, called with a
pointer to a string `c` outside the table's buffer, returns `end()` (index 3) and not the
entry, and `find("z")` reads the entry at index 3, which does not exist.  With the
table's own pointer to the key `c` (offset 22 of the buffer) the entry is found.  The
table is the same whether plain `char` is signed or not. -/
theorem scenario_find_misses :
    ∃ t, CFG.ofFile (some [98, 32, 61, 32, 50, 10, 97, 32, 61, 32, 49, 10, 35, 32, 99, 111,
        109, 109, 101, 110, 116, 10, 99, 61, 51, 32, 32, 59, 32, 116, 114, 97, 105, 108,
        105, 110, 103, 10]) = some t ∧
      (∀ signedChar, PlainChar.ofFile signedChar (some [98, 32, 61, 32, 50, 10, 97, 32, 61,
        32, 49, 10, 35, 32, 99, 111, 109, 109, 101, 110, 116, 10, 99, 61, 51, 32, 32, 59, 32,
        116, 114, 97, 105, 108, 105, 110, 103, 10]) = some (.ok t)) ∧
      t.is_valid = true ∧ t.size = .ok 3 ∧
      t.strings = [([97], [49]), ([98], [50]), ([99], [51])] ∧
      t.end_ = .ok 3 ∧
      t.find (KeyPtr.elsewhere [99]) = .ok 3 ∧
      t.find (KeyPtr.elsewhere [122]) = .error Fault.outOfBounds ∧
      t.find (KeyPtr.inStorage 22) = .ok 2 :=
  ⟨⟨[(6, 10), (0, 4), (22, 24)],
      [98, 0, 61, 32, 50, 0, 97, 0, 61, 32, 49, 0, 35, 32, 99, 111, 109, 109, 101, 110, 116,
        0, 99, 0, 51, 0, 32, 59, 32, 116, 114, 97, 105, 108, 105, 110, 103, 0, 0], true⟩,
    by decide, by decide, rfl, by decide, by decide, by decide, by decide, by decide,
    by decide⟩

/-- The method `subslice(start, size)` when the sum `start + size` does not wrap around:
it fails iff the sum exceeds the size of the slice, and otherwise returns the slice of
`size` elements that starts at element `start`. -/
theorem subslice_without_wrap (mem : List Nat) (s : Slice) (start size : Nat)
    (hw : start + size < 2 ^ 64) :
    (s.subslice start size = none ↔ s.size < start + size) ∧
    (start + size ≤ s.size → s.subslice start size = some ⟨s.ptr + start, size⟩ ∧
      (s.ptr + s.size ≤ mem.length →
        Slice.bytes mem ⟨s.ptr + start, size⟩ = ((s.bytes mem).drop start).take size)) := by
  have hmod : (start + size) % 2 ^ 64 = start + size := Nat.mod_eq_of_lt hw
  refine ⟨?_, fun hle => ⟨?_, fun _ => ?_⟩⟩
  · unfold Slice.subslice
    rw [hmod]
    by_cases h : start + size ≤ s.size
    · simp [h]
    · simp only [h, if_false, true_iff]; omega
  · unfold Slice.subslice
    rw [hmod, if_pos hle]
  · unfold Slice.bytes
    simp only
    rw [List.drop_take, List.drop_drop, List.take_take]
    have h1 : min size (s.size - start) = size := by omega
    rw [h1, Nat.add_comm]

/-- C16 (the code departs from it): the assertion of `subslice` computes `start + size`
in `size_t`.  For a slice of size 1, `start = 2^64 - 1` and `size = 2` are both values of
`size_t`, their mathematical sum `2^64 + 1` exceeds 1, but the wrapped sum is 1: the
assertion holds and a slice of size 2 is returned, which starts outside the original. -/
theorem subslice_wrapped_sum_passes_assertion :
    (2 ^ 64 - 1 < 2 ^ 64 ∧ 2 < 2 ^ 64) ∧
    (Slice.mk 0 1).size < (2 ^ 64 - 1) + 2 ∧
    Slice.subslice ⟨0, 1⟩ (2 ^ 64 - 1) 2 = some ⟨2 ^ 64 - 1, 2⟩ :=
  ⟨by decide, by decide, by decide⟩

/-- The operations other than the wrapped `subslice` keep a slice inside its buffer and
inside its own range: `subslice(start, size)` with a sum that does not wrap,
`subslice(start)` (which fails iff `start` exceeds the size, and otherwise has the size
`size - start`), `pop_front`, `pop_back` and `trim`. -/
theorem slice_operations_stay_inside (mem : List Nat) (s : Slice)
    (hin : s.ptr + s.size ≤ mem.length) :
    (∀ start size r, start + size < 2 ^ 64 → s.subslice start size = some r →
      s.ptr ≤ r.ptr ∧ r.ptr + r.size ≤ s.ptr + s.size) ∧
    (∀ start, (s.subsliceFrom start = none ↔ s.size < start) ∧
      ∀ r, s.subsliceFrom start = some r →
        r.size = s.size - start ∧ s.ptr ≤ r.ptr ∧ r.ptr + r.size ≤ s.ptr + s.size) ∧
    (∀ r, s.pop_front = some r → s.ptr ≤ r.ptr ∧ r.ptr + r.size ≤ s.ptr + s.size) ∧
    (∀ r, s.pop_back = some r → s.ptr ≤ r.ptr ∧ r.ptr + r.size ≤ s.ptr + s.size) ∧
    (s.ptr ≤ (trim mem s).ptr ∧ (trim mem s).ptr + (trim mem s).size ≤ s.ptr + s.size) := by
  refine ⟨?_, ?_, ?_, ?_, ?_⟩
  · intro start size r hw hr
    unfold Slice.subslice at hr
    rw [Nat.mod_eq_of_lt hw] at hr
    by_cases h : start + size ≤ s.size
    · rw [if_pos h] at hr
      have := Option.some.inj hr
      subst this
      simp only
      omega
    · rw [if_neg h] at hr; exact Option.noConfusion hr
  · intro start
    unfold Slice.subsliceFrom
    by_cases h : start ≤ s.size
    · simp only [h, if_true]
      refine ⟨by simp; omega, ?_⟩
      intro r hr
      have := Option.some.inj hr
      subst this
      refine ⟨rfl, Nat.le_add_right _ _, ?_⟩
      show s.ptr + start + (s.size - start) ≤ s.ptr + s.size
      omega
    · simp only [h, if_false, true_iff]
      exact ⟨by omega, fun r hr => Option.noConfusion hr⟩
  · intro r hr
    unfold Slice.pop_front Slice.empty at hr
    by_cases h : s.size = 0
    · simp [h] at hr
    · simp only [beq_iff_eq, h, if_false] at hr
      have := Option.some.inj hr
      subst this
      simp only
      omega
  · intro r hr
    unfold Slice.pop_back Slice.empty at hr
    by_cases h : s.size = 0
    · simp [h] at hr
    · simp only [beq_iff_eq, h, if_false] at hr
      have := Option.some.inj hr
      subst this
      simp only
      omega
  · obtain ⟨hlen, rest, hview⟩ := slice_view mem s hin
    have ht := trim_spec mem s.ptr (s.bytes mem) rest hview
    rw [hlen] at ht
    have hs : (⟨s.ptr, s.size⟩ : Slice) = s := rfl
    rw [hs] at ht
    rw [ht]
    simp only
    obtain ⟨post, hpost, _, _⟩ := trimSpaces_decomp_spaces (s.bytes mem)
    have hl := congrArg List.length hpost
    simp only [List.length_append] at hl
    omega

/-- C17 (the code departs from it): the slice of size 1 at offset 0 lies inside the
buffer of one byte, the call `subslice(2^64 - 1, 2)` succeeds on it (the sum in the
assertion wraps to 1), and the slice it yields lies neither inside the buffer nor inside
the range of the original slice. -/
theorem subslice_wrapped_leaves_buffer :
    (Slice.mk 0 1).ptr + (Slice.mk 0 1).size ≤ [97].length ∧
    ∃ r, Slice.subslice ⟨0, 1⟩ (2 ^ 64 - 1) 2 = some r ∧
      ¬ (r.ptr + r.size ≤ [97].length) ∧
      ¬ (r.ptr + r.size ≤ (Slice.mk 0 1).ptr + (Slice.mk 0 1).size) :=
  ⟨by decide, ⟨2 ^ 64 - 1, 2⟩, by decide, by decide, by decide⟩



/-- C18: `front()`, `back()`, `pop_front()` and `pop_back()` fail their assertion iff the
slice is empty; on a slice of size `n > 0` inside the buffer, `front()` is element 0 of
the viewed bytes, `back()` is element `n - 1`, `pop_front()` leaves the view of the
elements `1 .. n-1` and `pop_back()` the view of the elements `0 .. n-2`, each of size
`n - 1`.  The operations only read the buffer (they take it and return no buffer). -/
theorem slice_front_back_pop (mem : List Nat) (s : Slice) :
    (s.front mem = none ↔ s.empty = true) ∧ (s.back mem = none ↔ s.empty = true) ∧
    (s.pop_front = none ↔ s.empty = true) ∧ (s.pop_back = none ↔ s.empty = true) ∧
    (s.ptr + s.size ≤ mem.length → 0 < s.size →
      s.front mem = (s.bytes mem)[0]? ∧
      s.back mem = (s.bytes mem)[s.size - 1]? ∧
      (∃ r, s.pop_front = some r ∧ r.size = s.size - 1 ∧
        r.bytes mem = (s.bytes mem).drop 1) ∧
      (∃ r, s.pop_back = some r ∧ r.size = s.size - 1 ∧
        r.bytes mem = (s.bytes mem).take (s.size - 1))) := by
  refine ⟨?_, ?_, ?_, ?_, ?_⟩
  · unfold Slice.front; cases h : s.empty <;> simp
  · unfold Slice.back; cases h : s.empty <;> simp
  · unfold Slice.pop_front; cases h : s.empty <;> simp
  · unfold Slice.pop_back; cases h : s.empty <;> simp
  · intro hin hpos
    have hne : s.empty = false := by
      unfold Slice.empty
      simp only [beq_eq_false_iff_ne, ne_eq]
      omega
    refine ⟨?_, ?_, ⟨⟨s.ptr + 1, s.size - 1⟩, ?_, rfl, ?_⟩, ⟨⟨s.ptr, s.size - 1⟩, ?_, rfl, ?_⟩⟩
    · unfold Slice.front Slice.bytes
      rw [hne]
      have h1 : s.ptr < mem.length := by omega
      simp [List.getElem?_take, hpos, List.getElem?_drop, List.getD_eq_getElem?_getD,
        List.getElem?_eq_getElem h1]
    · unfold Slice.back Slice.bytes
      rw [hne]
      have h1 : s.ptr + s.size - 1 < mem.length := by omega
      have h2 : s.size - 1 < s.size := by omega
      have h3 : s.ptr + (s.size - 1) = s.ptr + s.size - 1 := by omega
      simp [List.getElem?_take, h2, List.getElem?_drop, List.getD_eq_getElem?_getD,
        List.getElem?_eq_getElem h1, h3]
    · unfold Slice.pop_front; rw [hne]; rfl
    · unfold Slice.bytes
      simp only
      rw [List.drop_take, List.drop_drop]
    · unfold Slice.pop_back; rw [hne]; rfl
    · unfold Slice.bytes
      simp only
      rw [List.take_take]
      congr 1
      omega

/-- C18, at the slice of size 2 at offset 1 of the buffer `a`, `b`, `c`. -/
theorem slice_front_back_pop_witness :
    Slice.front [97, 98, 99] ⟨1, 2⟩ = (Slice.bytes [97, 98, 99] ⟨1, 2⟩)[0]? ∧
      Slice.back [97, 98, 99] ⟨1, 2⟩ = (Slice.bytes [97, 98, 99] ⟨1, 2⟩)[2 - 1]? ∧
      (∃ r, Slice.pop_front ⟨1, 2⟩ = some r ∧ r.size = 2 - 1 ∧
        r.bytes [97, 98, 99] = (Slice.bytes [97, 98, 99] ⟨1, 2⟩).drop 1) ∧
      (∃ r, Slice.pop_back ⟨1, 2⟩ = some r ∧ r.size = 2 - 1 ∧
        r.bytes [97, 98, 99] = (Slice.bytes [97, 98, 99] ⟨1, 2⟩).take (2 - 1)) :=
  (slice_front_back_pop [97, 98, 99] ⟨1, 2⟩).2.2.2.2 (by decide) (by decide)

/-- C20: for every table with `is_valid() == false`, each of `find`, `begin`, `end` and
`size` fails its assertion, so that no entry, iterator or count is returned; `is_valid()`
is a plain read of the flag.  The default-constructed table and the table of a file that
cannot be opened are such tables (for a missing separator and a duplicate key see
`missing_separator_invalid` and `duplicate_key_invalid`). -/
theorem invalid_table_operations_fail (t : CFG) (h : t.is_valid = false) (key : KeyPtr) :
    t.find key = .error Fault.assertion ∧ t.begin_ = .error Fault.assertion ∧
    t.end_ = .error Fault.assertion ∧ t.size = .error Fault.assertion ∧
    CFG.default.is_valid = false ∧
    (∃ u, CFG.ofFile none = some u ∧ u.is_valid = false) := by
  have hv : t.valid = false := h
  refine ⟨?_, ?_, ?_, ?_, rfl, ⟨_, rfl, rfl⟩⟩
  · simp [CFG.find, hv]
  · simp [CFG.begin_, hv]
  · simp [CFG.end_, hv]
  · simp [CFG.size, hv]

/-- C20, at the table of the content `x` (a line without separator). -/
theorem invalid_table_operations_fail_witness :
    (CFG.mk [] [120, 0] false).is_valid = false ∧
    CFG.ofFile (some [120]) = some (CFG.mk [] [120, 0] false) ∧
    ((CFG.mk [] [120, 0] false).find (KeyPtr.elsewhere [120]) = .error Fault.assertion ∧
      (CFG.mk [] [120, 0] false).begin_ = .error Fault.assertion ∧
      (CFG.mk [] [120, 0] false).end_ = .error Fault.assertion ∧
      (CFG.mk [] [120, 0] false).size = .error Fault.assertion ∧
      CFG.default.is_valid = false ∧
      (∃ u, CFG.ofFile none = some u ∧ u.is_valid = false)) :=
  ⟨rfl, by decide,
    invalid_table_operations_fail (CFG.mk [] [120, 0] false) rfl (KeyPtr.elsewhere [120])⟩



theorem getD_of_view_append {mem : List Nat} {p : Nat} {A B C : List Nat}
    (h : mem.drop p = A ++ B ++ C) (j : Nat) (hj : j < B.length) :
    mem.getD (p + A.length + j) 0 ∈ B := by
  have hd : mem.drop (p + A.length) = B ++ C := by
    apply drop_add_of_drop (A := A)
    rw [h, List.append_assoc]
  rw [getD_add_eq_getD_drop, hd, List.getD_eq_getElem?_getD, List.getElem?_append_left hj,
    List.getElem?_eq_getElem hj]
  exact List.getElem_mem _

/-- The contract of `trim` with the table read at the value of the byte: for a slice `s`
inside the buffer, `trim(s)` is the sub-range of `s` obtained by removing the longest
prefix and then the longest suffix of spaces and tabs: it lies in the range of `s` and
views the trimmed bytes of `s`; it is empty or its first and its last byte are neither
space nor tab; every byte of `s` outside it is a space or a tab; and `trim(trim(s))` is
`trim(s)`. -/
theorem trim_removes_spaces_and_tabs (mem : List Nat) (s : Slice)
    (hin : s.ptr + s.size ≤ mem.length) :
    (s.ptr ≤ (trim mem s).ptr ∧ (trim mem s).ptr + (trim mem s).size ≤ s.ptr + s.size) ∧
    (trim mem s).bytes mem = Spec.trimSpaces (s.bytes mem) ∧
    ((trim mem s).empty = true ∨
      ∃ a b, (trim mem s).front mem = some a ∧ (trim mem s).back mem = some b ∧
        Spec.isSpaceTab a = false ∧ Spec.isSpaceTab b = false) ∧
    (∀ i, s.ptr ≤ i → i < s.ptr + s.size →
      (i < (trim mem s).ptr ∨ (trim mem s).ptr + (trim mem s).size ≤ i) →
      Spec.isSpaceTab (mem.getD i 0) = true) ∧
    trim mem (trim mem s) = trim mem s := by
  obtain ⟨hlen, rest, hview⟩ := slice_view mem s hin
  have ht := trim_spec mem s.ptr (s.bytes mem) rest hview
  rw [hlen] at ht
  have hs : (⟨s.ptr, s.size⟩ : Slice) = s := rfl
  rw [hs] at ht
  obtain ⟨post, hpost, hpre_sp, hpost_sp⟩ := trimSpaces_decomp_spaces (s.bytes mem)
  set B := s.bytes mem with hB
  set pre := B.takeWhile Spec.isSpaceTab with hpre
  set T := Spec.trimSpaces B with hT
  have hl : pre.length + T.length + post.length = s.size := by
    have := congrArg List.length hpost
    simp only [List.length_append] at this
    omega
  have hfull : mem.drop s.ptr = pre ++ T ++ (post ++ rest) := by
    rw [hview]
    conv_lhs => rw [hpost]
    simp
  have hdT : mem.drop (s.ptr + pre.length) = T ++ (post ++ rest) := by
    apply drop_add_of_drop (A := pre)
    rw [hfull, List.append_assoc]
  rw [ht]
  refine ⟨⟨by simp, by simp only; omega⟩, ?_, ?_, ?_, ?_⟩
  · unfold Slice.bytes
    simp only
    rw [hdT, List.take_left]
  · by_cases hTe : T = []
    · left; simp [Slice.empty, hTe]
    · right
      have hTpos : 0 < T.length := List.length_pos.mpr hTe
      have hemp : (Slice.mk (s.ptr + pre.length) T.length).empty = false := by
        simp only [Slice.empty, beq_eq_false_iff_ne, ne_eq]; omega
      obtain ⟨x, T1, hx⟩ : ∃ x T1, T = x :: T1 := by
        cases hc : T with
        | nil => exact absurd hc hTe
        | cons x T1 => exact ⟨x, T1, rfl⟩
      obtain ⟨T2, y, hy⟩ : ∃ T2 y, T = T2 ++ [y] := by
        rcases List.eq_nil_or_concat T with h | ⟨T2, y, h⟩
        · exact absurd h hTe
        · exact ⟨T2, y, by rw [h, List.concat_eq_append]⟩
      have hfront : mem.getD (s.ptr + pre.length) 0 = x :=
        getD_of_drop (by rw [hdT, hx]; rfl)
      have hback : mem.getD (s.ptr + pre.length + T.length - 1) 0 = y := by
        have h1 : s.ptr + pre.length + T.length - 1 = s.ptr + pre.length + T2.length := by
          have := congrArg List.length hy
          simp only [List.length_append, List.length_singleton] at this
          omega
        rw [h1]
        apply getD_add_of_drop (A := T2) (t := post ++ rest)
        rw [hdT, hy]; simp
      refine ⟨x, y, ?_, ?_, ?_, ?_⟩
      · unfold Slice.front; rw [hemp]; simp only [Bool.false_eq_true, if_false, hfront]
      · unfold Slice.back; rw [hemp]; simp only [Bool.false_eq_true, if_false, hback]
      · exact trimSpaces_head_not_space B x (by rw [← hT, hx]; rfl)
      · exact trimSpaces_last_not_space B y (by rw [← hT, hy]; simp)
  · intro i hi1 hi2 hout
    simp only at hout
    rcases hout with h | h
    · have hj : i - s.ptr < pre.length := by omega
      have hmem := getD_of_view_append (A := []) (B := pre) (C := T ++ (post ++ rest))
        (p := s.ptr) (by rw [hfull]; simp) (i - s.ptr) hj
      have hidx : s.ptr + ([] : List Nat).length + (i - s.ptr) = i := by simp; omega
      rw [hidx] at hmem
      exact hpre_sp _ hmem
    · have hj : i - (s.ptr + pre.length + T.length) < post.length := by omega
      have hmem := getD_of_view_append (A := pre ++ T) (B := post) (C := rest)
        (p := s.ptr) (by rw [hfull]; simp) _ hj
      have hidx : s.ptr + (pre ++ T).length + (i - (s.ptr + pre.length + T.length)) = i := by
        simp only [List.length_append]; omega
      rw [hidx] at hmem
      exact hpost_sp _ hmem
  · have h2 := trim_spec mem (s.ptr + pre.length) T (post ++ rest) hdT
    rw [h2, takeWhile_space_trimSpaces B, trimSpaces_idempotent B]
    rfl

/-- The contract of `trim` at the slice of size 5 at offset 1 of the buffer `x`, space,
`a`, space, `b`, tab, `y`: the trimmed slice views `a`, space, `b`. -/
theorem trim_removes_spaces_and_tabs_witness :
    (Slice.mk 1 5).ptr + (Slice.mk 1 5).size ≤ [120, 32, 97, 32, 98, 9, 121].length ∧
    trim [120, 32, 97, 32, 98, 9, 121] ⟨1, 5⟩ = ⟨2, 3⟩ ∧
    (trim [120, 32, 97, 32, 98, 9, 121] ⟨1, 5⟩).bytes [120, 32, 97, 32, 98, 9, 121] =
      Spec.trimSpaces (Slice.bytes [120, 32, 97, 32, 98, 9, 121] ⟨1, 5⟩) ∧
    trim [120, 32, 97, 32, 98, 9, 121] (trim [120, 32, 97, 32, 98, 9, 121] ⟨1, 5⟩) =
      trim [120, 32, 97, 32, 98, 9, 121] ⟨1, 5⟩ :=
  ⟨by decide, by decide,
    (trim_removes_spaces_and_tabs [120, 32, 97, 32, 98, 9, 121] ⟨1, 5⟩ (by decide)).2.1,
    (trim_removes_spaces_and_tabs [120, 32, 97, 32, 98, 9, 121] ⟨1, 5⟩ (by decide)).2.2.2.2⟩



/-- C19 (the code departs from it where plain `char` is signed): the slice that views the
single byte 195 has no space or tab to remove, so `trim` should return it unchanged; but
`trim` reads `SPACES_LOOKUP[slice.front()]` with the byte as a plain `char`, here the
index -61, outside the table.  Where plain `char` is unsigned the same call returns the
slice unchanged. -/
theorem trim_reads_outside_table_for_high_byte :
    (Slice.mk 0 1).ptr + (Slice.mk 0 1).size ≤ [195].length ∧
    (Slice.mk 0 1).bytes [195] = [195] ∧ Spec.trimSpaces [195] = [195] ∧
    charIndex true 195 = -61 ∧ spacesLookupAt (-61) = .error Fault.outOfBounds ∧
    PlainChar.trim true [195] ⟨0, 1⟩ = .error Fault.outOfBounds ∧
    PlainChar.trim false [195] ⟨0, 1⟩ = .ok ⟨0, 1⟩ := by
  decide

/-- The contract of `trim` with the index type of the source, for a slice inside a buffer
whose bytes index inside the table (every byte where plain `char` is unsigned, the bytes
below 128 where it is signed): `trim` returns the sub-range of the slice that views its
bytes without the longest prefix and the longest suffix of spaces and tabs, and trimming
again changes nothing. -/
theorem trim_contract_for_bytes_inside_table (signedChar : Bool) (mem : List Nat)
    (s : Slice) (hin : s.ptr + s.size ≤ mem.length)
    (hb : ∀ b ∈ mem, b < charBound signedChar) :
    ∃ r, PlainChar.trim signedChar mem s = .ok r ∧
      (s.ptr ≤ r.ptr ∧ r.ptr + r.size ≤ s.ptr + s.size) ∧
      r.bytes mem = Spec.trimSpaces (s.bytes mem) ∧
      (∀ i, s.ptr ≤ i → i < s.ptr + s.size → (i < r.ptr ∨ r.ptr + r.size ≤ i) →
        Spec.isSpaceTab (mem.getD i 0) = true) ∧
      PlainChar.trim signedChar mem r = .ok r := by
  obtain ⟨h1, h2, _, h4, h5⟩ := trim_removes_spaces_and_tabs mem s hin
  refine ⟨trim mem s, plainChar_trim_eq_trim signedChar mem hb s, h1, h2, h4, ?_⟩
  rw [plainChar_trim_eq_trim signedChar mem hb, h5]

theorem trim_contract_for_bytes_inside_table_witness :
    ∃ r, PlainChar.trim true [120, 32, 97, 32, 98, 9, 121] ⟨1, 5⟩ = .ok r ∧
      r = ⟨2, 3⟩ ∧ r.bytes [120, 32, 97, 32, 98, 9, 121] = [97, 32, 98] := by
  obtain ⟨r, hr, _, _, _, _⟩ := trim_contract_for_bytes_inside_table true
    [120, 32, 97, 32, 98, 9, 121] ⟨1, 5⟩ (by decide) (by decide)
  refine ⟨r, hr, ?_⟩
  have h : PlainChar.trim true [120, 32, 97, 32, 98, 9, 121] ⟨1, 5⟩ = .ok ⟨2, 3⟩ := by decide
  rw [h] at hr
  cases hr
  exact ⟨rfl, by decide⟩

theorem plainChar_trimFront_inside (sc : Bool) (mem : List Nat) :
    ∀ n ptr r, PlainChar.trimFront sc mem ptr n = .ok r →
      ptr ≤ r.ptr ∧ r.ptr + r.size = ptr + n := by
  intro n
  induction n with
  | zero =>
    intro ptr r h
    simp only [PlainChar.trimFront, Except.ok.injEq] at h
    subst h
    exact ⟨Nat.le_refl _, rfl⟩
  | succ n ih =>
    intro ptr r h
    unfold PlainChar.trimFront at h
    split at h
    · exact Except.noConfusion h
    · obtain ⟨h1, h2⟩ := ih (ptr + 1) r h
      exact ⟨by omega, by omega⟩
    · simp only [Except.ok.injEq] at h
      subst h
      exact ⟨Nat.le_refl _, rfl⟩

theorem plainChar_trimBack_inside (sc : Bool) (mem : List Nat) (ptr : Nat) :
    ∀ n r, PlainChar.trimBack sc mem ptr n = .ok r → r.ptr = ptr ∧ r.size ≤ n := by
  intro n
  induction n with
  | zero =>
    intro r h
    simp only [PlainChar.trimBack, Except.ok.injEq] at h
    subst h
    exact ⟨rfl, Nat.le_refl _⟩
  | succ n ih =>
    intro r h
    unfold PlainChar.trimBack at h
    split at h
    · exact Except.noConfusion h
    · obtain ⟨h1, h2⟩ := ih r h
      exact ⟨h1, by omega⟩
    · simp only [Except.ok.injEq] at h
      subst h
      exact ⟨rfl, Nat.le_refl _⟩

/-- Whenever `trim` with the index type of the source returns a slice, the slice lies
inside the range of its argument. -/
theorem plainChar_trim_stays_inside (signedChar : Bool) (mem : List Nat) (s r : Slice)
    (h : PlainChar.trim signedChar mem s = .ok r) :
    s.ptr ≤ r.ptr ∧ r.ptr + r.size ≤ s.ptr + s.size := by
  unfold PlainChar.trim at h
  split at h
  · exact Except.noConfusion h
  · rename_i s1 hs1
    obtain ⟨h1, h2⟩ := plainChar_trimFront_inside signedChar mem _ _ _ hs1
    obtain ⟨h3, h4⟩ := plainChar_trimBack_inside signedChar mem _ _ _ h
    omega



theorem count_eq_zero_of_spaces (l : List Nat) (h : ∀ c ∈ l, Spec.isSpaceTab c = true) :
    l.count 61 = 0 := by
  rw [List.count_eq_zero]
  intro hm
  have := h 61 hm
  exact absurd this (by decide)

theorem count_trimSpaces (l : List Nat) : (Spec.trimSpaces l).count 61 = l.count 61 := by
  obtain ⟨post, hpost, hpre_sp, hpost_sp⟩ := trimSpaces_decomp_spaces l
  conv_rhs => rw [hpost]
  rw [List.count_append, List.count_append, count_eq_zero_of_spaces _ hpre_sp,
    count_eq_zero_of_spaces _ hpost_sp]
  omega

/-- The split at the first `=` with the table read at the value of the byte: for a
token whose text, after comment stripping and trimming, contains a `=`, the loop body
pushes an entry whose key is the trimmed text before the first `=`, so the key has no
`=`, and whose value is the trimmed text after the first `=`, with every further `=`
kept (the value has one `=` less than the stripped line).  The loop body with the index
type of the source pushes the same entry whenever the bytes of the buffer index inside
`SPACES_LOOKUP`. -/
theorem split_at_first_separator_only (S : List Nat) (tok : Nat) (L X : List Nat)
    (h : S.drop tok = L ++ 0 :: X) (hL : ∀ a ∈ L, a ≠ 0)
    (hsep : Spec.hasSeparator (Spec.stripped L) = true) :
    ∃ kp vp S2, lineStep S tok = some (LineStep.pushed kp vp S2) ∧
      cstr S2 kp = Spec.trimSpaces ((Spec.stripped L).takeWhile (fun c => !Spec.isSeparator c)) ∧
      61 ∉ cstr S2 kp ∧
      cstr S2 vp =
        Spec.trimSpaces (((Spec.stripped L).dropWhile (fun c => !Spec.isSeparator c)).drop 1) ∧
      (cstr S2 vp).count 61 + 1 = (Spec.stripped L).count 61 ∧
      ∀ signedChar, (∀ b ∈ S, b < charBound signedChar) →
        PlainChar.lineStep signedChar S tok = .ok (LineStep.pushed kp vp S2) := by
  have hne : Spec.stripped L ≠ [] := by
    intro hc
    rw [hc] at hsep
    exact Bool.noConfusion hsep
  obtain ⟨kp, vp, S2, hstep, _, ⟨Tk, hdk⟩, ⟨Tv, hdv⟩, _, _, _, _⟩ :=
    lineStep_pushed S tok L X h hL hne hsep
  have hkey0 : ∀ a ∈ Spec.keyOf (Spec.stripped L), a ≠ 0 := fun a ha =>
    hL a ((stripped_sublist L).subset ((keyOf_sublist _).subset ha))
  have hval0 : ∀ a ∈ Spec.valueOf (Spec.stripped L), a ≠ 0 := fun a ha =>
    hL a ((stripped_sublist L).subset ((valueOf_sublist _).subset ha))
  have hck : cstr S2 kp = Spec.keyOf (Spec.stripped L) := cstr_of_drop hdk hkey0
  have hcv : cstr S2 vp = Spec.valueOf (Spec.stripped L) := cstr_of_drop hdv hval0
  refine ⟨kp, vp, S2, hstep, hck, ?_, hcv, ?_,
    fun sc hb => by rw [plainChar_lineStep_eq sc S hb tok, hstep]⟩
  · rw [hck]
    intro hm
    have h1 := (trimSpaces_sublist _).subset hm
    have h2 := List.mem_takeWhile_imp h1
    exact absurd h2 (by decide)
  · rw [hcv]
    unfold Spec.valueOf
    rw [count_trimSpaces]
    have hsplit := split_at_separator (Spec.stripped L) hsep
    have hk0 : ((Spec.stripped L).takeWhile (fun c => !Spec.isSeparator c)).count 61 = 0 := by
      rw [List.count_eq_zero]
      intro hm
      have h2 := List.mem_takeWhile_imp hm
      exact absurd h2 (by decide)
    conv_rhs => rw [hsplit]
    rw [List.count_append, List.count_cons_self, hk0]
    omega

/-- The split at the first `=` at the line `a=b=c`: key `a`, value `b=c`. -/
theorem split_at_first_separator_only_witness :
    ∃ kp vp S2, lineStep ([97, 61, 98, 61, 99] ++ [0]) 0 = some (LineStep.pushed kp vp S2) ∧
      cstr S2 kp = [97] ∧ cstr S2 vp = [98, 61, 99] ∧
      PlainChar.lineStep true ([97, 61, 98, 61, 99] ++ [0]) 0 =
        .ok (LineStep.pushed kp vp S2) := by
  obtain ⟨kp, vp, S2, hstep, hk, _, hv, _, hpc⟩ :=
    split_at_first_separator_only ([97, 61, 98, 61, 99] ++ [0]) 0 [97, 61, 98, 61, 99] []
      rfl (by decide) (by decide)
  refine ⟨kp, vp, S2, hstep, ?_, ?_, hpc true (by decide)⟩
  · rw [hk]; decide
  · rw [hv]; decide



/-- C14: for every file content without a zero byte, replacing each LF by a non-empty
run of CR and LF bytes (CR LF, CR alone, a repeated terminator; the runs may differ from
place to place) gives a table with the same `is_valid()` and the same sequence of
key/value pairs.  A CR in the original content does no harm.  The constructor with the
index type of the source builds the same two tables whenever the bytes of the content
index inside `SPACES_LOOKUP`. -/
theorem terminators_do_not_matter (content : List Nat) (tss : List (List Nat))
    (hnul : ∀ b ∈ content, b ≠ 0)
    (htss : ∀ ts ∈ tss, ts ≠ [] ∧ ∀ b ∈ ts, b = 13 ∨ b = 10) :
    ∃ t1 t2, CFG.ofFile (some content) = some t1 ∧
      CFG.ofFile (some (Spec.replaceTerminators tss content)) = some t2 ∧
      t1.is_valid = t2.is_valid ∧ t1.strings = t2.strings ∧
      ∀ signedChar, (∀ b ∈ content, b < charBound signedChar) →
        PlainChar.ofFile signedChar (some content) = some (.ok t1) ∧
        PlainChar.ofFile signedChar (some (Spec.replaceTerminators tss content)) =
          some (.ok t2) := by
  have h2 := replaceTerminators_ne_zero content tss htss hnul
  obtain ⟨t1, t2, hl1, hl2, hv, hs⟩ := load_congr content (Spec.replaceTerminators tss content)
    (by rw [takeWhile_ne_zero_of_no_zero _ hnul, takeWhile_ne_zero_of_no_zero _ h2,
      entryLines_replaceTerminators content tss htss])
  exact ⟨t1, t2, hl1, hl2, hv, hs, fun sc hb =>
    ⟨plainChar_ofFile_eq_ofFile sc content hb t1 hl1,
      plainChar_ofFile_eq_ofFile sc _
        (replaceTerminators_lt_charBound sc content tss htss hb) t2 hl2⟩⟩

/-- C14, at the content `b=2`, LF, `a=1`, LF, with the first LF replaced by CR LF and the
second by CR CR. -/
theorem terminators_do_not_matter_witness :
    Spec.replaceTerminators [[13, 10], [13, 13]] [98, 61, 50, 10, 97, 61, 49, 10] =
      [98, 61, 50, 13, 10, 97, 61, 49, 13, 13] ∧
    ∃ t1 t2, CFG.ofFile (some [98, 61, 50, 10, 97, 61, 49, 10]) = some t1 ∧
      CFG.ofFile (some (Spec.replaceTerminators [[13, 10], [13, 13]]
        [98, 61, 50, 10, 97, 61, 49, 10])) = some t2 ∧
      t1.is_valid = t2.is_valid ∧ t1.strings = t2.strings ∧
      ∀ signedChar, (∀ b ∈ [98, 61, 50, 10, 97, 61, 49, 10], b < charBound signedChar) →
        PlainChar.ofFile signedChar (some [98, 61, 50, 10, 97, 61, 49, 10]) = some (.ok t1) ∧
        PlainChar.ofFile signedChar (some (Spec.replaceTerminators [[13, 10], [13, 13]]
          [98, 61, 50, 10, 97, 61, 49, 10])) = some (.ok t2) :=
  ⟨by decide,
    terminators_do_not_matter [98, 61, 50, 10, 97, 61, 49, 10] [[13, 10], [13, 13]]
      (by decide) (by decide)⟩



/-- C15 as stated fails for the zero byte: in the content `k=a`, NUL, `b`, LF, `x=1` the
table is Valid with the single entry (`k`, `a`), whether plain `char` is signed or not:
the zero byte ended the value and the parsing of the file, and the line `x=1`, which is
not blank, is the line of no entry. -/
theorem zero_byte_ends_value_and_parsing :
    ∃ t, CFG.ofFile (some [107, 61, 97, 0, 98, 10, 120, 61, 49]) = some t ∧
      (∀ signedChar, PlainChar.ofFile signedChar
        (some [107, 61, 97, 0, 98, 10, 120, 61, 49]) = some (.ok t)) ∧
      t.is_valid = true ∧ t.strings = [([107], [97])] ∧
      Spec.lines [107, 61, 97, 0, 98, 10, 120, 61, 49] =
        [[107, 61, 97, 0, 98], [120, 61, 49]] ∧
      ∃ l ∈ Spec.lines [107, 61, 97, 0, 98, 10, 120, 61, 49], Spec.stripped l ≠ [] ∧
        ¬ ∃ k v ws1 ws2 ws3 ws4 cmt, (k, v) ∈ t.strings ∧
          l = ws1 ++ k ++ ws2 ++ [61] ++ ws3 ++ v ++ ws4 ++ cmt := by
  refine ⟨⟨[(0, 2)], [107, 0, 97, 0, 98, 10, 120, 61, 49, 0], true⟩, by decide, by decide,
    rfl,
    by decide, by decide, [120, 61, 49], by decide, by decide, ?_⟩
  rintro ⟨k, v, ws1, ws2, ws3, ws4, cmt, hmem, hl⟩
  have hk : k = [107] := by
    have : (k, v) ∈ [(([107] : List Nat), ([97] : List Nat))] := hmem
    simp only [List.mem_singleton, Prod.mk.injEq] at this
    exact this.1
  subst hk
  have h107 : (107 : Nat) ∈ ws1 ++ [107] ++ ws2 ++ [61] ++ ws3 ++ v ++ ws4 ++ cmt := by simp
  rw [← hl] at h107
  exact absurd h107 (by decide)

/-- Where plain `char` is signed, a byte of 128 or more at an end of a key makes `trim`
read outside `SPACES_LOOKUP`: for the content `é=1` (bytes 195, 169, 61, 49) the
constructor reads `SPACES_LOOKUP[-61]`; where plain `char` is unsigned it builds the
Valid table with the entry (`é`, `1`). -/
theorem high_byte_reads_outside_table_when_char_signed :
    PlainChar.ofFile true (some [195, 169, 61, 49]) = some (.error Fault.outOfBounds) ∧
    PlainChar.ofFile false (some [195, 169, 61, 49]) =
      some (.ok ⟨[(0, 3)], [195, 169, 0, 49, 0], true⟩) ∧
    (CFG.mk [(0, 3)] [195, 169, 0, 49, 0] true).strings = [([195, 169], [49])] := by
  decide

/-- C15, amended: for every file content whose bytes index inside `SPACES_LOOKUP` (every
byte where plain `char` is unsigned, the bytes below 128 where it is signed), zero bytes
allowed, the constructor builds a table, and it builds it from the part `c0` of the
content before its first zero byte (the whole content when it has none): the zero byte is
not data, it ends the last line read and the parsing of the file.  In `c0` every byte
other than CR, LF, space, tab, `;`, `#` and `=` is ordinary data:
* the entries of the table are, up to the order, exactly the (key, value) pairs of the
  lines of `c0` (the pieces between CR and LF bytes only) that are not blank after comment
  stripping and trimming, up to the first such line without `=`;
* the table is Valid if and only if every such line has a `=` and the keys are pairwise
  distinct;
* every line of `c0` with no line without `=` before it is blank after comment stripping
  and trimming, or has no `=` (and only then it ends the parsing, the table being not
  Valid), or is made of spaces/tabs, the key of an entry of the table, spaces/tabs, `=`,
  spaces/tabs, the value of that entry, spaces/tabs, and then nothing or a comment, the
  key and the value being the trimmed text before and after the first `=`; and every
  byte of the line before its first comment marker that is not a space, a tab or `=` is a
  byte of that key or of that value. -/
theorem ordinary_bytes_are_data (signedChar : Bool) (content : List Nat)
    (hb : ∀ c ∈ content, c < charBound signedChar) :
    ∃ t, PlainChar.ofFile signedChar (some content) = some (.ok t) ∧
      t.strings.Perm
        (((Spec.entryLines (content.takeWhile (fun c => c != 0))).takeWhile
          Spec.hasSeparator).map Spec.pairOf) ∧
      (t.is_valid = true ↔
        (Spec.entryLines (content.takeWhile (fun c => c != 0))).all Spec.hasSeparator = true ∧
        ((Spec.entryLines (content.takeWhile (fun c => c != 0))).map Spec.keyOf).Nodup) ∧
      ∀ pre l post, Spec.lines (content.takeWhile (fun c => c != 0)) = pre ++ l :: post →
        (∀ m ∈ pre, Spec.stripped m = [] ∨ Spec.hasSeparator (Spec.stripped m) = true) →
        Spec.stripped l = [] ∨
        (Spec.hasSeparator (Spec.stripped l) = false ∧ t.is_valid = false) ∨
        ∃ k v ws1 ws2 ws3 ws4 cmt, (k, v) ∈ t.strings ∧
          k = Spec.keyOf (Spec.stripped l) ∧ v = Spec.valueOf (Spec.stripped l) ∧
          l = ws1 ++ k ++ ws2 ++ [61] ++ ws3 ++ v ++ ws4 ++ cmt ∧
          (∀ c ∈ ws1 ++ ws2 ++ ws3 ++ ws4, Spec.isSpaceTab c = true) ∧
          (cmt = [] ∨ ∃ m text, cmt = m :: text ∧ Spec.isComment m = true) ∧
          (∀ b ∈ Spec.cutComment l, Spec.isSpaceTab b = false → b ≠ 61 →
            b ∈ k ∨ b ∈ v) := by
  obtain ⟨t, hload, hperm, hvalid, _, _⟩ := load_spec content
  refine ⟨t, plainChar_ofFile_eq_ofFile signedChar content hb t hload, hperm, hvalid, ?_⟩
  intro pre l post hlines hpre
  by_cases hs : Spec.stripped l = []
  · exact Or.inl hs
  · right
    have hnonempty : (fun (x : List Nat) => !x.isEmpty) (Spec.stripped l) = true := by
      cases hc : Spec.stripped l with
      | nil => exact absurd hc hs
      | cons x r => rfl
    have hE : Spec.entryLines (content.takeWhile (fun c => c != 0)) =
        ((pre.map Spec.stripped).filter (fun x => !x.isEmpty)) ++
          Spec.stripped l :: ((post.map Spec.stripped).filter (fun x => !x.isEmpty)) := by
      unfold Spec.entryLines
      rw [hlines, List.map_append, List.filter_append, List.map_cons]
      congr 1
      exact List.filter_cons_of_pos hnonempty
    have hprefix : ∀ a ∈ (pre.map Spec.stripped).filter (fun x => !x.isEmpty),
        Spec.hasSeparator a = true := by
      intro a ha
      rw [List.mem_filter, List.mem_map] at ha
      obtain ⟨⟨m, hm, rfl⟩, hne⟩ := ha
      rcases hpre m hm with h | h
      · rw [h] at hne
        exact absurd hne (by decide)
      · exact h
    cases hsep : Spec.hasSeparator (Spec.stripped l) with
    | false =>
      left
      refine ⟨rfl, ?_⟩
      cases hv : t.is_valid with
      | false => rfl
      | true =>
        have hall := (hvalid.mp hv).1
        have := List.all_eq_true.mp hall (Spec.stripped l) (by rw [hE]; simp)
        rw [hsep] at this
        exact absurd this (by decide)
    | true =>
      right
      have hmem : Spec.pairOf (Spec.stripped l) ∈ t.strings := by
        apply hperm.mem_iff.mpr
        apply List.mem_map_of_mem
        rw [hE, List.takeWhile_append_of_pos hprefix, List.takeWhile_cons_of_pos hsep]
        simp
      obtain ⟨ws1, ws2, ws3, ws4, cmt, hdec, hsp, hcmt⟩ := line_decomposition l hsep
      refine ⟨_, _, ws1, ws2, ws3, ws4, cmt, hmem, rfl, rfl, hdec, hsp, hcmt, ?_⟩
      intro b hb hns h61
      have hbt : b ∈ Spec.stripped l := mem_trimSpaces_of_not_space _ b hb hns
      have hsplit := split_at_separator (Spec.stripped l) hsep
      rw [hsplit] at hbt
      rcases List.mem_append.mp hbt with h | h
      · left
        exact mem_trimSpaces_of_not_space _ b h hns
      · rcases List.mem_cons.mp h with h | h
        · exact absurd h h61
        · right
          exact mem_trimSpaces_of_not_space _ b h hns

/-- C15 amended, where plain `char` is unsigned, at the content `k` `é` (bytes 195, 169)
`=` `v` (byte 200), LF, `#` `c`, NUL, LF, `x`: the bytes 195, 169 and 200 are kept in the
single entry, and the line `x` after the zero byte is not read. -/
theorem ordinary_bytes_are_data_witness :
    (∀ c ∈ [107, 195, 169, 61, 200, 10, 35, 99, 0, 10, 120], c < charBound false) ∧
    PlainChar.ofFile false (some [107, 195, 169, 61, 200, 10, 35, 99, 0, 10, 120]) =
      some (.ok ⟨[(0, 4)], [107, 195, 169, 0, 200, 0, 35, 99, 0, 10, 120, 0], true⟩) ∧
    (CFG.mk [(0, 4)] [107, 195, 169, 0, 200, 0, 35, 99, 0, 10, 120, 0] true).strings =
      [([107, 195, 169], [200])] ∧
    Spec.lines (([107, 195, 169, 61, 200, 10, 35, 99, 0, 10, 120] : List Nat).takeWhile
      (fun c => c != 0)) = [[107, 195, 169, 61, 200], [35, 99]] ∧
    ∃ t, PlainChar.ofFile false (some [107, 195, 169, 61, 200, 10, 35, 99, 0, 10, 120]) =
        some (.ok t) ∧
      t.strings.Perm
        (((Spec.entryLines (([107, 195, 169, 61, 200, 10, 35, 99, 0, 10, 120] :
          List Nat).takeWhile (fun c => c != 0))).takeWhile Spec.hasSeparator).map
            Spec.pairOf) ∧
      (t.is_valid = true ↔
        (Spec.entryLines (([107, 195, 169, 61, 200, 10, 35, 99, 0, 10, 120] :
          List Nat).takeWhile (fun c => c != 0))).all Spec.hasSeparator = true ∧
        ((Spec.entryLines (([107, 195, 169, 61, 200, 10, 35, 99, 0, 10, 120] :
          List Nat).takeWhile (fun c => c != 0))).map Spec.keyOf).Nodup) ∧
      ∀ pre l post, Spec.lines (([107, 195, 169, 61, 200, 10, 35, 99, 0, 10, 120] :
          List Nat).takeWhile (fun c => c != 0)) = pre ++ l :: post →
        (∀ m ∈ pre, Spec.stripped m = [] ∨ Spec.hasSeparator (Spec.stripped m) = true) →
        Spec.stripped l = [] ∨
        (Spec.hasSeparator (Spec.stripped l) = false ∧ t.is_valid = false) ∨
        ∃ k v ws1 ws2 ws3 ws4 cmt, (k, v) ∈ t.strings ∧
          k = Spec.keyOf (Spec.stripped l) ∧ v = Spec.valueOf (Spec.stripped l) ∧
          l = ws1 ++ k ++ ws2 ++ [61] ++ ws3 ++ v ++ ws4 ++ cmt ∧
          (∀ c ∈ ws1 ++ ws2 ++ ws3 ++ ws4, Spec.isSpaceTab c = true) ∧
          (cmt = [] ∨ ∃ m text, cmt = m :: text ∧ Spec.isComment m = true) ∧
          (∀ b ∈ Spec.cutComment l, Spec.isSpaceTab b = false → b ≠ 61 →
            b ∈ k ∨ b ∈ v) :=
  ⟨by decide, by decide, by decide, by decide,
    ordinary_bytes_are_data false [107, 195, 169, 61, 200, 10, 35, 99, 0, 10, 120]
      (by decide)⟩



/-- C12 as stated fails: the keys `a` and `a` followed by a space are distinct and have
no `=`, `;`, `#`, CR or LF, but both are trimmed to `a`, so the text `a = 1`, LF,
`a  = 2`, LF written for them loads as a table that is not Valid. -/
theorem round_trip_fails_for_untrimmed_keys :
    ([([97], [49]), ([97, 32], [50])].map Prod.fst).Nodup ∧
    (∀ kv ∈ [(([97] : List Nat), ([49] : List Nat)), ([97, 32], [50])],
      ∀ c ∈ kv.1 ++ kv.2, c ∉ [61, 59, 35, 13, 10]) ∧
    Spec.serialize [([97], [49]), ([97, 32], [50])] =
      [97, 32, 61, 32, 49, 10, 97, 32, 32, 61, 32, 50, 10] ∧
    ∃ t, (∀ signedChar, PlainChar.ofFile signedChar
        (some (Spec.serialize [([97], [49]), ([97, 32], [50])])) = some (.ok t)) ∧
      t.is_valid = false :=
  ⟨by decide, by decide, by decide,
    ⟨⟨[(0, 4), (6, 11)], [97, 0, 61, 32, 49, 0, 97, 0, 32, 61, 32, 50, 0, 0], false⟩,
      by decide, rfl⟩⟩

theorem serialize_lt_charBound (sc : Bool) (kvs : List (List Nat × List Nat))
    (hb : ∀ kv ∈ kvs, ∀ c ∈ kv.1 ++ kv.2, c < charBound sc) :
    ∀ c ∈ Spec.serialize kvs, c < charBound sc := by
  have h128 : ∀ c ∈ [32, 61, 32, 10], c < charBound sc := by
    cases sc <;> decide
  induction kvs with
  | nil => intro c hc; simp [Spec.serialize] at hc
  | cons kv rest ih =>
    intro c hc
    simp only [Spec.serialize, List.mem_append] at hc
    rcases hc with (((hc | hc) | hc) | hc) | hc
    · exact hb kv (List.mem_cons_self _ _) c (List.mem_append_left _ hc)
    · exact h128 c (by simp only [List.mem_cons, List.mem_singleton, List.not_mem_nil,
        or_false] at hc ⊢; tauto)
    · exact hb kv (List.mem_cons_self _ _) c (List.mem_append_right _ hc)
    · exact h128 c (by simp only [List.mem_cons, List.mem_singleton, List.not_mem_nil,
        or_false] at hc ⊢; tauto)
    · exact ih (fun kv2 h2 => hb kv2 (List.mem_cons_of_mem _ h2)) c hc

/-- C12, amended: for pairwise distinct keys and values assigned to them, where keys and
values contain no `=`, `;`, `#`, CR, LF or NUL and have no space or tab at their ends,
and their bytes index inside `SPACES_LOOKUP` (every byte where plain `char` is unsigned,
the bytes below 128 where it is signed), writing one line `key = value` per pair and
loading the text gives a Valid table whose entries are exactly the original pairs (each
key with its value, once), and `size()` is the number of pairs.  Nothing is said about
`find`. -/
theorem round_trip_entries (signedChar : Bool) (kvs : List (List Nat × List Nat))
    (hnodup : (kvs.map Prod.fst).Nodup)
    (hb : ∀ kv ∈ kvs, ∀ c ∈ kv.1 ++ kv.2, c < charBound signedChar)
    (hplain : ∀ kv ∈ kvs, (∀ c ∈ kv.1, c ∉ [61, 59, 35, 13, 10, 0]) ∧
      (∀ c ∈ kv.2, c ∉ [61, 59, 35, 13, 10, 0]) ∧
      (∀ c, kv.1.head? = some c → Spec.isSpaceTab c = false) ∧
      (∀ c, kv.1.getLast? = some c → Spec.isSpaceTab c = false) ∧
      (∀ c, kv.2.head? = some c → Spec.isSpaceTab c = false) ∧
      (∀ c, kv.2.getLast? = some c → Spec.isSpaceTab c = false)) :
    ∃ t, PlainChar.ofFile signedChar (some (Spec.serialize kvs)) = some (.ok t) ∧
      t.is_valid = true ∧ t.strings.Perm kvs ∧ t.size = .ok kvs.length := by
  obtain ⟨hE, h0⟩ := entryLines_serialize kvs hplain
  obtain ⟨t, hload, hperm, hvalid, _, _⟩ := load_spec (Spec.serialize kvs)
  rw [takeWhile_ne_zero_of_no_zero _ h0, hE] at hperm hvalid
  have hline : ∀ kv ∈ kvs,
      Spec.hasSeparator (Spec.stripped (kv.1 ++ [32, 61, 32] ++ kv.2)) = true ∧
      Spec.pairOf (Spec.stripped (kv.1 ++ [32, 61, 32] ++ kv.2)) = kv := by
    intro kv hkv
    obtain ⟨hkb, hvb, hkh, hkl, hvh, hvl⟩ := hplain kv hkv
    obtain ⟨_, hs, hp⟩ := written_line_spec kv.1 kv.2 hkb hvb hkh hkl hvh hvl
    exact ⟨hs, hp⟩
  have hall : (kvs.map (fun kv => Spec.stripped (kv.1 ++ [32, 61, 32] ++ kv.2))).all
      Spec.hasSeparator = true := by
    rw [List.all_eq_true]
    intro x hx
    obtain ⟨kv, hkv, rfl⟩ := List.mem_map.mp hx
    exact (hline kv hkv).1
  have hpairs : (kvs.map (fun kv => Spec.stripped (kv.1 ++ [32, 61, 32] ++ kv.2))).map
      Spec.pairOf = kvs := by
    rw [List.map_map]
    conv_rhs => rw [← List.map_id kvs]
    apply List.map_congr_left
    intro kv hkv
    exact (hline kv hkv).2
  have hkeys : (kvs.map (fun kv => Spec.stripped (kv.1 ++ [32, 61, 32] ++ kv.2))).map
      Spec.keyOf = kvs.map Prod.fst := by
    have := congrArg (List.map Prod.fst) hpairs
    rw [List.map_map] at this
    exact this
  have htw : (kvs.map (fun kv => Spec.stripped (kv.1 ++ [32, 61, 32] ++ kv.2))).takeWhile
      Spec.hasSeparator = kvs.map (fun kv => Spec.stripped (kv.1 ++ [32, 61, 32] ++ kv.2)) := by
    rw [List.takeWhile_eq_self_iff]
    exact List.all_eq_true.mp hall
  rw [htw, hpairs] at hperm
  rw [hkeys] at hvalid
  have hv : t.valid = true := hvalid.mpr ⟨hall, hnodup⟩
  refine ⟨t, plainChar_ofFile_eq_ofFile signedChar _
    (serialize_lt_charBound signedChar kvs hb) t hload, hv, hperm, ?_⟩
  have hlen := hperm.length_eq
  simp only [CFG.strings, entryStrings, List.length_map] at hlen
  simp [CFG.size, hv, hlen]

/-- C12 amended, where plain `char` is signed, at the pairs (`b`, `2`) and (`a`, empty
value). -/
theorem round_trip_entries_witness :
    Spec.serialize [([98], [50]), ([97], [])] = [98, 32, 61, 32, 50, 10, 97, 32, 61, 32, 10] ∧
    ∃ t, PlainChar.ofFile true (some (Spec.serialize [([98], [50]), ([97], [])])) =
        some (.ok t) ∧
      t.is_valid = true ∧ t.strings.Perm [([98], [50]), ([97], [])] ∧ t.size = .ok 2 :=
  ⟨by decide,
    round_trip_entries true [([98], [50]), ([97], [])] (by decide) (by decide) (by
      intro kv hkv
      simp only [List.mem_cons, List.mem_singleton, List.not_mem_nil, or_false] at hkv
      rcases hkv with rfl | rfl
      · exact ⟨by decide, by decide, by decide, by decide, by decide, by decide⟩
      · exact ⟨by decide, by decide, by decide, by decide, by decide, by decide⟩)⟩



/-! ## Whenever the constructor with the index type of the source builds a table -/

theorem spacesLookupAt_ok (sc : Bool) (c : Nat) (hc : c < 256) (b : Bool)
    (h : spacesLookupAt (charIndex sc c) = .ok b) : b = spacesLookup c := by
  by_cases hlt : c < charBound sc
  · rw [spacesLookupAt_of_lt sc c hlt] at h
    simp only [Except.ok.injEq] at h
    exact h.symm
  · cases sc
    · exact absurd hc hlt
    · have h128 : 128 ≤ c := by
        have : ¬ c < 128 := hlt
        omega
      have hidx : charIndex true c = (c : Int) - 256 := by
        unfold charIndex
        simp [h128]
      rw [hidx] at h
      unfold spacesLookupAt at h
      have hneg : ¬ ((0 : Int) ≤ (c : Int) - 256 ∧ (c : Int) - 256 < 256) := by omega
      rw [if_neg hneg] at h
      exact Except.noConfusion h

theorem getD_lt_256 (mem : List Nat) (h : ∀ b ∈ mem, b < 256) (i : Nat) :
    mem.getD i 0 < 256 := getD_lt_charBound false mem h i

theorem plainChar_trimFront_ok (sc : Bool) (mem : List Nat) (h : ∀ b ∈ mem, b < 256) :
    ∀ n ptr r, PlainChar.trimFront sc mem ptr n = .ok r → trimFront mem ptr n = r := by
  intro n
  induction n with
  | zero =>
    intro ptr r hr
    simp only [PlainChar.trimFront, Except.ok.injEq] at hr
    simp only [trimFront, hr]
  | succ n ih =>
    intro ptr r hr
    unfold PlainChar.trimFront at hr
    unfold trimFront
    split at hr
    · exact Except.noConfusion hr
    · rename_i hl
      rw [← spacesLookupAt_ok sc _ (getD_lt_256 mem h ptr) true hl]
      simp only [if_true]
      exact ih _ _ hr
    · rename_i hl
      rw [← spacesLookupAt_ok sc _ (getD_lt_256 mem h ptr) false hl]
      simp only [Bool.false_eq_true, if_false]
      simpa using hr

theorem plainChar_trimBack_ok (sc : Bool) (mem : List Nat) (h : ∀ b ∈ mem, b < 256)
    (ptr : Nat) :
    ∀ n r, PlainChar.trimBack sc mem ptr n = .ok r → trimBack mem ptr n = r := by
  intro n
  induction n with
  | zero =>
    intro r hr
    simp only [PlainChar.trimBack, Except.ok.injEq] at hr
    simp only [trimBack, hr]
  | succ n ih =>
    intro r hr
    unfold PlainChar.trimBack at hr
    unfold trimBack
    split at hr
    · exact Except.noConfusion hr
    · rename_i hl
      rw [← spacesLookupAt_ok sc _ (getD_lt_256 mem h (ptr + n)) true hl]
      simp only [if_true]
      exact ih _ hr
    · rename_i hl
      rw [← spacesLookupAt_ok sc _ (getD_lt_256 mem h (ptr + n)) false hl]
      simp only [Bool.false_eq_true, if_false]
      simpa using hr

/-- Whenever `trim` with the index type of the source returns a slice, it is the slice
that `trim` with the table read at the value of the byte returns. -/
theorem plainChar_trim_ok (sc : Bool) (mem : List Nat) (h : ∀ b ∈ mem, b < 256)
    (s r : Slice) (hr : PlainChar.trim sc mem s = .ok r) : trim mem s = r := by
  unfold PlainChar.trim at hr
  unfold trim
  split at hr
  · exact Except.noConfusion hr
  · rename_i s1 hs1
    rw [plainChar_trimFront_ok sc mem h _ _ _ hs1]
    exact plainChar_trimBack_ok sc mem h _ _ _ hr

theorem plainChar_splitEntry_ok (sc : Bool) (S : List Nat) (h : ∀ b ∈ S, b < 256)
    (s : Slice) (r : LineStep) (hr : PlainChar.splitEntry sc S s = .ok r) :
    splitEntry S s = some r := by
  unfold PlainChar.splitEntry at hr
  unfold splitEntry
  simp only at hr ⊢
  by_cases hsep : (find_first_of S s.ptr s.end_ SEPARATORS == s.end_) = true
  · simp only [hsep, if_true, Except.ok.injEq] at hr
    simp only [hsep, if_true, hr]
  · simp only [hsep, if_false] at hr ⊢
    cases hk : s.subslice 0 (find_first_of S s.ptr s.end_ SEPARATORS - s.ptr) with
    | none => rw [hk] at hr; exact Except.noConfusion hr
    | some key_raw =>
      cases hv : s.subsliceFrom (find_first_of S s.ptr s.end_ SEPARATORS - s.ptr + 1) with
      | none => rw [hk, hv] at hr; exact Except.noConfusion hr
      | some val_raw =>
        rw [hk, hv] at hr
        simp only at hr ⊢
        cases htk : PlainChar.trim sc S key_raw with
        | error e => rw [htk] at hr; exact Except.noConfusion hr
        | ok key_slice =>
          cases htv : PlainChar.trim sc S val_raw with
          | error e => rw [htk, htv] at hr; exact Except.noConfusion hr
          | ok val_slice =>
            rw [htk, htv] at hr
            simp only [Bool.false_eq_true, if_false, Except.ok.injEq] at hr
            rw [plainChar_trim_ok sc S h _ _ htk, plainChar_trim_ok sc S h _ _ htv]
            simp only [Bool.false_eq_true, if_false, hr]

theorem plainChar_lineStep_ok (sc : Bool) (S : List Nat) (h : ∀ b ∈ S, b < 256)
    (tok : Nat) (r : LineStep) (hr : PlainChar.lineStep sc S tok = .ok r) :
    lineStep S tok = some r := by
  unfold PlainChar.lineStep at hr
  unfold lineStep
  cases hc : stripComment S ⟨tok, strlen S tok⟩ with
  | none => rw [hc] at hr; exact Except.noConfusion hr
  | some slice1 =>
    rw [hc] at hr
    simp only at hr ⊢
    cases ht : PlainChar.trim sc S slice1 with
    | error e => rw [ht] at hr; exact Except.noConfusion hr
    | ok slice =>
      rw [ht] at hr
      simp only at hr
      rw [plainChar_trim_ok sc S h _ _ ht]
      by_cases he : slice.empty = true
      · simp only [he, if_true, Except.ok.injEq] at hr
        simp only [he, if_true, hr]
      · simp only [he, if_false] at hr ⊢
        exact plainChar_splitEntry_ok sc S h _ _ hr

theorem plainChar_parseLoop_ok (sc : Bool) :
    ∀ (fuel : Nat) (S : List Nat) (save : Nat) (es : List (Nat × Nat)) (p : Parsed),
      (∀ b ∈ S, b < 256) → PlainChar.parseLoop sc fuel S save es = some (.ok p) →
      parseLoop fuel S save es = some p := by
  intro fuel
  induction fuel with
  | zero => intro S save es p _ hp; simp [PlainChar.parseLoop] at hp
  | succ fuel ih =>
    intro S save es p h hp
    unfold PlainChar.parseLoop at hp
    unfold parseLoop
    rcases hst : strtok S save [13, 10] with ⟨_ | ⟨tok, S1⟩, save1⟩
    · rw [hst] at hp
      simp only [Option.some.injEq, Except.ok.injEq] at hp
      simp only [hp]
    · rw [hst] at hp
      simp only at hp ⊢
      have h1 : ∀ b ∈ S1, b < 256 :=
        strtok_lt_charBound false S h save [13, 10] tok S1 save1 hst
      cases hl : PlainChar.lineStep sc S1 tok with
      | error e => rw [hl] at hp; simp at hp
      | ok r =>
        rw [hl] at hp
        have hl2 := plainChar_lineStep_ok sc S1 h1 tok r hl
        rw [hl2]
        cases r with
        | skipped => exact ih S1 save1 es p h1 hp
        | noSeparator =>
          simp only [Option.some.injEq, Except.ok.injEq] at hp
          simp only [hp]
        | pushed k v S2 =>
          exact ih S2 save1 _ p (lineStep_lt_charBound false S1 h1 tok k v S2 hl2) hp

/-- Whenever the constructor with the index type of the source builds a table from a
content of bytes, it is the table that the constructor with the table read at the value
of the byte builds. -/
theorem plainChar_load_ok (sc : Bool) (content : List Nat) (h : ∀ b ∈ content, b < 256)
    (t : CFG) (ht : PlainChar.load sc content = some (.ok t)) :
    CFG.load content = some t := by
  unfold PlainChar.load at ht
  unfold CFG.load
  simp only at ht ⊢
  have hS : ∀ b ∈ content ++ [0], b < 256 := by
    intro b hb
    rcases List.mem_append.mp hb with hb | hb
    · exact h b hb
    · rw [List.mem_singleton.mp hb]; decide
  cases hp : PlainChar.parseLoop sc ((content ++ [0]).length + 1) (content ++ [0]) 0 [] with
  | none => rw [hp] at ht; simp at ht
  | some res =>
    cases res with
    | error e => rw [hp] at ht; simp at ht
    | ok p =>
      rw [hp] at ht
      rw [plainChar_parseLoop_ok sc _ _ _ _ p hS hp]
      simp only at ht ⊢
      by_cases hok : (!p.ok) = true
      · rw [if_pos hok] at ht ⊢
        simp only [Option.some.injEq, Except.ok.injEq] at ht
        rw [ht]
      · rw [if_neg hok] at ht ⊢
        split at ht
        · rename_i hd
          rw [if_pos hd]
          simp only [Option.some.injEq, Except.ok.injEq] at ht
          rw [ht]
        · rename_i hd
          rw [if_neg hd]
          simp only [Option.some.injEq, Except.ok.injEq] at ht
          rw [ht]

theorem plainChar_ofFile_ok (sc : Bool) (content : List Nat) (h : ∀ b ∈ content, b < 256)
    (t : CFG) (ht : PlainChar.ofFile sc (some content) = some (.ok t)) :
    CFG.ofFile (some content) = some t :=
  plainChar_load_ok sc content h t ht



/-! ## The claims about the constructor, on the constructor with the index type of the
source -/

/-- C1 (the code departs from it where plain `char` is signed): the content `é=1`, LF,
`è=2` (bytes 195 169 61 49 10 195 168 61 50) has no zero byte, each of its two lines has
a `=`, and the trimmed keys `é` and `è` differ, so by the claim the table is Valid and
holds the two pairs; with an unsigned plain `char` it is so, but with a signed plain
`char` the constructor, trimming the first line, reads `SPACES_LOOKUP[-61]`, outside the
table.  For every content without zero byte whose bytes index inside the table, the
claim holds. -/
theorem validity_rule_fails_for_high_byte_keys :
    (∀ c ∈ [195, 169, 61, 49, 10, 195, 168, 61, 50], c ≠ 0) ∧
    Spec.entryLines [195, 169, 61, 49, 10, 195, 168, 61, 50] =
      [[195, 169, 61, 49], [195, 168, 61, 50]] ∧
    (∀ l ∈ Spec.entryLines [195, 169, 61, 49, 10, 195, 168, 61, 50],
      Spec.hasSeparator l = true) ∧
    ((Spec.entryLines [195, 169, 61, 49, 10, 195, 168, 61, 50]).map Spec.keyOf).Nodup ∧
    (Spec.entryLines [195, 169, 61, 49, 10, 195, 168, 61, 50]).map Spec.pairOf =
      [([195, 169], [49]), ([195, 168], [50])] ∧
    charIndex true 195 = -61 ∧
    PlainChar.ofFile true (some [195, 169, 61, 49, 10, 195, 168, 61, 50]) =
      some (.error Fault.outOfBounds) ∧
    PlainChar.ofFile false (some [195, 169, 61, 49, 10, 195, 168, 61, 50]) =
      some (.ok ⟨[(5, 8), (0, 3)], [195, 169, 0, 49, 0, 195, 168, 0, 50, 0], true⟩) ∧
    (CFG.mk [(5, 8), (0, 3)] [195, 169, 0, 49, 0, 195, 168, 0, 50, 0] true).strings =
      [([195, 168], [50]), ([195, 169], [49])] ∧
    (∀ signedChar content, (∀ c ∈ content, c ≠ 0) →
      (∀ c ∈ content, c < charBound signedChar) →
      ∃ t, PlainChar.ofFile signedChar (some content) = some (.ok t) ∧
        (t.is_valid = true ↔
          (∀ l ∈ Spec.entryLines content, Spec.hasSeparator l = true) ∧
          ((Spec.entryLines content).map Spec.keyOf).Nodup) ∧
        (t.is_valid = true →
          t.strings.Perm ((Spec.entryLines content).map Spec.pairOf) ∧
          t.size = .ok (Spec.entryLines content).length)) := by
  refine ⟨by decide, by decide, by decide, by decide, by decide, by decide, by decide,
    by decide, by decide, ?_⟩
  intro sc content h0 hb
  obtain ⟨t, hload, h1, h2⟩ := load_valid_iff_and_entries content h0
  exact ⟨t, plainChar_ofFile_eq_ofFile sc content hb t hload, h1, h2⟩



/-- C6, amended: for every file content without a zero byte whose bytes index inside
`SPACES_LOOKUP` (every byte where plain `char` is unsigned, the bytes below 128 where it
is signed) and in which two lines have the same key after comment stripping and
trimming, wherever the two lines are and whatever the other lines are, the constructor
builds a table with `is_valid() == false`. -/
theorem duplicate_key_invalid_inside_table (signedChar : Bool) (content : List Nat)
    (h0 : ∀ c ∈ content, c ≠ 0) (hb : ∀ c ∈ content, c < charBound signedChar)
    (pre mid post : List (List Nat)) (l1 l2 : List Nat)
    (hlines : Spec.entryLines content = pre ++ l1 :: (mid ++ l2 :: post))
    (hkey : Spec.keyOf l1 = Spec.keyOf l2) :
    ∃ t, PlainChar.ofFile signedChar (some content) = some (.ok t) ∧
      t.is_valid = false := by
  obtain ⟨t, hload, hv⟩ := duplicate_key_invalid content h0 pre mid post l1 l2 hlines hkey
  exact ⟨t, plainChar_ofFile_eq_ofFile signedChar content hb t hload, hv⟩

/-- C6 amended, where plain `char` is signed, at the content `a=1`, LF, `b=2`, LF, `a=3`. -/
theorem duplicate_key_invalid_inside_table_witness :
    (∀ c ∈ [97, 61, 49, 10, 98, 61, 50, 10, 97, 61, 51], c ≠ 0) ∧
    (∀ c ∈ [97, 61, 49, 10, 98, 61, 50, 10, 97, 61, 51], c < charBound true) ∧
    Spec.entryLines [97, 61, 49, 10, 98, 61, 50, 10, 97, 61, 51] =
      [] ++ [97, 61, 49] :: ([[98, 61, 50]] ++ [97, 61, 51] :: []) ∧
    Spec.keyOf [97, 61, 49] = Spec.keyOf [97, 61, 51] ∧
    ∃ t, PlainChar.ofFile true (some [97, 61, 49, 10, 98, 61, 50, 10, 97, 61, 51]) =
        some (.ok t) ∧
      t.is_valid = false :=
  ⟨by decide, by decide, by decide, by decide,
    duplicate_key_invalid_inside_table true [97, 61, 49, 10, 98, 61, 50, 10, 97, 61, 51]
      (by decide) (by decide) [] [[98, 61, 50]] [] [97, 61, 49] [97, 61, 51] (by decide)
      (by decide)⟩

/-- C7, amended: for every file content without a zero byte whose bytes index inside
`SPACES_LOOKUP` (every byte where plain `char` is unsigned, the bytes below 128 where it
is signed) and that has a line which, after comment stripping and trimming, is non-empty
and has no `=`, the constructor builds a table with `is_valid() == false`, and the
recorded entries are, in file order, exactly those of the lines before the first such
line: no entry is added for that line or any later line. -/
theorem missing_separator_invalid_inside_table (signedChar : Bool) (content : List Nat)
    (h0 : ∀ c ∈ content, c ≠ 0) (hb : ∀ c ∈ content, c < charBound signedChar)
    (l : List Nat) (hl : l ∈ Spec.entryLines content) (hsep : Spec.hasSeparator l = false) :
    ∃ t, PlainChar.ofFile signedChar (some content) = some (.ok t) ∧
      t.is_valid = false ∧
      t.strings = ((Spec.entryLines content).takeWhile Spec.hasSeparator).map Spec.pairOf := by
  obtain ⟨t, hload, hv, hs⟩ := missing_separator_invalid content h0 l hl hsep
  exact ⟨t, plainChar_ofFile_eq_ofFile signedChar content hb t hload, hv, hs⟩

/-- C7 amended, where plain `char` is signed, at the content `a=1`, LF, `x`, LF, `b=2`:
the table is not Valid and holds the entry (`a`, `1`) only. -/
theorem missing_separator_invalid_inside_table_witness :
    (∀ c ∈ [97, 61, 49, 10, 120, 10, 98, 61, 50], c ≠ 0) ∧
    (∀ c ∈ [97, 61, 49, 10, 120, 10, 98, 61, 50], c < charBound true) ∧
    [120] ∈ Spec.entryLines [97, 61, 49, 10, 120, 10, 98, 61, 50] ∧
    Spec.hasSeparator [120] = false ∧
    ((Spec.entryLines [97, 61, 49, 10, 120, 10, 98, 61, 50]).takeWhile
      Spec.hasSeparator).map Spec.pairOf = [([97], [49])] ∧
    ∃ t, PlainChar.ofFile true (some [97, 61, 49, 10, 120, 10, 98, 61, 50]) = some (.ok t) ∧
      t.is_valid = false ∧
      t.strings = ((Spec.entryLines [97, 61, 49, 10, 120, 10, 98, 61, 50]).takeWhile
        Spec.hasSeparator).map Spec.pairOf :=
  ⟨by decide, by decide, by decide, by decide, by decide,
    missing_separator_invalid_inside_table true [97, 61, 49, 10, 120, 10, 98, 61, 50]
      (by decide) (by decide) [120] (by decide) (by decide)⟩



/-- C8 (the code departs from it where plain `char` is signed): the key `é` (bytes 195,
169) and the value `1` (byte 49) are non-empty, have no space or tab at either end and
contain none of `;`, `#`, `=`, CR, LF, NUL, so by the claim the line `é=1` is parsed
into the entry (`é`, `1`).  The loop body with the index type of the source, plain
`char` signed, reads `SPACES_LOOKUP[-61]` when it trims the line, outside the table
(where plain `char` is unsigned it pushes the key at offset 0 and the value at offset
3, with the strings `é` and `1`); the same holds of the line `  é = 1 ;x` with spaces
and a comment.  The claim holds of the loop body with the index type of the source, for
either signedness, whenever the bytes of the buffer index inside the table (every byte
where plain `char` is unsigned, the bytes below 128 where it is signed): the entry is
pushed and the C strings at its key pointer and at its value pointer are `k` and `v`;
so it holds of the specification's line `  key = value ; trailing comment`. -/
theorem key_value_line_fails_for_high_byte_key :
    (([195, 169] : List Nat) ≠ [] ∧ ([49] : List Nat) ≠ [] ∧
      (∀ c, ([195, 169] : List Nat).head? = some c → Spec.isSpaceTab c = false) ∧
      (∀ c, ([195, 169] : List Nat).getLast? = some c → Spec.isSpaceTab c = false) ∧
      (∀ c, ([49] : List Nat).head? = some c → Spec.isSpaceTab c = false) ∧
      (∀ c, ([49] : List Nat).getLast? = some c → Spec.isSpaceTab c = false) ∧
      (∀ c ∈ ([195, 169] : List Nat), c ∉ [59, 35, 61, 13, 10, 0]) ∧
      (∀ c ∈ ([49] : List Nat), c ∉ [59, 35, 61, 13, 10, 0])) ∧
    charIndex true 195 = -61 ∧
    PlainChar.lineStep true (([] ++ [195, 169] ++ [] ++ [61] ++ [] ++ [49] ++ [] ++ []) ++
      [0]) 0 = .error Fault.outOfBounds ∧
    PlainChar.lineStep true (([32, 32] ++ [195, 169] ++ [32] ++ [61] ++ [32] ++ [49] ++
      [32] ++ [59, 120]) ++ [0]) 0 = .error Fault.outOfBounds ∧
    PlainChar.lineStep false ([195, 169, 61, 49] ++ [0]) 0 =
      .ok (LineStep.pushed 0 3 [195, 169, 0, 49, 0]) ∧
    cstr [195, 169, 0, 49, 0] 0 = [195, 169] ∧ cstr [195, 169, 0, 49, 0] 3 = [49] ∧
    (∀ signedChar : Bool, ∃ kp vp S2,
      PlainChar.lineStep signedChar ([32, 32, 107, 101, 121, 32, 61, 32, 118, 97, 108, 117,
        101, 32, 59, 32, 116, 114, 97, 105, 108, 105, 110, 103, 32, 99, 111, 109, 109, 101,
        110, 116] ++ [0]) 0 = .ok (LineStep.pushed kp vp S2) ∧
      cstr S2 kp = [107, 101, 121] ∧ cstr S2 vp = [118, 97, 108, 117, 101]) ∧
    (∀ (signedChar : Bool) (k v ws1 ws2 ws3 ws4 cmt : List Nat),
      k ≠ [] → v ≠ [] →
      (∀ c, k.head? = some c → Spec.isSpaceTab c = false) →
      (∀ c, k.getLast? = some c → Spec.isSpaceTab c = false) →
      (∀ c, v.head? = some c → Spec.isSpaceTab c = false) →
      (∀ c, v.getLast? = some c → Spec.isSpaceTab c = false) →
      (∀ c ∈ k, c ∉ [59, 35, 61, 13, 10, 0]) →
      (∀ c ∈ v, c ∉ [59, 35, 61, 13, 10, 0]) →
      (∀ c ∈ ws1, Spec.isSpaceTab c = true) → (∀ c ∈ ws2, Spec.isSpaceTab c = true) →
      (∀ c ∈ ws3, Spec.isSpaceTab c = true) → (∀ c ∈ ws4, Spec.isSpaceTab c = true) →
      (cmt = [] ∨ ∃ m text, cmt = m :: text ∧ Spec.isComment m = true) →
      ∀ (S : List Nat) (tok : Nat) (X : List Nat),
        (∀ b ∈ S, b < charBound signedChar) →
        S.drop tok = (ws1 ++ k ++ ws2 ++ [61] ++ ws3 ++ v ++ ws4 ++ cmt) ++ 0 :: X →
        ∃ kp vp S2, PlainChar.lineStep signedChar S tok = .ok (LineStep.pushed kp vp S2) ∧
          cstr S2 kp = k ∧ cstr S2 vp = v) := by
  have pos : ∀ (signedChar : Bool) (k v ws1 ws2 ws3 ws4 cmt : List Nat),
      k ≠ [] → v ≠ [] →
      (∀ c, k.head? = some c → Spec.isSpaceTab c = false) →
      (∀ c, k.getLast? = some c → Spec.isSpaceTab c = false) →
      (∀ c, v.head? = some c → Spec.isSpaceTab c = false) →
      (∀ c, v.getLast? = some c → Spec.isSpaceTab c = false) →
      (∀ c ∈ k, c ∉ [59, 35, 61, 13, 10, 0]) →
      (∀ c ∈ v, c ∉ [59, 35, 61, 13, 10, 0]) →
      (∀ c ∈ ws1, Spec.isSpaceTab c = true) → (∀ c ∈ ws2, Spec.isSpaceTab c = true) →
      (∀ c ∈ ws3, Spec.isSpaceTab c = true) → (∀ c ∈ ws4, Spec.isSpaceTab c = true) →
      (cmt = [] ∨ ∃ m text, cmt = m :: text ∧ Spec.isComment m = true) →
      ∀ (S : List Nat) (tok : Nat) (X : List Nat),
        (∀ b ∈ S, b < charBound signedChar) →
        S.drop tok = (ws1 ++ k ++ ws2 ++ [61] ++ ws3 ++ v ++ ws4 ++ cmt) ++ 0 :: X →
        ∃ kp vp S2, PlainChar.lineStep signedChar S tok = .ok (LineStep.pushed kp vp S2) ∧
          cstr S2 kp = k ∧ cstr S2 vp = v := by
    intro sc k v ws1 ws2 ws3 ws4 cmt hk hv hkh hkl hvh hvl hkb hvb h1 h2 h3 h4 hcmt S tok X
      hb hS
    obtain ⟨kp, vp, S2, hstep, hck, hcv⟩ :=
      lineStep_key_value k v ws1 ws2 ws3 ws4 cmt hk hv hkh hkl hvh hvl hkb hvb h1 h2 h3 h4
        hcmt S tok X hS
    exact ⟨kp, vp, S2, by rw [plainChar_lineStep_eq sc S hb tok, hstep], hck, hcv⟩
  refine ⟨by decide, by decide, by decide, by decide, by decide, by decide, by decide, ?_,
    pos⟩
  intro sc
  exact pos sc [107, 101, 121] [118, 97, 108, 117, 101] [32, 32] [32] [32] [32]
    [59, 32, 116, 114, 97, 105, 108, 105, 110, 103, 32, 99, 111, 109, 109, 101, 110, 116]
    (by decide) (by decide) (by decide) (by decide) (by decide) (by decide) (by decide)
    (by decide) (by decide) (by decide) (by decide) (by decide)
    (Or.inr ⟨59, _, rfl, rfl⟩)
    ([32, 32, 107, 101, 121, 32, 61, 32, 118, 97, 108, 117, 101, 32, 59, 32, 116,
        114, 97, 105, 108, 105, 110, 103, 32, 99, 111, 109, 109, 101, 110, 116] ++ [0]) 0 []
    (by cases sc <;> decide) rfl

/-- C13 (the code departs from it where plain `char` is signed): the line `é=1` (bytes
195, 169, 61, 49) is its own text after comment stripping and trimming and contains a
`=`, so by the claim it is split into the key `é`, the trimmed text before the first
`=`, and the value `1`.  The loop body with the index type of the source, plain `char`
signed, reads `SPACES_LOOKUP[-61]` when it trims the line, outside the table (where
plain `char` is unsigned it pushes the key `é` and the value `1`).  The claim holds of
the loop body with the index type of the source, for either signedness, on every token
whose buffer has only bytes that index inside the table (every byte where plain `char` is
unsigned, the bytes below 128 where it is signed): the key pushed is the trimmed text
before the first `=` and has no `=`, the value pushed is the trimmed text after the
first `=`, with every further `=` kept (the value has one `=` less than the stripped
line); so `a=b=c` gives the key `a` and the value `b=c`. -/
theorem first_separator_split_fails_for_high_byte :
    Spec.stripped [195, 169, 61, 49] = [195, 169, 61, 49] ∧
    Spec.hasSeparator (Spec.stripped [195, 169, 61, 49]) = true ∧
    Spec.trimSpaces ((Spec.stripped [195, 169, 61, 49]).takeWhile
      (fun c => !Spec.isSeparator c)) = [195, 169] ∧
    Spec.trimSpaces (((Spec.stripped [195, 169, 61, 49]).dropWhile
      (fun c => !Spec.isSeparator c)).drop 1) = [49] ∧
    charIndex true 195 = -61 ∧
    PlainChar.lineStep true ([195, 169, 61, 49] ++ [0]) 0 = .error Fault.outOfBounds ∧
    PlainChar.lineStep false ([195, 169, 61, 49] ++ [0]) 0 =
      .ok (LineStep.pushed 0 3 [195, 169, 0, 49, 0]) ∧
    cstr [195, 169, 0, 49, 0] 0 = [195, 169] ∧ cstr [195, 169, 0, 49, 0] 3 = [49] ∧
    (∀ signedChar : Bool,
      PlainChar.lineStep signedChar ([97, 61, 98, 61, 99] ++ [0]) 0 =
        .ok (LineStep.pushed 0 2 [97, 0, 98, 61, 99, 0])) ∧
    cstr [97, 0, 98, 61, 99, 0] 0 = [97] ∧ cstr [97, 0, 98, 61, 99, 0] 2 = [98, 61, 99] ∧
    (∀ (signedChar : Bool) (S : List Nat) (tok : Nat) (L X : List Nat),
      S.drop tok = L ++ 0 :: X → (∀ a ∈ L, a ≠ 0) →
      Spec.hasSeparator (Spec.stripped L) = true →
      (∀ b ∈ S, b < charBound signedChar) →
      ∃ kp vp S2, PlainChar.lineStep signedChar S tok = .ok (LineStep.pushed kp vp S2) ∧
        cstr S2 kp =
          Spec.trimSpaces ((Spec.stripped L).takeWhile (fun c => !Spec.isSeparator c)) ∧
        61 ∉ cstr S2 kp ∧
        cstr S2 vp =
          Spec.trimSpaces
            (((Spec.stripped L).dropWhile (fun c => !Spec.isSeparator c)).drop 1) ∧
        (cstr S2 vp).count 61 + 1 = (Spec.stripped L).count 61) := by
  refine ⟨by decide, by decide, by decide, by decide, by decide, by decide, by decide,
    by decide, by decide, by decide, by decide, by decide, ?_⟩
  intro sc S tok L X h hL hsep hb
  obtain ⟨kp, vp, S2, _, hk, hk61, hv, hcount, hpc⟩ :=
    split_at_first_separator_only S tok L X h hL hsep
  exact ⟨kp, vp, S2, hpc sc hb, hk, hk61, hv, hcount⟩



/-! ## Lines, stripped lines and their keys and values -/

theorem lines_no_newline (c : List Nat) : ∀ l ∈ Spec.lines c, ∀ x ∈ l, Spec.isNewline x = false := by
  induction c with
  | nil =>
    intro l hl x hx
    simp only [Spec.lines, List.splitOnP_nil, List.mem_singleton] at hl
    rw [hl] at hx
    exact absurd hx (List.not_mem_nil _)
  | cons b c ih =>
    intro l hl x hx
    by_cases hb : Spec.isNewline b = true
    · rw [lines_cons_newline b c hb] at hl
      rcases List.mem_cons.mp hl with h | h
      · rw [h] at hx; exact absurd hx (List.not_mem_nil _)
      · exact ih l h x hx
    · have hb' : Spec.isNewline b = false := by simpa using hb
      cases hc : Spec.lines c with
      | nil => exact absurd hc (splitOnP_ne_nil _ _)
      | cons h rest =>
        rw [lines_cons_other b c h rest hb' hc] at hl
        rcases List.mem_cons.mp hl with h1 | h1
        · rw [h1] at hx
          rcases List.mem_cons.mp hx with h2 | h2
          · rw [h2]; exact hb'
          · exact ih h (by rw [hc]; exact List.mem_cons_self _ _) x h2
        · exact ih l (by rw [hc]; exact List.mem_cons_of_mem _ h1) x hx

theorem stripped_no_comment (l : List Nat) : ∀ x ∈ Spec.stripped l, Spec.isComment x = false := by
  intro x hx
  have h1 : x ∈ Spec.cutComment l := (trimSpaces_sublist _).subset hx
  have h2 := List.mem_takeWhile_imp h1
  simpa using h2

theorem keyOf_no_separator (l : List Nat) : 61 ∉ Spec.keyOf l := by
  intro hm
  have h1 := (trimSpaces_sublist _).subset hm
  have h2 := List.mem_takeWhile_imp h1
  exact absurd h2 (by decide)

/-- The key and the value of an entry line of a content: trimmed, without comment marker
and without line terminator, the key without `=`. -/
theorem pairOf_entryLine (c : List Nat) (l : List Nat) (hl : l ∈ Spec.entryLines c) :
    (∀ x, (Spec.keyOf l).head? = some x → Spec.isSpaceTab x = false) ∧
    (∀ x, (Spec.keyOf l).getLast? = some x → Spec.isSpaceTab x = false) ∧
    (∀ x, (Spec.valueOf l).head? = some x → Spec.isSpaceTab x = false) ∧
    (∀ x, (Spec.valueOf l).getLast? = some x → Spec.isSpaceTab x = false) ∧
    (∀ x ∈ Spec.keyOf l ++ Spec.valueOf l, x ∉ [59, 35, 13, 10]) ∧
    61 ∉ Spec.keyOf l := by
  refine ⟨trimSpaces_head_not_space _, trimSpaces_last_not_space _,
    trimSpaces_head_not_space _, trimSpaces_last_not_space _, ?_, keyOf_no_separator l⟩
  unfold Spec.entryLines at hl
  obtain ⟨hl1, _⟩ := List.mem_filter.mp hl
  obtain ⟨line, hline, rfl⟩ := List.mem_map.mp hl1
  intro x hx
  have hxs : x ∈ Spec.stripped line := by
    rcases List.mem_append.mp hx with h | h
    · exact (keyOf_sublist _).subset h
    · exact (valueOf_sublist _).subset h
  have hcm := stripped_no_comment line x hxs
  have hnl := lines_no_newline c line hline x ((stripped_sublist line).subset hxs)
  intro hmem
  simp only [List.mem_cons, List.mem_singleton, List.not_mem_nil, or_false] at hmem
  rcases hmem with rfl | rfl | rfl | rfl
  · exact absurd hcm (by decide)
  · exact absurd hcm (by decide)
  · exact absurd hnl (by decide)
  · exact absurd hnl (by decide)



/-! ## `cfg2-nomap.h` and `cfg3-slices.h`: sort, duplicate scan, `find` -/

theorem find_first_of_bounds (mem : List Nat) (first last : Nat) (set : List Nat)
    (h : first ≤ last) :
    first ≤ find_first_of mem first last set ∧ find_first_of mem first last set ≤ last := by
  unfold find_first_of
  have h1 : (((mem.drop first).take (last - first)).takeWhile
      (fun c => !set.contains c)).length ≤ last - first :=
    le_trans (List.takeWhile_sublist _).length_le (by
      rw [List.length_take]; exact Nat.min_le_left _ _)
  omega

theorem subslice_zero_isSome (s : Slice) (n : Nat) (h : n ≤ s.size) :
    ∃ r, s.subslice 0 n = some r := by
  unfold Slice.subslice
  have h1 : (0 + n) % 2 ^ 64 ≤ s.size := le_trans (Nat.mod_le _ _) (by omega)
  rw [if_pos h1]
  exact ⟨_, rfl⟩

theorem subsliceFrom_isSome (s : Slice) (n : Nat) (h : n ≤ s.size) :
    ∃ r, s.subsliceFrom n = some r := by
  unfold Slice.subsliceFrom
  rw [if_pos h]
  exact ⟨_, rfl⟩

theorem stripComment_isSome (S : List Nat) (s : Slice) : ∃ r, stripComment S s = some r := by
  unfold stripComment
  simp only
  split
  · have hb := find_first_of_bounds S s.ptr s.end_ COMMENTS (by simp [Slice.end_])
    apply subslice_zero_isSome
    simp only [Slice.end_] at hb ⊢
    omega
  · exact ⟨_, rfl⟩

/-- No assertion of `Slice` fails in the statements that process a line, whatever the
function `trim` returns. -/
theorem lineStepWith_isSome (trimf : List Nat → Slice → Slice) (line : List Nat) :
    ∃ r, Cfg3.lineStepWith trimf line = some r := by
  unfold Cfg3.lineStepWith
  obtain ⟨slice1, h1⟩ := stripComment_isSome line ⟨0, line.length⟩
  rw [h1]
  simp only
  split
  · exact ⟨_, rfl⟩
  · split
    · exact ⟨_, rfl⟩
    · rename_i hne
      have hb := find_first_of_bounds line (trimf line slice1).ptr (trimf line slice1).end_
        SEPARATORS (by simp [Slice.end_])
      have hlt : find_first_of line (trimf line slice1).ptr (trimf line slice1).end_
          SEPARATORS < (trimf line slice1).end_ := by
        rcases Nat.lt_or_ge (find_first_of line (trimf line slice1).ptr
          (trimf line slice1).end_ SEPARATORS) (trimf line slice1).end_ with h | h
        · exact h
        · exfalso
          apply hne
          simp only [beq_iff_eq]
          omega
      simp only [Slice.end_] at hb hlt
      obtain ⟨k, hk⟩ := subslice_zero_isSome (trimf line slice1)
        (find_first_of line (trimf line slice1).ptr (trimf line slice1).end_ SEPARATORS -
          (trimf line slice1).ptr) (by simp only [Slice.end_]; omega)
      obtain ⟨v, hv⟩ := subsliceFrom_isSome (trimf line slice1)
        (find_first_of line (trimf line slice1).ptr (trimf line slice1).end_ SEPARATORS -
          (trimf line slice1).ptr + 1) (by simp only [Slice.end_]; omega)
      rw [hk, hv]
      exact ⟨_, rfl⟩

theorem cfg3_parseLines_isSome : ∀ (lines : List (List Nat)) (es : List (List Nat × List Nat)),
    ∃ r, Cfg3.parseLines lines es = some r := by
  intro lines
  induction lines with
  | nil => intro es; exact ⟨_, rfl⟩
  | cons line rest ih =>
    intro es
    unfold Cfg3.parseLines
    obtain ⟨r, hr⟩ := lineStepWith_isSome Cfg3.trim line
    rw [hr]
    cases r with
    | skipped => exact ih es
    | noSeparator => exact ⟨_, rfl⟩
    | entry k v => exact ih _

theorem cfg2_std_sort_eq (l : List (List Nat × List Nat)) :
    std_sort (fun a b => decide (lexLt a.1 b.1)) l = l.insertionSort keyLE := by
  unfold std_sort
  have h := List.map_insertionSort
    (r := fun (a b : List Nat × List Nat) => decide (lexLt b.1 a.1) = false) (s := keyLE)
    (fun x => x) l (by
      intro a _ b _
      simp only [decide_eq_false_iff_not, keyLE])
  simpa using h

theorem cfg2_hasDuplicate_some : ∀ (es : List (List Nat × List Nat)) (pk : List Nat),
    (Cfg2.hasDuplicate (some pk) es = false ↔
      List.Chain (fun a b => a ≠ b) pk (es.map Prod.fst)) := by
  intro es
  induction es with
  | nil => intro pk; simp [Cfg2.hasDuplicate]
  | cons e es ih =>
    intro pk
    simp only [Cfg2.hasDuplicate, List.map_cons, List.chain_cons]
    by_cases h0 : pk = e.1
    · simp [h0]
    · have hb : (pk == e.1) = false := by simpa using h0
      simp only [hb, Bool.false_eq_true, if_false, ih e.1]
      exact ⟨fun h => ⟨h0, h⟩, fun h => h.2⟩

theorem cfg2_hasDuplicate_none (es : List (List Nat × List Nat)) :
    (Cfg2.hasDuplicate none es = false ↔
      List.Chain' (fun a b => a ≠ b) (es.map Prod.fst)) := by
  cases es with
  | nil => simp [Cfg2.hasDuplicate]
  | cons e es => exact cfg2_hasDuplicate_some es e.1

/-- The part of the constructor after the reading loop: the entries are the pushed
entries sorted by key, and the table is Valid iff no key was pushed twice; the keys of a
Valid table ascend strictly. -/
theorem cfg2_finish_spec (pushed : List (List Nat × List Nat)) :
    (Cfg2.finish pushed).entries = pushed.insertionSort keyLE ∧
    ((Cfg2.finish pushed).valid = true ↔ (pushed.map Prod.fst).Nodup) ∧
    ((Cfg2.finish pushed).valid = true →
      ((Cfg2.finish pushed).entries.map Prod.fst).Sorted lexLt) := by
  have hs := sorted_insertionSort_keyLE pushed
  obtain ⟨hiff, hsorted⟩ := sorted_chain_iff_nodup _ hs
  have hperm : ((pushed.insertionSort keyLE).map Prod.fst).Perm (pushed.map Prod.fst) :=
    (List.perm_insertionSort keyLE pushed).map _
  have hent : (Cfg2.finish pushed).entries = pushed.insertionSort keyLE := by
    unfold Cfg2.finish
    simp only [cfg2_std_sort_eq]
    split <;> rfl
  have hval : (Cfg2.finish pushed).valid = true ↔ (pushed.map Prod.fst).Nodup := by
    unfold Cfg2.finish
    simp only [cfg2_std_sort_eq]
    cases hd : Cfg2.hasDuplicate none (pushed.insertionSort keyLE) with
    | true =>
      simp only [if_true, Bool.false_eq_true, false_iff]
      intro hn
      have h1 := hiff.mpr (hperm.nodup_iff.mpr hn)
      have h2 := (cfg2_hasDuplicate_none _).mpr h1
      rw [hd] at h2
      exact Bool.noConfusion h2
    | false =>
      simp only [Bool.false_eq_true, if_false, true_iff]
      exact hperm.nodup_iff.mp (hiff.mp ((cfg2_hasDuplicate_none _).mp hd))
  refine ⟨hent, hval, ?_⟩
  intro hv
  rw [hent]
  exact hsorted (hperm.nodup_iff.mpr (hval.mp hv))

/-- In a range with strictly ascending keys, the lower bound of the key of element `i` is
`i`. -/
theorem std_lower_bound_of_sorted (es : List (List Nat × List Nat))
    (hs : (es.map Prod.fst).Sorted lexLt) (i : Nat) (h : i < es.length) :
    std_lower_bound (fun (a : List Nat × List Nat) (b : List Nat) => decide (lexLt a.1 b))
      es (es.get ⟨i, h⟩).1 = i := by
  unfold std_lower_bound
  have hsplit : es = es.take i ++ es.get ⟨i, h⟩ :: es.drop (i + 1) := by
    rw [List.get_eq_getElem, ← List.drop_eq_getElem_cons h, List.take_append_drop]
  have hpw : es.Pairwise (fun a b => lexLt a.1 b.1) := by
    have := hs
    rw [List.Sorted, List.pairwise_map] at this
    exact this
  have hA : ∀ a ∈ es.take i, decide (lexLt a.1 (es.get ⟨i, h⟩).1) = true := by
    intro a ha
    rw [hsplit] at hpw
    have := (List.pairwise_append.mp hpw).2.2 a ha (es.get ⟨i, h⟩) (List.mem_cons_self _ _)
    simpa using this
  have hx : decide (lexLt (es.get ⟨i, h⟩).1 (es.get ⟨i, h⟩).1) = false := by
    simp only [decide_eq_false_iff_not, lexLt_iff_lt]
    exact lt_irrefl _
  generalize es.get ⟨i, h⟩ = x at hsplit hA hx
  have htw : (es.take i ++ x :: es.drop (i + 1)).takeWhile
      (fun a => decide (lexLt a.1 x.1)) = es.take i := by
    generalize es.drop (i + 1) = B
    generalize es.take i = A at hA
    induction A with
    | nil => simp [List.takeWhile, hx]
    | cons a A ih =>
      have ha := hA a (List.mem_cons_self _ _)
      simp only [List.cons_append, List.takeWhile_cons, ha, if_true]
      rw [ih (fun b hb => hA b (List.mem_cons_of_mem _ hb))]
  have hcong := congrArg (fun l => (l.takeWhile (fun a => decide (lexLt a.1 x.1))).length)
    hsplit
  simp only at hcong
  rw [hcong, htw, List.length_take]
  omega



/-! ## Sorting entries with distinct keys -/

/-- Two ranges sorted by key that hold the same entries, with no key twice, are equal. -/
theorem sorted_perm_unique (l1 l2 : List (List Nat × List Nat)) (hp : l1.Perm l2)
    (h1 : l1.Sorted keyLE) (h2 : l2.Sorted keyLE) (hn : (l1.map Prod.fst).Nodup) :
    l1 = l2 := by
  have hn2 : (l2.map Prod.fst).Nodup := (hp.map _).nodup_iff.mp hn
  have s1 : l1.Pairwise (fun a b => lexLt a.1 b.1) := by
    have := (sorted_chain_iff_nodup l1 h1).2 hn
    rw [List.Sorted, List.pairwise_map] at this
    exact this
  have s2 : l2.Pairwise (fun a b => lexLt a.1 b.1) := by
    have := (sorted_chain_iff_nodup l2 h2).2 hn2
    rw [List.Sorted, List.pairwise_map] at this
    exact this
  haveI : IsAntisymm (List Nat × List Nat) (fun a b => lexLt a.1 b.1) :=
    ⟨fun a b hab hba => absurd hba (by
      rw [lexLt_iff_lt] at hab ⊢
      exact lt_asymm hab)⟩
  exact List.eq_of_perm_of_sorted hp s1 s2

theorem insertionSort_perm_unique (l1 l2 : List (List Nat × List Nat)) (hp : l1.Perm l2)
    (hn : (l1.map Prod.fst).Nodup) :
    l1.insertionSort keyLE = l2.insertionSort keyLE := by
  apply sorted_perm_unique
  · exact (List.perm_insertionSort keyLE l1).trans (hp.trans (List.perm_insertionSort keyLE l2).symm)
  · exact sorted_insertionSort_keyLE l1
  · exact sorted_insertionSort_keyLE l2
  · exact ((List.perm_insertionSort keyLE l1).map _).nodup_iff.mpr hn

theorem entryLines_perm (c1 c2 : List Nat) (hp : (Spec.lines c2).Perm (Spec.lines c1)) :
    (Spec.entryLines c2).Perm (Spec.entryLines c1) := by
  unfold Spec.entryLines
  exact (hp.map _).filter _

theorem all_eq_of_perm {α : Type} (p : α → Bool) (l1 l2 : List α) (hp : l1.Perm l2) :
    l1.all p = l2.all p := by
  rw [Bool.eq_iff_iff, List.all_eq_true, List.all_eq_true]
  exact ⟨fun h x hx => h x (hp.mem_iff.mpr hx), fun h x hx => h x (hp.mem_iff.mp hx)⟩



/-! ## The `std::map` of `cfg.h` against the sorted vector of `cfg2-nomap.h` -/

theorem mapFind_isSome (m : List (List Nat × List Nat)) (key : List Nat) :
    (Cfg1.mapFind m key).isSome = true ↔ key ∈ m.map Prod.fst := by
  unfold Cfg1.mapFind
  rw [List.findIdx?_isSome, List.any_eq_true]
  constructor
  · rintro ⟨e, he, heq⟩
    have : e.1 = key := by simpa using heq
    rw [← this]
    exact List.mem_map_of_mem _ he
  · intro h
    obtain ⟨e, he, heq⟩ := List.mem_map.mp h
    exact ⟨e, he, by simpa using heq⟩

theorem cfg1_parseLines_cons (line : List Nat) (rest : List (List Nat))
    (entries : List (List Nat × List Nat)) :
    Cfg1.parseLines (line :: rest) entries =
      match Cfg1.lineStep line with
      | Cfg1.LineStep.skipped => Cfg1.parseLines rest entries
      | Cfg1.LineStep.noSeparator => ⟨entries, false⟩
      | Cfg1.LineStep.entry key value =>
        if (Cfg1.mapFind entries key).isSome then ⟨entries, false⟩
        else Cfg1.parseLines rest (Cfg1.mapAssign entries key value) := rfl

theorem cfg2_parseLines_cons (line : List Nat) (rest : List (List Nat))
    (entries : List (List Nat × List Nat)) :
    Cfg2.parseLines (line :: rest) entries =
      match Cfg1.lineStep line with
      | Cfg1.LineStep.skipped => Cfg2.parseLines rest entries
      | Cfg1.LineStep.noSeparator => (entries, false)
      | Cfg1.LineStep.entry key value => Cfg2.parseLines rest (entries ++ [(key, value)]) :=
  rfl

theorem mapAssign_eq_orderedInsert (m : List (List Nat × List Nat)) (key value : List Nat)
    (hk : key ∉ m.map Prod.fst) :
    Cfg1.mapAssign m key value = List.orderedInsert keyLE (key, value) m := by
  induction m with
  | nil => rfl
  | cons e m ih =>
    have hne : key ≠ e.1 := fun hc => hk (by simp [hc])
    have hk2 : key ∉ m.map Prod.fst := fun hc => hk (by simp [hc])
    unfold Cfg1.mapAssign
    rw [List.orderedInsert]
    by_cases hlt : lexLt key e.1
    · have hle : keyLE (key, value) e := by
        rw [keyLE_iff]
        exact le_of_lt ((lexLt_iff_lt _ _).mp hlt)
      rw [if_pos hlt, if_pos hle]
    · have hle : ¬ keyLE (key, value) e := by
        rw [keyLE_iff]
        intro hc
        rcases lt_or_eq_of_le hc with h | h
        · exact hlt ((lexLt_iff_lt _ _).mpr h)
        · exact hne h
      rw [if_neg hlt, if_neg hne, if_neg hle, ih hk2]

theorem keyLE_total_trans :
    IsTotal (List Nat × List Nat) keyLE ∧ IsTrans (List Nat × List Nat) keyLE :=
  ⟨⟨fun a b => by simp only [keyLE_iff]; exact le_total _ _⟩,
    ⟨fun a b c => by simp only [keyLE_iff]; exact le_trans⟩⟩

/-- Assigning a new key to the map gives the map of the pushed entries with the new
entry pushed. -/
theorem mapAssign_insertionSort (p : List (List Nat × List Nat)) (key value : List Nat)
    (hn : (p.map Prod.fst).Nodup) (hk : key ∉ p.map Prod.fst) :
    Cfg1.mapAssign (p.insertionSort keyLE) key value =
      (p ++ [(key, value)]).insertionSort keyLE := by
  haveI := keyLE_total_trans.1
  haveI := keyLE_total_trans.2
  have hperm := List.perm_insertionSort keyLE p
  have hk2 : key ∉ (p.insertionSort keyLE).map Prod.fst := fun hc =>
    hk ((hperm.map _).mem_iff.mp hc)
  rw [mapAssign_eq_orderedInsert _ _ _ hk2]
  have hp1 : (List.orderedInsert keyLE (key, value) (p.insertionSort keyLE)).Perm
      (p ++ [(key, value)]) :=
    (List.perm_orderedInsert keyLE _ _).trans
      ((List.Perm.cons _ hperm).trans (List.perm_append_singleton _ _).symm)
  apply sorted_perm_unique
  · exact hp1.trans (List.perm_insertionSort keyLE _).symm
  · exact (sorted_insertionSort_keyLE p).orderedInsert _ _
  · exact sorted_insertionSort_keyLE _
  · have : ((p ++ [(key, value)]).map Prod.fst).Nodup := by
      rw [List.map_append, List.map_singleton]
      exact List.Nodup.append hn (List.nodup_singleton _) (by
        intro x hx hx2
        rw [List.mem_singleton] at hx2
        rw [hx2] at hx
        exact hk hx)
    exact (hp1.map _).nodup_iff.mpr this

theorem cfg2_parseLines_extends : ∀ (lines : List (List Nat)) (p : List (List Nat × List Nat)),
    ∃ q, (Cfg2.parseLines lines p).1 = p ++ q := by
  intro lines
  induction lines with
  | nil => intro p; exact ⟨[], by simp [Cfg2.parseLines]⟩
  | cons line rest ih =>
    intro p
    rw [cfg2_parseLines_cons]
    cases Cfg1.lineStep line with
    | skipped => exact ih p
    | noSeparator => exact ⟨[], by simp⟩
    | entry k v =>
      obtain ⟨q, hq⟩ := ih (p ++ [(k, v)])
      exact ⟨(k, v) :: q, by simp only [hq, List.append_assoc, List.singleton_append]⟩

/-- The reading loop of `cfg.h`, started on the map of the entries pushed so far, against
the reading loop of `cfg2-nomap.h`. -/
theorem cfg1_parseLines_spec : ∀ (lines : List (List Nat)) (p : List (List Nat × List Nat)),
    (p.map Prod.fst).Nodup →
    (Cfg1.parseLines lines (p.insertionSort keyLE)).valid =
      ((Cfg2.parseLines lines p).2 && decide ((Cfg2.parseLines lines p).1.map Prod.fst).Nodup) ∧
    ((Cfg1.parseLines lines (p.insertionSort keyLE)).valid = true →
      (Cfg1.parseLines lines (p.insertionSort keyLE)).entries =
        (Cfg2.parseLines lines p).1.insertionSort keyLE) := by
  intro lines
  induction lines with
  | nil =>
    intro p hn
    simp [Cfg1.parseLines, Cfg2.parseLines, hn]
  | cons line rest ih =>
    intro p hn
    rw [cfg1_parseLines_cons, cfg2_parseLines_cons]
    cases hl : Cfg1.lineStep line with
    | skipped => exact ih p hn
    | noSeparator => simp
    | entry k v =>
      simp only
      have hperm := List.perm_insertionSort keyLE p
      by_cases hf : (Cfg1.mapFind (p.insertionSort keyLE) k).isSome = true
      · rw [if_pos hf]
        have hk : k ∈ p.map Prod.fst :=
          (hperm.map _).mem_iff.mp ((mapFind_isSome _ _).mp hf)
        obtain ⟨q, hq⟩ := cfg2_parseLines_extends rest (p ++ [(k, v)])
        have hnn : ¬ ((Cfg2.parseLines rest (p ++ [(k, v)])).1.map Prod.fst).Nodup := by
          rw [hq]
          intro hc
          simp only [List.map_append, List.map_cons, List.map_nil, List.append_assoc,
            List.singleton_append] at hc
          have := (List.nodup_append.mp hc).2.2
          exact this hk (List.mem_cons_self _ _)
        simp [hnn]
      · rw [if_neg hf]
        have hk : k ∉ p.map Prod.fst := fun hc =>
          hf ((mapFind_isSome _ _).mpr ((hperm.map _).mem_iff.mpr hc))
        rw [mapAssign_insertionSort p k v hn hk]
        apply ih
        rw [List.map_append, List.map_singleton]
        exact List.Nodup.append hn (List.nodup_singleton _) (by
          intro x hx hx2
          rw [List.mem_singleton] at hx2
          rw [hx2] at hx
          exact hk hx)



/-! ## The two slices of an entry and the two terminator writes -/

theorem splitEntry_of_entrySlices (S : List Nat) (s : Slice) (ks vs : Slice)
    (h : entrySlices S s = some (ks, vs)) :
    splitEntry S s = some (LineStep.pushed ks.ptr vs.ptr
      ((S.set (ks.ptr + ks.size) 0).set (vs.ptr + vs.size) 0)) := by
  unfold entrySlices at h
  unfold splitEntry
  simp only at h ⊢
  by_cases hsep : (find_first_of S s.ptr s.end_ SEPARATORS == s.end_) = true
  · simp [hsep] at h
  · simp only [hsep, if_false] at h ⊢
    cases hk : s.subslice 0 (find_first_of S s.ptr s.end_ SEPARATORS - s.ptr) with
    | none => rw [hk] at h; simp at h
    | some key_raw =>
      cases hv : s.subsliceFrom (find_first_of S s.ptr s.end_ SEPARATORS - s.ptr + 1) with
      | none => rw [hk, hv] at h; simp at h
      | some val_raw =>
        rw [hk, hv] at h
        simp only [Bool.false_eq_true, if_false, Option.some.injEq, Prod.mk.injEq] at h
        simp only [Bool.false_eq_true, if_false, h.1, h.2]

/-- The two slices of the step "Separate into key and value" for the trimmed line `t` at
`p`: where they lie, and what they view. -/
theorem entrySlices_spec (S : List Nat) (p : Nat) (t R : List Nat)
    (h : S.drop p = t ++ R) (hsep : Spec.hasSeparator t = true) :
    ∃ ks vs, entrySlices S ⟨p, t.length⟩ = some (ks, vs) ∧
      ks.size = (Spec.keyOf t).length ∧ vs.size = (Spec.valueOf t).length ∧
      p ≤ ks.ptr ∧
      ks.ptr + ks.size ≤ p + (t.takeWhile (fun c => !Spec.isSeparator c)).length ∧
      p + (t.takeWhile (fun c => !Spec.isSeparator c)).length < vs.ptr ∧
      vs.ptr + vs.size ≤ p + t.length ∧
      ks.bytes S = Spec.keyOf t ∧ vs.bytes S = Spec.valueOf t ∧
      S.getD (p + (t.takeWhile (fun c => !Spec.isSeparator c)).length) 0 = 61 ∧
      (∀ j, j < (t.takeWhile (fun c => !Spec.isSeparator c)).length → S.getD (p + j) 0 ≠ 61) := by
  set kraw := t.takeWhile (fun c => !Spec.isSeparator c) with hkraw
  set vraw := (t.dropWhile (fun c => !Spec.isSeparator c)).drop 1 with hvraw
  have ht : t = kraw ++ 61 :: vraw := split_at_separator t hsep
  obtain ⟨post2, hk2⟩ := trimSpaces_decomp kraw
  obtain ⟨post3, hv3⟩ := trimSpaces_decomp vraw
  set pre2 := kraw.takeWhile Spec.isSpaceTab with hpre2
  set pre3 := vraw.takeWhile Spec.isSpaceTab with hpre3
  have hkey : Spec.keyOf t = Spec.trimSpaces kraw := rfl
  have hval : Spec.valueOf t = Spec.trimSpaces vraw := rfl
  set key := Spec.trimSpaces kraw with hkeydef
  set val := Spec.trimSpaces vraw with hvaldef
  have hlen_t : t.length = kraw.length + 1 + vraw.length := by
    have := congrArg List.length ht
    simp only [List.length_append, List.length_cons] at this
    omega
  have hlen_k : kraw.length = pre2.length + key.length + post2.length := by
    have := congrArg List.length hk2
    simp only [List.length_append] at this
    omega
  have hlen_v : vraw.length = pre3.length + val.length + post3.length := by
    have := congrArg List.length hv3
    simp only [List.length_append] at this
    omega
  have hdk : S.drop p = kraw ++ (61 :: vraw ++ R) := by
    rw [h]; conv_lhs => rw [ht]
    simp
  have hdv : S.drop (p + (kraw.length + 1)) = vraw ++ R := by
    have := drop_add_of_drop (A := kraw ++ [61]) (B := vraw ++ R) (by rw [hdk]; simp)
    simpa using this
  have hfind : find_first_of S p (p + t.length) SEPARATORS = p + kraw.length := by
    rw [find_first_of_spec S p t R SEPARATORS h, separators_pred]
  have e1 : entrySlices S ⟨p, t.length⟩ =
      some (⟨p + pre2.length, key.length⟩, ⟨p + (kraw.length + 1) + pre3.length, val.length⟩) := by
    unfold entrySlices
    simp only [Slice.end_, hfind]
    have hne : (p + kraw.length == p + t.length) = false := by simp; omega
    simp only [hne, Bool.false_eq_true, if_false, Slice.subslice, Slice.subsliceFrom]
    have hsub : p + kraw.length - p = kraw.length := by omega
    rw [hsub]
    have c1 : (0 + kraw.length) % 2 ^ 64 ≤ t.length :=
      le_trans (Nat.mod_le _ _) (by omega)
    have c2 : kraw.length + 1 ≤ t.length := by omega
    rw [if_pos c1, if_pos c2]
    have hsz : t.length - (kraw.length + 1) = vraw.length := by omega
    simp only [hsz, Nat.add_zero]
    rw [trim_spec S p kraw _ hdk, trim_spec S _ vraw R hdv]
  have hdkey : S.drop (p + pre2.length) = key ++ (post2 ++ (61 :: vraw ++ R)) := by
    apply drop_add_of_drop (A := pre2)
    rw [hdk]
    conv_lhs => rw [hk2]
    simp
  have hdval : S.drop (p + (kraw.length + 1) + pre3.length) = val ++ (post3 ++ R) := by
    apply drop_add_of_drop (A := pre3)
    rw [hdv]
    conv_lhs => rw [hv3]
    simp
  refine ⟨_, _, e1, by rw [hkey], by rw [hval], by simp, by simp only; omega,
    by simp only; omega, by simp only; omega, ?_, ?_, ?_, ?_⟩
  · unfold Slice.bytes
    simp only
    rw [hdkey, List.take_left, hkey]
  · unfold Slice.bytes
    simp only
    rw [hdval, List.take_left, hval]
  · exact getD_add_of_drop hdk
  · intro j hj
    have hmem := getD_of_view_append (p := p) (A := []) (B := kraw)
      (C := 61 :: vraw ++ R) (by rw [hdk]; simp) j hj
    simp only [List.length_nil, Nat.add_zero] at hmem
    intro hc
    rw [hc] at hmem
    have h2 := List.mem_takeWhile_imp hmem
    exact absurd h2 (by decide)

theorem lineSlices_unfold (S : List Nat) (tok : Nat) (L X : List Nat)
    (h : S.drop tok = L ++ 0 :: X) (hL : ∀ a ∈ L, a ≠ 0) (hs : Spec.stripped L ≠ []) :
    lineSlices S tok = entrySlices S
      ⟨tok + ((Spec.cutComment L).takeWhile Spec.isSpaceTab).length,
        (Spec.stripped L).length⟩ := by
  obtain ⟨D, htrim, _, _⟩ := stripped_view S tok L X h
  unfold lineSlices
  simp only [strlen_eq_cstr_length, cstr_of_drop h hL, stripComment_spec S tok L _ h, htrim]
  have : (Spec.stripped L).length ≠ 0 := by
    intro hc; exact hs (List.length_eq_zero.mp hc)
  simp [Slice.empty, this]

/-- The pass of the loop body for the token `L` at `tok`, a line with a separator: the
two slices, the two writes, and where they lie in the line. -/
theorem lineSlices_spec (S : List Nat) (tok : Nat) (L X : List Nat)
    (h : S.drop tok = L ++ 0 :: X) (hL : ∀ a ∈ L, a ≠ 0) (hs : Spec.stripped L ≠ [])
    (hsep : Spec.hasSeparator (Spec.stripped L) = true) :
    ∃ ks vs eqpos, lineSlices S tok = some (ks, vs) ∧
      lineStep S tok = some (LineStep.pushed ks.ptr vs.ptr
        ((S.set (ks.ptr + ks.size) 0).set (vs.ptr + vs.size) 0)) ∧
      ks.size = (Spec.keyOf (Spec.stripped L)).length ∧
      vs.size = (Spec.valueOf (Spec.stripped L)).length ∧
      tok ≤ ks.ptr ∧ ks.ptr + ks.size ≤ eqpos ∧ eqpos < vs.ptr ∧
      vs.ptr + vs.size ≤ tok + L.length ∧
      ks.bytes S = Spec.keyOf (Spec.stripped L) ∧
      vs.bytes S = Spec.valueOf (Spec.stripped L) ∧
      S.getD eqpos 0 = 61 ∧ (∀ i, tok ≤ i → i < eqpos → S.getD i 0 ≠ 61) := by
  obtain ⟨D, _, hview, hlen⟩ := stripped_view S tok L X h
  obtain ⟨ks, vs, hes, hks, hvs, b1, b2, b3, b4, hkb, hvb, h61, hn61⟩ :=
    entrySlices_spec S _ (Spec.stripped L) (D ++ 0 :: X) hview hsep
  refine ⟨ks, vs, _, ?_, ?_, hks, hvs, by omega, b2, b3, by omega, hkb, hvb, h61, ?_⟩
  · rw [lineSlices_unfold S tok L X h hL hs]; exact hes
  · rw [lineStep_unfold S tok L X h hL hs]
    exact splitEntry_of_entrySlices S _ ks vs hes
  · intro i hi1 hi2
    by_cases hpre : i < tok + ((Spec.cutComment L).takeWhile Spec.isSpaceTab).length
    · obtain ⟨post1, hp1⟩ := trimSpaces_decomp (Spec.cutComment L)
      have hcut : S.drop tok = [] ++ (Spec.cutComment L).takeWhile Spec.isSpaceTab ++
          (Spec.trimSpaces (Spec.cutComment L) ++ post1 ++
            (L.dropWhile (fun c => !Spec.isComment c) ++ 0 :: X)) := by
        rw [h]
        have hL2 : L = Spec.cutComment L ++ L.dropWhile (fun c => !Spec.isComment c) := by
          unfold Spec.cutComment
          rw [List.takeWhile_append_dropWhile]
        conv_lhs => rw [hL2, hp1]
        simp
      have hmem := getD_of_view_append hcut (i - tok) (by omega)
      have hidx : tok + ([] : List Nat).length + (i - tok) = i := by simp; omega
      rw [hidx] at hmem
      have hsp := List.mem_takeWhile_imp hmem
      intro hc
      rw [hc] at hsp
      exact absurd hsp (by decide)
    · have := hn61 (i - (tok + ((Spec.cutComment L).takeWhile Spec.isSpaceTab).length)) (by omega)
      have hidx : tok + ((Spec.cutComment L).takeWhile Spec.isSpaceTab).length +
          (i - (tok + ((Spec.cutComment L).takeWhile Spec.isSpaceTab).length)) = i := by omega
      rw [hidx] at this
      exact this



/-! ## The passes of the tokenizing loop -/

theorem getD_eq_of_zeroedFrom {p : Nat} {S S1 : List Nat} (hz : ZeroedFrom p S S1) (i : Nat)
    (h : S1.getD i 0 ≠ 0) : S.getD i 0 = S1.getD i 0 := by
  rcases hz.2 i with h1 | h1
  · exact h1.symm
  · exact absurd h1.2 h

theorem lt_length_of_drop_cons {S : List Nat} {p x : Nat} {t : List Nat}
    (h : S.drop p = x :: t) : p < S.length := by
  by_contra hc
  rw [List.drop_eq_nil_iff.mpr (not_lt.mp hc)] at h
  exact List.noConfusion h

theorem two_writes_getD (S : List Nat) (a b i : Nat) :
    ((S.set a 0).set b 0).getD i 0 =
      if b = i then 0 else if a = i then 0 else S.getD i 0 := by
  rw [getD_set_zero, getD_set_zero]

/-- The tokenizing loop, pass by pass: started at `save` on a buffer whose C string there
is `r`, the entries it pushes are the pointers of the slices of its passes; every pass
lies at or after `save`, its writes are safe, and the C strings read from its pointers
in the final buffer are the bytes its slices viewed; and every pass lies after the value
of the pass before. -/
theorem parseTrace_spec : ∀ (fuel : Nat) (S : List Nat) (save : Nat) (acc : List (Nat × Nat))
    (r X : List Nat), S.drop save = r ++ 0 :: X → (∀ a ∈ r, a ≠ 0) → r.length < fuel →
    ∃ P, parseLoop fuel S save acc = some P ∧
      P.entries = acc ++
        (parseTrace fuel S save).map (fun w => (w.key_slice.ptr, w.val_slice.ptr)) ∧
      ZeroedFrom save S P.storage ∧
      (∀ w ∈ parseTrace fuel S save,
        save ≤ w.tok ∧ S.getD w.tok 0 ≠ 0 ∧ ZeroedFrom save S w.before ∧
        (∃ lineEnd eqpos, Spec.WritesSafe w lineEnd eqpos) ∧
        cstr P.storage w.key_slice.ptr = w.key_slice.bytes w.before ∧
        cstr P.storage w.val_slice.ptr = w.val_slice.bytes w.before) ∧
      (parseTrace fuel S save).Pairwise (fun a b => a.val_slice.end_ < b.tok) := by
  intro fuel
  induction fuel with
  | zero => intro S save acc r X _ _ hlt; omega
  | succ fuel ih =>
    intro S save acc r X h hr hlt
    by_cases he : r.dropWhile Spec.isNewline = []
    · -- no further token
      have hnone := strtok_none S save r X h hr he
      have htr : parseTrace (fuel + 1) S save = [] := by
        unfold parseTrace
        cases hst : strtok S save [13, 10] with
        | mk a b =>
          rw [hst] at hnone
          simp only at hnone
          subst hnone
          rfl
      refine ⟨⟨acc, S, true⟩, ?_, by simp [htr], ZeroedFrom.refl _ _, ?_, ?_⟩
      · unfold parseLoop
        cases hst : strtok S save [13, 10] with
        | mk a b =>
          rw [hst] at hnone
          simp only at hnone
          subst hnone
          rfl
      · intro w hw; rw [htr] at hw; exact absurd hw (List.not_mem_nil _)
      · rw [htr]; exact List.Pairwise.nil
    · obtain ⟨tok, S1, save1, X1, hst, hd1, hz1, hle1, hle2, hnext⟩ :=
        strtok_some S save r X h hr he
      set r' := r.dropWhile Spec.isNewline with hr'
      set L := r'.takeWhile (fun c => !Spec.isNewline c) with hLdef
      set r1 := (r'.dropWhile (fun c => !Spec.isNewline c)).drop 1 with hr1
      have hr'0 : ∀ a ∈ r', a ≠ 0 := fun a ha => hr a ((List.dropWhile_suffix _).subset ha)
      have hL0 : ∀ a ∈ L, a ≠ 0 := fun a ha => hr'0 a ((List.takeWhile_sublist _).subset ha)
      have hr10 : ∀ a ∈ r1, a ≠ 0 := fun a ha =>
        hr'0 a ((List.dropWhile_suffix _).subset ((List.drop_sublist _ _).subset ha))
      have hLne : L ≠ [] := by
        cases hcs : r' with
        | nil => exact absurd hcs he
        | cons c t =>
          have hcn : Spec.isNewline c = false := by
            have := List.head_dropWhile_not Spec.isNewline r (by rw [← hr', hcs]; simp)
            simpa [← hr', hcs] using this
          rw [hLdef, hcs, List.takeWhile_cons]
          simp [hcn]
      have hlen1 : r1.length < fuel := by
        have h1 : r1.length ≤ (r'.dropWhile (fun c => !Spec.isNewline c)).length := by
          rw [hr1, List.length_drop]; omega
        have h2 : L.length + (r'.dropWhile (fun c => !Spec.isNewline c)).length = r'.length := by
          rw [← List.length_append, hLdef, List.takeWhile_append_dropWhile]
        have h3 : r'.length ≤ r.length := (List.dropWhile_suffix _).sublist.length_le
        have h4 : 0 < L.length := List.length_pos.mpr hLne
        omega
      have hsave1 : save ≤ save1 := by omega
      by_cases hs : Spec.stripped L = []
      · -- a blank line
        have hstep := lineStep_skipped S1 tok L X1 hd1 hL0 hs
        obtain ⟨P, hP, hent, hz, hall, hpw⟩ :=
          ih S1 save1 acc r1 X (hnext S1 (drop_add_of_drop hd1)) hr10 hlen1
        have htr : parseTrace (fuel + 1) S save = parseTrace fuel S1 save1 := by
          conv_lhs => unfold parseTrace
          simp only [hst, hstep]
        rw [htr]
        refine ⟨P, ?_, hent, hz1.trans (hz.weaken hsave1), ?_, hpw⟩
        · unfold parseLoop
          simp only [hst, hstep]
          exact hP
        · intro w hw
          obtain ⟨a1, a2, a3, a4, a5, a6⟩ := hall w hw
          refine ⟨by omega, ?_, hz1.trans (a3.weaken hsave1), a4, a5, a6⟩
          rw [getD_eq_of_zeroedFrom hz1 _ a2]; exact a2
      · by_cases hsep : Spec.hasSeparator (Spec.stripped L) = true
        · -- an entry
          obtain ⟨k, v, S2, hstep, hz2, ⟨Tk, hk⟩, ⟨Tv, hv⟩, b1, b2, b3, htail⟩ :=
            lineStep_pushed S1 tok L X1 hd1 hL0 hs hsep
          obtain ⟨ks, vs, eqpos, hsl, hstep2, hks, hvs, c1, c2, c3, c4, hkb, hvb, h61, hn61⟩ :=
            lineSlices_spec S1 tok L X1 hd1 hL0 hs hsep
          have hinj : k = ks.ptr ∧ v = vs.ptr ∧
              S2 = (S1.set (ks.ptr + ks.size) 0).set (vs.ptr + vs.size) 0 := by
            rw [hstep] at hstep2
            simpa using hstep2
          obtain ⟨hk_eq, hv_eq, hS2⟩ := hinj
          obtain ⟨P, hP, hent, hz, hall, hpw⟩ :=
            ih S2 save1 (acc ++ [(k, v)]) r1 X (hnext S2 htail) hr10 hlen1
          have htr : parseTrace (fuel + 1) S save =
              ⟨tok, S1, ks, vs, S2, save1⟩ :: parseTrace fuel S2 save1 := by
            conv_lhs => unfold parseTrace
            simp only [hst, hstep, hsl]
          have hkey0 : ∀ a ∈ Spec.keyOf (Spec.stripped L), a ≠ 0 := fun a ha =>
            hL0 a ((stripped_sublist L).subset ((keyOf_sublist _).subset ha))
          have hval0 : ∀ a ∈ Spec.valueOf (Spec.stripped L), a ≠ 0 := fun a ha =>
            hL0 a ((stripped_sublist L).subset ((valueOf_sublist _).subset ha))
          have hck : cstr P.storage k = Spec.keyOf (Spec.stripped L) :=
            cstr_stable hk hkey0 (by omega) hz
          have hcv : cstr P.storage v = Spec.valueOf (Spec.stripped L) :=
            cstr_stable hv hval0 (by omega) hz
          have hend0 : S1.getD (tok + L.length) 0 = 0 := getD_add_of_drop hd1
          have hendlt : tok + L.length < S1.length :=
            lt_length_of_drop_cons (drop_add_of_drop hd1)
          have htok0 : S1.getD tok 0 ≠ 0 := by
            cases hLc : L with
            | nil => exact absurd hLc hLne
            | cons x rest =>
              rw [hLc] at hd1
              have := getD_of_drop (by simpa using hd1 : S1.drop tok = x :: (rest ++ 0 :: X1))
              rw [this]
              exact hL0 x (by rw [hLc]; exact List.mem_cons_self _ _)
          have hend2 : S2.getD (tok + L.length) 0 = 0 := getD_of_drop htail
          rw [htr]
          refine ⟨P, ?_, ?_, hz1.trans ((hz2.weaken hle1).trans (hz.weaken hsave1)), ?_, ?_⟩
          · unfold parseLoop
            simp only [hst, hstep]
            exact hP
          · rw [hent, hk_eq, hv_eq]
            simp
          · intro w hw
            rcases List.mem_cons.mp hw with hw | hw
            · subst hw
              refine ⟨hle1, ?_, hz1, ⟨tok + L.length, eqpos, ?_⟩, ?_, ?_⟩
              · rw [getD_eq_of_zeroedFrom hz1 _ htok0]; exact htok0
              · refine ⟨hS2, ?_, ?_, ?_, hend0, h61, hn61, c1, c2, c3, c4, hle2, ?_⟩
                · simp only [Slice.end_]; omega
                · simp only [Slice.end_]; omega
                · intro i hi1 hi2
                  simp only at hi1
                  have hmem := getD_of_view_append (p := tok) (A := [])
                    (B := L) (C := 0 :: X1) (by rw [hd1]; simp) (i - tok) (by omega)
                  have hidx : tok + ([] : List Nat).length + (i - tok) = i := by simp; omega
                  rw [hidx] at hmem
                  exact hL0 _ hmem
                · intro i hi
                  simp only at hi ⊢
                  rw [hS2, two_writes_getD]
                  rcases hi with hi | hi
                  · have n1 : ¬ vs.ptr + vs.size = i := by omega
                    have n2 : ¬ ks.ptr + ks.size = i := by omega
                    rw [if_neg n1, if_neg n2]
                  · have n2 : ¬ ks.ptr + ks.size = i := by omega
                    by_cases n1 : vs.ptr + vs.size = i
                    · rw [if_pos n1]
                      have : i = tok + L.length := by omega
                      rw [this, hend0]
                    · rw [if_neg n1, if_neg n2]
              · simp only
                rw [← hk_eq, hck, hkb]
              · simp only
                rw [← hv_eq, hcv, hvb]
            · obtain ⟨a1, a2, a3, a4, a5, a6⟩ := hall w hw
              have a2' : S1.getD w.tok 0 ≠ 0 := by
                rw [getD_eq_of_zeroedFrom hz2 _ a2]; exact a2
              refine ⟨by omega, ?_,
                hz1.trans ((hz2.weaken hle1).trans (a3.weaken hsave1)), a4, a5, a6⟩
              rw [getD_eq_of_zeroedFrom hz1 _ a2']; exact a2'
          · refine List.Pairwise.cons ?_ hpw
            intro w hw
            obtain ⟨a1, a2, _, _, _, _⟩ := hall w hw
            have hne : w.tok ≠ tok + L.length := by
              intro hc
              rw [hc] at a2
              exact a2 hend2
            simp only [Slice.end_]
            omega
        · -- a line without separator
          have hsep' : Spec.hasSeparator (Spec.stripped L) = false := by simpa using hsep
          have hstep := lineStep_noSeparator S1 tok L X1 hd1 hL0 hs hsep'
          have htr : parseTrace (fuel + 1) S save = [] := by
            conv_lhs => unfold parseTrace
            simp only [hst, hstep]
          rw [htr]
          refine ⟨⟨acc, S1, false⟩, ?_, by simp, hz1, ?_, List.Pairwise.nil⟩
          · unfold parseLoop
            simp only [hst, hstep]
          · intro w hw; exact absurd hw (List.not_mem_nil _)



theorem pairwise_trichotomy {α : Type} {R : α → α → Prop} :
    ∀ (l : List α), l.Pairwise R → ∀ a ∈ l, ∀ b ∈ l, a = b ∨ R a b ∨ R b a := by
  intro l
  induction l with
  | nil => intro _ a ha; exact absurd ha (List.not_mem_nil _)
  | cons x l ih =>
    intro hp a ha b hb
    obtain ⟨hx, hl⟩ := List.pairwise_cons.mp hp
    rcases List.mem_cons.mp ha with ha1 | ha1
    · rcases List.mem_cons.mp hb with hb1 | hb1
      · exact Or.inl (ha1.trans hb1.symm)
      · exact Or.inr (Or.inl (ha1 ▸ hx b hb1))
    · rcases List.mem_cons.mp hb with hb1 | hb1
      · exact Or.inr (Or.inr (hb1 ▸ hx a ha1))
      · exact ih hl a ha1 b hb1

/-- Two buffers of one length that agree on the range of a slice give the slice the same
bytes. -/
theorem bytes_eq_of_getD (A B : List Nat) (s : Slice) (hlen : A.length = B.length)
    (h : ∀ i, s.ptr ≤ i → i < s.ptr + s.size → A.getD i 0 = B.getD i 0) :
    s.bytes A = s.bytes B := by
  unfold Slice.bytes
  apply List.ext_getElem?
  intro j
  rw [List.getElem?_take, List.getElem?_take]
  by_cases hj : j < s.size
  · rw [if_pos hj, if_pos hj, List.getElem?_drop, List.getElem?_drop]
    have hg := h (s.ptr + j) (by omega) (by omega)
    rw [List.getD_eq_getElem?_getD, List.getD_eq_getElem?_getD] at hg
    by_cases hl : s.ptr + j < A.length
    · have hl2 : s.ptr + j < B.length := by omega
      rw [List.getElem?_eq_getElem hl, List.getElem?_eq_getElem hl2] at hg ⊢
      simp only [Option.getD_some] at hg
      rw [hg]
    · have hl2 : ¬ s.ptr + j < B.length := by omega
      rw [List.getElem?_eq_none (not_lt.mp hl), List.getElem?_eq_none (not_lt.mp hl2)]
  · rw [if_neg hj, if_neg hj]



/-! ## Copy constructors and assignment -/

/-- The copy of the object of a table is the object of the same entries (as offsets) and
the same bytes, wherever the two buffers lie. -/
theorem copy_toObject (t : CFG) (otherData data : Int) :
    Object.copy (t.toObject otherData) data =
      (CFG.mk t.entries t.storage true).toObject data := by
  unfold Object.copy CFG.toObject
  simp only [List.map_map, Object.mk.injEq, true_and, and_true]
  apply List.map_congr_left
  intro e _
  simp only [Function.comp, Prod.mk.injEq]
  constructor <;> omega

theorem toCFG_toObject (t : CFG) (data : Int) : (t.toObject data).toCFG = t := by
  unfold Object.toCFG CFG.toObject
  cases t with
  | mk entries storage valid =>
    simp only [List.map_map, CFG.mk.injEq, and_true]
    conv_rhs => rw [← List.map_id entries]
    apply List.map_congr_left
    intro e _
    simp only [Function.comp, id]
    have h1 : (data + (e.1 : Int) - data).toNat = e.1 := by
      have : data + (e.1 : Int) - data = (e.1 : Int) := by omega
      rw [this]; rfl
    have h2 : (data + (e.2 : Int) - data).toNat = e.2 := by
      have : data + (e.2 : Int) - data = (e.2 : Int) := by omega
      rw [this]; rfl
    rw [h1, h2]

/-- C21: for every object `other` of class `CFG` and every address `data` of the buffer
of the copy, the copy constructor gives an object whose storage equals the storage of
`other`, with as many entries, the i-th key and value at the same offset from the start
of its own storage as the i-th key and value of `other`, hence with the same key and
value strings; and when the pointers of `other` point into its storage and the two
buffers do not overlap, no pointer of the copy points into the storage of `other`. -/
theorem copy_keeps_bytes_and_offsets (other : Object) (data : Int) :
    (Object.copy other data).storage = other.storage ∧
    (Object.copy other data).data = data ∧
    (Object.copy other data).entries.length = other.entries.length ∧
    (∀ (i : Nat) (h : i < other.entries.length)
        (h2 : i < (Object.copy other data).entries.length),
      ((Object.copy other data).entries.get ⟨i, h2⟩).1 - data =
          (other.entries.get ⟨i, h⟩).1 - other.data ∧
        ((Object.copy other data).entries.get ⟨i, h2⟩).2 - data =
          (other.entries.get ⟨i, h⟩).2 - other.data) ∧
    (Object.copy other data).toCFG.entries = other.toCFG.entries ∧
    (Object.copy other data).toCFG.strings = other.toCFG.strings ∧
    ((∀ e ∈ other.entries,
        (other.data ≤ e.1 ∧ e.1 < other.data + other.storage.length) ∧
        (other.data ≤ e.2 ∧ e.2 < other.data + other.storage.length)) →
      (data + other.storage.length ≤ other.data ∨
        other.data + other.storage.length ≤ data) →
      ∀ e ∈ (Object.copy other data).entries,
        ((data ≤ e.1 ∧ e.1 < data + (Object.copy other data).storage.length) ∧
          (data ≤ e.2 ∧ e.2 < data + (Object.copy other data).storage.length)) ∧
        ¬ (other.data ≤ e.1 ∧ e.1 < other.data + other.storage.length) ∧
        ¬ (other.data ≤ e.2 ∧ e.2 < other.data + other.storage.length)) := by
  have hent : (Object.copy other data).toCFG.entries = other.toCFG.entries := by
    unfold Object.copy Object.toCFG
    simp only [List.map_map]
    apply List.map_congr_left
    intro e _
    simp only [Function.comp, Prod.mk.injEq]
    constructor
    · congr 1; omega
    · congr 1; omega
  refine ⟨rfl, rfl, by simp [Object.copy], ?_, hent, ?_, ?_⟩
  · intro i h h2
    simp only [Object.copy, List.get_eq_getElem, List.getElem_map]
    constructor <;> omega
  · unfold CFG.strings
    rw [hent]
    rfl
  · intro hin hdisj e he
    simp only [Object.copy, List.mem_map] at he
    obtain ⟨e0, he0, rfl⟩ := he
    obtain ⟨⟨h1, h2⟩, h3, h4⟩ := hin e0 he0
    simp only [Object.copy]
    refine ⟨⟨⟨by omega, by omega⟩, by omega, by omega⟩, ?_, ?_⟩
    · intro hc; omega
    · intro hc; omega

/-- C21, at the table of the file `a=1`, LF, its buffer at address 1000 and the buffer of
the copy at address 2000: the copy has the bytes `a`, NUL, `1`, NUL, NUL, its key at
address 2000 and its value at address 2002, and neither points into the five bytes at
1000. -/
theorem copy_keeps_bytes_and_offsets_witness :
    CFG.load [97, 61, 49, 10] = some ⟨[(0, 2)], [97, 0, 49, 0, 0], true⟩ ∧
    Object.copy ((CFG.mk [(0, 2)] [97, 0, 49, 0, 0] true).toObject 1000) 2000 =
      ⟨2000, [97, 0, 49, 0, 0], [(2000, 2002)], true⟩ ∧
    (Object.copy ((CFG.mk [(0, 2)] [97, 0, 49, 0, 0] true).toObject 1000) 2000).toCFG.strings
      = [([97], [49])] ∧
    ∀ e ∈ (Object.copy ((CFG.mk [(0, 2)] [97, 0, 49, 0, 0] true).toObject 1000) 2000).entries,
      ((2000 ≤ e.1 ∧ e.1 < 2000 + (Object.copy ((CFG.mk [(0, 2)] [97, 0, 49, 0, 0]
          true).toObject 1000) 2000).storage.length) ∧
        (2000 ≤ e.2 ∧ e.2 < 2000 + (Object.copy ((CFG.mk [(0, 2)] [97, 0, 49, 0, 0]
          true).toObject 1000) 2000).storage.length)) ∧
      ¬ (((CFG.mk [(0, 2)] [97, 0, 49, 0, 0] true).toObject 1000).data ≤ e.1 ∧
        e.1 < ((CFG.mk [(0, 2)] [97, 0, 49, 0, 0] true).toObject 1000).data +
          ((CFG.mk [(0, 2)] [97, 0, 49, 0, 0] true).toObject 1000).storage.length) ∧
      ¬ (((CFG.mk [(0, 2)] [97, 0, 49, 0, 0] true).toObject 1000).data ≤ e.2 ∧
        e.2 < ((CFG.mk [(0, 2)] [97, 0, 49, 0, 0] true).toObject 1000).data +
          ((CFG.mk [(0, 2)] [97, 0, 49, 0, 0] true).toObject 1000).storage.length) :=
  ⟨by decide, by decide, by decide,
    (copy_keeps_bytes_and_offsets ((CFG.mk [(0, 2)] [97, 0, 49, 0, 0] true).toObject 1000)
      2000).2.2.2.2.2.2 (by decide) (by decide)⟩

/-- C27 (the code departs from it): the copy constructor of `cfg4-cstrings.h` fills the
copy of the value from `entry.first`, the key.  For the table of the file `a=b` the copy
has the entry (`a`, `a`), not (`a`, `b`); for the table of the file `k=vv` the second
`memcpy` reads three bytes from the block of two bytes that holds `k`.  The number of
entries, their order and the key strings are copied. -/
theorem copy_takes_value_bytes_from_key :
    (∃ t c, Cfg4.CFG.load [97, 61, 98] = some t ∧ t.strings = [([97], [98])] ∧
      Cfg4.CFG.copy t = .ok c ∧ c.strings = [([97], [97])] ∧
      c.entries.length = t.entries.length) ∧
    (∃ t, Cfg4.CFG.load [107, 61, 118, 118] = some t ∧
      t.strings = [([107], [118, 118])] ∧ t.heap = [[107, 0], [118, 118, 0]] ∧
      Cfg4.memcpyFrom [107, 0] 3 = .error Fault.outOfBounds ∧
      Cfg4.CFG.copy t = .error Fault.outOfBounds) :=
  ⟨⟨⟨[[97, 0], [98, 0]], [(0, 1)], true⟩, ⟨[[97, 0], [97, 0]], [(0, 1)], true⟩,
      by decide, by decide, by decide, by decide, by decide⟩,
    ⟨⟨[[107, 0], [118, 118, 0]], [(0, 1)], true⟩, by decide, by decide, by decide, by decide,
      by decide⟩⟩

/-- C28 (the code departs from it): the copy constructors of `cfg5-noalloc.h` and of
`cfg4-cstrings.h` do not copy `valid`, which keeps the value `true` of its default
member initializer: every copy is Valid, also the copy of a table that is not Valid (the
default-constructed table, the table of the file `x`, a line without separator), and so
is the result of the assignment from a table that is not a temporary.  The assignment
from a temporary, through the move constructor, keeps the flag. -/
theorem copy_of_invalid_table_is_valid :
    (∀ other data, (Object.copy other data).valid = true) ∧
    (∀ self t data, (Object.assign self t data).valid = true) ∧
    (∀ self tmp, (Object.assignMove self tmp).valid = tmp.valid) ∧
    (∀ t c, Cfg4.CFG.copy t = .ok c → c.valid = true) ∧
    (∀ self t r, Cfg4.CFG.assign self t = .ok r → r.valid = true) ∧
    (Object.default.valid = false ∧ (Object.copy Object.default 0).valid = true ∧
      (Object.copy Object.default 0).toCFG.is_valid = true) ∧
    (∃ t, CFG.ofFile (some [120]) = some t ∧ t.is_valid = false ∧
      (Object.copy (t.toObject 1000) 2000).toCFG.is_valid = true ∧
      (Object.assign Object.default (t.toObject 1000) 2000).toCFG.is_valid = true) ∧
    (Cfg4.CFG.default.is_valid = false ∧
      Cfg4.CFG.copy Cfg4.CFG.default = .ok ⟨[], [], true⟩ ∧
      Cfg4.CFG.assign Cfg4.CFG.default Cfg4.CFG.default = .ok ⟨[], [], true⟩) := by
  refine ⟨fun _ _ => rfl, fun _ _ _ => rfl, fun _ _ => rfl, ?_, ?_, by decide,
    ⟨⟨[], [120, 0], false⟩, by decide, by decide, by decide, by decide⟩, by decide⟩
  · intro t c h
    unfold Cfg4.CFG.copy at h
    split at h
    · exact Except.noConfusion h
    · simp only [Except.ok.injEq] at h
      rw [← h]
  · intro self t r h
    unfold Cfg4.CFG.assign at h
    split at h
    · exact Except.noConfusion h
    · rename_i other hc
      simp only [Except.ok.injEq] at h
      rw [← h]
      simp only [Cfg4.CFG.swap]
      unfold Cfg4.CFG.copy at hc
      split at hc
      · exact Except.noConfusion hc
      · simp only [Except.ok.injEq] at hc
        rw [← hc]



/-! ## The lookup table and the two `trim` functions -/

theorem cfg3_spaces_contains (c : Nat) : Cfg3.SPACES.contains c = spacesLookup c := by
  rw [spacesLookup_eq]
  simp only [Cfg3.SPACES, Spec.isSpaceTab, List.contains, List.elem]
  cases (c == 32) <;> cases (c == 9) <;> rfl

theorem cfg3_trimFront_eq (mem : List Nat) :
    ∀ n ptr, Cfg3.trimFront mem ptr n = trimFront mem ptr n := by
  intro n
  induction n with
  | zero => intro ptr; rfl
  | succ n ih =>
    intro ptr
    unfold Cfg3.trimFront trimFront
    rw [cfg3_spaces_contains, ih]

theorem cfg3_trimBack_eq (mem : List Nat) (ptr : Nat) :
    ∀ n, Cfg3.trimBack mem ptr n = trimBack mem ptr n := by
  intro n
  induction n with
  | zero => rfl
  | succ n ih =>
    unfold Cfg3.trimBack trimBack
    rw [cfg3_spaces_contains, ih]

/-- The `trim` of `cfg3-slices.h` and the `trim` of `cfg5-noalloc.h` with the table read
at the value of the byte return the same slice. -/
theorem cfg3_trim_eq_trim (mem : List Nat) (s : Slice) : Cfg3.trim mem s = trim mem s := by
  unfold Cfg3.trim trim
  simp only [cfg3_trimFront_eq, cfg3_trimBack_eq]

theorem spacesLookup_true_iff (b : Nat) : spacesLookup b = true ↔ b = 9 ∨ b = 32 := by
  rw [spacesLookup_eq]
  simp only [Spec.isSpaceTab, Bool.or_eq_true, beq_iff_eq]
  tauto

/-- C25 (the code departs from it where plain `char` is signed): the table has 256
elements and element `b` is true iff `b` is 9 or 32, and on every buffer whose bytes
index inside the table the table-driven `trim` returns the slice that the
`SPACES.find`-driven `trim` of `cfg3-slices.h` returns.  But the table is indexed with a
plain `char`: for the slice that views the single byte 195 the `trim` of
`cfg3-slices.h` returns the slice unchanged, and the table-driven `trim` reads
`SPACES_LOOKUP[-61]`, outside the table. -/
theorem table_trim_departs_from_find_trim_for_high_byte :
    SPACES_LOOKUP.length = 256 ∧
    (∀ b : Nat, b < 256 →
      spacesLookupAt (b : Int) = .ok (decide (b = 9 ∨ b = 32)) ∧
      Cfg3.SPACES.contains b = decide (b = 9 ∨ b = 32)) ∧
    (∀ signedChar mem s, (∀ b ∈ mem, b < charBound signedChar) →
      PlainChar.trim signedChar mem s = .ok (Cfg3.trim mem s)) ∧
    Cfg3.trim [195] ⟨0, 1⟩ = ⟨0, 1⟩ ∧
    PlainChar.trim false [195] ⟨0, 1⟩ = .ok ⟨0, 1⟩ ∧
    charIndex true 195 = -61 ∧
    PlainChar.trim true [195] ⟨0, 1⟩ = .error Fault.outOfBounds := by
  refine ⟨by rw [SPACES_LOOKUP, List.length_append, List.length_replicate]; rfl, ?_, ?_,
    by decide, by decide, by decide, by decide⟩
  · intro b hb
    have h1 : spacesLookup b = decide (b = 9 ∨ b = 32) := by
      rw [Bool.eq_iff_iff, spacesLookup_true_iff]
      simp
    refine ⟨?_, ?_⟩
    · unfold spacesLookupAt
      have hc : (0 : Int) ≤ (b : Int) ∧ (b : Int) < 256 := ⟨Int.ofNat_nonneg b, by omega⟩
      rw [if_pos hc]
      have : SPACES_LOOKUP.getD (b : Int).toNat false = spacesLookup b := by
        simp [spacesLookup]
      rw [this, h1]
    · rw [cfg3_spaces_contains, h1]
  · intro sc mem s hb
    rw [plainChar_trim_eq_trim sc mem hb, cfg3_trim_eq_trim]



/-- C22: for every file content without zero bytes the constructor builds a table, and
every entry of it (of a Valid table in particular) has a key and a value with no space or
tab as first or last byte and with no `;`, `#`, CR or LF byte, and a key with no `=`.
Whenever the constructor with the index type of the source builds a table from the
content, it is this table. -/
theorem entries_are_trimmed_and_clean (content : List Nat) (h0 : ∀ c ∈ content, c ≠ 0) :
    ∃ t, CFG.ofFile (some content) = some t ∧
      (∀ kv ∈ t.strings,
        (∀ x, kv.1.head? = some x → Spec.isSpaceTab x = false) ∧
        (∀ x, kv.1.getLast? = some x → Spec.isSpaceTab x = false) ∧
        (∀ x, kv.2.head? = some x → Spec.isSpaceTab x = false) ∧
        (∀ x, kv.2.getLast? = some x → Spec.isSpaceTab x = false) ∧
        (∀ x ∈ kv.1 ++ kv.2, x ∉ [59, 35, 13, 10]) ∧
        61 ∉ kv.1) ∧
      (∀ signedChar t2, (∀ b ∈ content, b < 256) →
        PlainChar.ofFile signedChar (some content) = some (.ok t2) → t2 = t) := by
  obtain ⟨t, hload, hperm, _, _, _⟩ := load_spec content
  rw [takeWhile_ne_zero_of_no_zero content h0] at hperm
  refine ⟨t, hload, ?_, ?_⟩
  · intro kv hkv
    have hm := hperm.mem_iff.mp hkv
    obtain ⟨l, hl, rfl⟩ := List.mem_map.mp hm
    exact pairOf_entryLine content l ((List.takeWhile_sublist _).subset hl)
  · intro sc t2 hb h2
    have h3 := plainChar_ofFile_ok sc content hb t2 h2
    have h4 : CFG.ofFile (some content) = some t := hload
    rw [h4] at h3
    exact (Option.some.inj h3).symm

/-- C22, at the content `  k  =  v w  # c`, LF, `a=`: the entries are (`a`, empty) and
(`k`, `v w`). -/
theorem entries_are_trimmed_and_clean_witness :
    CFG.ofFile (some [32, 32, 107, 32, 32, 61, 32, 32, 118, 32, 119, 32, 32, 35, 32, 99, 10,
        97, 61]) =
      some ⟨[(17, 19), (2, 8)],
        [32, 32, 107, 0, 32, 61, 32, 32, 118, 32, 119, 0, 32, 35, 32, 99, 0, 97, 0, 0],
        true⟩ ∧
    (CFG.mk [(17, 19), (2, 8)]
      [32, 32, 107, 0, 32, 61, 32, 32, 118, 32, 119, 0, 32, 35, 32, 99, 0, 97, 0, 0]
      true).strings = [([97], []), ([107], [118, 32, 119])] ∧
    ∃ t, CFG.ofFile (some [32, 32, 107, 32, 32, 61, 32, 32, 118, 32, 119, 32, 32, 35, 32, 99,
        10, 97, 61]) = some t ∧
      (∀ kv ∈ t.strings,
        (∀ x, kv.1.head? = some x → Spec.isSpaceTab x = false) ∧
        (∀ x, kv.1.getLast? = some x → Spec.isSpaceTab x = false) ∧
        (∀ x, kv.2.head? = some x → Spec.isSpaceTab x = false) ∧
        (∀ x, kv.2.getLast? = some x → Spec.isSpaceTab x = false) ∧
        (∀ x ∈ kv.1 ++ kv.2, x ∉ [59, 35, 13, 10]) ∧
        61 ∉ kv.1) ∧
      (∀ signedChar t2, (∀ b ∈ [32, 32, 107, 32, 32, 61, 32, 32, 118, 32, 119, 32, 32, 35, 32,
          99, 10, 97, 61], b < 256) →
        PlainChar.ofFile signedChar (some [32, 32, 107, 32, 32, 61, 32, 32, 118, 32, 119, 32,
          32, 35, 32, 99, 10, 97, 61]) = some (.ok t2) → t2 = t) :=
  ⟨by decide, by decide,
    entries_are_trimmed_and_clean [32, 32, 107, 32, 32, 61, 32, 32, 118, 32, 119, 32, 32, 35,
      32, 99, 10, 97, 61] (by decide)⟩



/-- In a Valid table of `cfg2-nomap.h` or `cfg3-slices.h` whose keys ascend strictly,
`find` of the key of the `i`-th entry returns the index `i`. -/
theorem cfg2_find_of_entry (t : Cfg2.CFG) (hv : t.valid = true)
    (hs : (t.entries.map Prod.fst).Sorted lexLt) (i : Nat) (h : i < t.entries.length) :
    t.find (t.entries.get ⟨i, h⟩).1 = .ok i := by
  unfold Cfg2.CFG.find
  simp only [hv, Bool.not_true, Bool.false_eq_true, if_false]
  rw [std_lower_bound_of_sorted _ hs i h]
  have hg : t.entries.get? i = some (t.entries.get ⟨i, h⟩) := List.get?_eq_get h
  rw [hg]
  simp

/-- C23: for every file content the constructor of `cfg3-slices.h` builds a table, and
when the table is Valid, `size()` is the number of entries that iteration from `begin()`
to `end()` visits, and for the key of the `i`-th entry visited `find` returns the iterator
to that entry (index `i`, the entry with that key and its value), which is not `end()`. -/
theorem iterated_keys_are_found (content : List Nat) :
    ∃ t, Cfg3.CFG.load content = some t ∧
      (t.is_valid = true →
        t.size = .ok (t.entries.map Prod.fst).length ∧
        t.end_ = .ok t.entries.length ∧
        ∀ (i : Nat) (h : i < t.entries.length),
          t.find (t.entries.get ⟨i, h⟩).1 = .ok i ∧ i ≠ t.entries.length ∧
          t.entries.get? i = some (t.entries.get ⟨i, h⟩)) := by
  obtain ⟨r, hr⟩ := cfg3_parseLines_isSome (getlines content) []
  obtain ⟨pushed, ok⟩ := r
  cases ok with
  | false =>
    refine ⟨⟨pushed, false⟩, ?_, ?_⟩
    · unfold Cfg3.CFG.load
      rw [hr]
    · intro hv
      exact absurd hv (by simp [Cfg2.CFG.is_valid])
  | true =>
    refine ⟨Cfg2.finish pushed, ?_, ?_⟩
    · unfold Cfg3.CFG.load
      rw [hr]
    · intro hv
      have hv2 : (Cfg2.finish pushed).valid = true := hv
      have hsorted := (cfg2_finish_spec pushed).2.2 hv2
      refine ⟨by simp [Cfg2.CFG.size, hv2], by simp [Cfg2.CFG.end_, hv2], ?_⟩
      intro i h
      exact ⟨cfg2_find_of_entry _ hv2 hsorted i h, Nat.ne_of_lt h, List.get?_eq_get h⟩

/-- C23, at the content `b=2`, LF, `a=1`, LF: iteration visits (`a`, `1`), (`b`, `2`),
`find("a")` returns index 0 and `find("b")` index 1, `end()` is index 2. -/
theorem iterated_keys_are_found_witness :
    Cfg3.CFG.load [98, 61, 50, 10, 97, 61, 49, 10] =
      some ⟨[([97], [49]), ([98], [50])], true⟩ ∧
    (Cfg2.CFG.mk [([97], [49]), ([98], [50])] true).find [97] = .ok 0 ∧
    (Cfg2.CFG.mk [([97], [49]), ([98], [50])] true).find [98] = .ok 1 ∧
    ∃ t, Cfg3.CFG.load [98, 61, 50, 10, 97, 61, 49, 10] = some t ∧
      (t.is_valid = true →
        t.size = .ok (t.entries.map Prod.fst).length ∧
        t.end_ = .ok t.entries.length ∧
        ∀ (i : Nat) (h : i < t.entries.length),
          t.find (t.entries.get ⟨i, h⟩).1 = .ok i ∧ i ≠ t.entries.length ∧
          t.entries.get? i = some (t.entries.get ⟨i, h⟩)) :=
  ⟨by decide, by decide, by decide,
    iterated_keys_are_found [98, 61, 50, 10, 97, 61, 49, 10]⟩



/-- C29: for two file contents without zero bytes of which one has the lines of the other
in another order (the lines being the pieces between CR and LF bytes), the constructor
gives two tables with the same `is_valid()`, and when they are Valid with the same
sequence of (key, value) pairs.  Whenever the constructor with the index type of the
source builds a table from one of the contents, it is the table spoken of. -/
theorem line_order_does_not_matter (c1 c2 : List Nat) (h1 : ∀ b ∈ c1, b ≠ 0)
    (h2 : ∀ b ∈ c2, b ≠ 0) (hp : (Spec.lines c2).Perm (Spec.lines c1)) :
    ∃ t1 t2, CFG.ofFile (some c1) = some t1 ∧ CFG.ofFile (some c2) = some t2 ∧
      t1.is_valid = t2.is_valid ∧
      (t1.is_valid = true → t1.strings = t2.strings) ∧
      (∀ signedChar t, (∀ b ∈ c1, b < 256) →
        PlainChar.ofFile signedChar (some c1) = some (.ok t) → t = t1) ∧
      (∀ signedChar t, (∀ b ∈ c2, b < 256) →
        PlainChar.ofFile signedChar (some c2) = some (.ok t) → t = t2) := by
  obtain ⟨t1, hl1, hv1, hs1⟩ := load_spec_strings c1
  obtain ⟨t2, hl2, hv2, hs2⟩ := load_spec_strings c2
  rw [takeWhile_ne_zero_of_no_zero c1 h1] at hv1 hs1
  rw [takeWhile_ne_zero_of_no_zero c2 h2] at hv2 hs2
  have hE := entryLines_perm c1 c2 hp
  have hall : (Spec.entryLines c2).all Spec.hasSeparator =
      (Spec.entryLines c1).all Spec.hasSeparator := all_eq_of_perm _ _ _ hE
  have hnd : ((Spec.entryLines c2).map Spec.keyOf).Nodup ↔
      ((Spec.entryLines c1).map Spec.keyOf).Nodup := (hE.map _).nodup_iff
  have hvalid : t1.valid = t2.valid := by
    rw [hv1, hv2, hall]
    congr 1
    exact decide_eq_decide.mpr hnd.symm
  refine ⟨t1, t2, hl1, hl2, hvalid, ?_, ?_, ?_⟩
  · intro hv
    have hv' : t1.valid = true := hv
    rw [hv1, Bool.and_eq_true, decide_eq_true_eq] at hv'
    rw [hs1, hs2, hall, hv'.1]
    simp only [if_true]
    apply insertionSort_perm_unique
    · exact (hE.map _).symm
    · rw [List.map_map]
      exact hv'.2
  · intro sc t hb ht
    have h3 := plainChar_ofFile_ok sc c1 hb t ht
    have h4 : CFG.ofFile (some c1) = some t1 := hl1
    rw [h4] at h3
    exact (Option.some.inj h3).symm
  · intro sc t hb ht
    have h3 := plainChar_ofFile_ok sc c2 hb t ht
    have h4 : CFG.ofFile (some c2) = some t2 := hl2
    rw [h4] at h3
    exact (Option.some.inj h3).symm

/-- C29, at the contents `b=2`, LF, `a=1`, LF, `c=3` and `c=3`, LF, `b=2`, LF, `a=1`:
both give the Valid table (`a`, `1`), (`b`, `2`), (`c`, `3`). -/
theorem line_order_does_not_matter_witness :
    Spec.lines [98, 61, 50, 10, 97, 61, 49, 10, 99, 61, 51] =
      [[98, 61, 50], [97, 61, 49], [99, 61, 51]] ∧
    Spec.lines [99, 61, 51, 10, 98, 61, 50, 10, 97, 61, 49] =
      [[99, 61, 51], [98, 61, 50], [97, 61, 49]] ∧
    ∃ t1 t2, CFG.ofFile (some [98, 61, 50, 10, 97, 61, 49, 10, 99, 61, 51]) = some t1 ∧
      CFG.ofFile (some [99, 61, 51, 10, 98, 61, 50, 10, 97, 61, 49]) = some t2 ∧
      t1.is_valid = t2.is_valid ∧
      (t1.is_valid = true → t1.strings = t2.strings) ∧
      (∀ signedChar t, (∀ b ∈ [98, 61, 50, 10, 97, 61, 49, 10, 99, 61, 51], b < 256) →
        PlainChar.ofFile signedChar (some [98, 61, 50, 10, 97, 61, 49, 10, 99, 61, 51]) =
          some (.ok t) → t = t1) ∧
      (∀ signedChar t, (∀ b ∈ [99, 61, 51, 10, 98, 61, 50, 10, 97, 61, 49], b < 256) →
        PlainChar.ofFile signedChar (some [99, 61, 51, 10, 98, 61, 50, 10, 97, 61, 49]) =
          some (.ok t) → t = t2) :=
  ⟨by decide, by decide,
    line_order_does_not_matter [98, 61, 50, 10, 97, 61, 49, 10, 99, 61, 51]
      [99, 61, 51, 10, 98, 61, 50, 10, 97, 61, 49] (by decide) (by decide) (by decide)⟩



/-- C26: for every file content, the constructor of `cfg.h` (a `std::map`) and the
constructor of `cfg2-nomap.h` (a sorted vector) give the same `is_valid()`, and when the
tables are Valid the same `size()` and the same sequence of (key, value) pairs on
iteration. -/
theorem map_and_vector_parsers_agree (content : List Nat) :
    (Cfg1.CFG.load content).is_valid = (Cfg2.CFG.load content).is_valid ∧
    ((Cfg1.CFG.load content).is_valid = true →
      (Cfg1.CFG.load content).size = (Cfg2.CFG.load content).size ∧
      (Cfg1.CFG.load content).entries = (Cfg2.CFG.load content).entries) := by
  obtain ⟨hval, hent⟩ := cfg1_parseLines_spec (getlines content) [] (by simp)
  simp only [List.insertionSort] at hval hent
  have h2 : (Cfg2.CFG.load content).valid =
        ((Cfg2.parseLines (getlines content) []).2 &&
          decide ((Cfg2.parseLines (getlines content) []).1.map Prod.fst).Nodup) ∧
      ((Cfg2.parseLines (getlines content) []).2 = true →
        (Cfg2.CFG.load content).entries =
          (Cfg2.parseLines (getlines content) []).1.insertionSort keyLE) := by
    unfold Cfg2.CFG.load
    rcases hp : Cfg2.parseLines (getlines content) [] with ⟨pushed, ok⟩
    cases ok with
    | false => simp
    | true =>
      simp only [Bool.true_and, forall_const]
      obtain ⟨he, hv, _⟩ := cfg2_finish_spec pushed
      refine ⟨?_, he⟩
      rw [Bool.eq_iff_iff, hv]
      simp
  have hv : (Cfg1.CFG.load content).valid = (Cfg2.CFG.load content).valid := by
    rw [h2.1]
    exact hval
  refine ⟨hv, ?_⟩
  intro hvalid
  have hv1 : (Cfg1.CFG.load content).valid = true := hvalid
  have hok : (Cfg2.parseLines (getlines content) []).2 = true := by
    have h3 : (Cfg1.parseLines (getlines content) []).valid = true := hv1
    rw [hval, Bool.and_eq_true] at h3
    exact h3.1
  have he : (Cfg1.CFG.load content).entries = (Cfg2.CFG.load content).entries := by
    rw [h2.2 hok]
    exact hent hv1
  refine ⟨?_, he⟩
  unfold Cfg1.CFG.size Cfg2.CFG.size
  rw [← hv, he]

/-- C26, at the content `b = 2`, LF, `a = 1`, LF, and at the content `a=1`, LF, `a=2`, LF,
`x`, where the map parser stops at the second line and the vector parser at the third. -/
theorem map_and_vector_parsers_agree_witness :
    Cfg1.CFG.load [98, 32, 61, 32, 50, 10, 97, 32, 61, 32, 49, 10] =
      ⟨[([97], [49]), ([98], [50])], true⟩ ∧
    Cfg2.CFG.load [98, 32, 61, 32, 50, 10, 97, 32, 61, 32, 49, 10] =
      ⟨[([97], [49]), ([98], [50])], true⟩ ∧
    Cfg1.CFG.load [97, 61, 49, 10, 97, 61, 50, 10, 120] = ⟨[([97], [49])], false⟩ ∧
    Cfg2.CFG.load [97, 61, 49, 10, 97, 61, 50, 10, 120] =
      ⟨[([97], [49]), ([97], [50])], false⟩ ∧
    (Cfg1.CFG.load [97, 61, 49, 10, 97, 61, 50, 10, 120]).is_valid =
      (Cfg2.CFG.load [97, 61, 49, 10, 97, 61, 50, 10, 120]).is_valid :=
  ⟨by decide, by decide, by decide, by decide,
    (map_and_vector_parsers_agree [97, 61, 49, 10, 97, 61, 50, 10, 120]).1⟩



/-- C24: for every file content without zero bytes the constructor builds a table whose
entries are the pointers of the slices of the passes of the tokenizing loop that pushed
an entry, and for every such pass: the two writes `key[key_slice.size()] = 0` and
`value[val_slice.size()] = 0` are inside the buffer; the key's terminator is at or before
the first `=` of the line and the value's terminator at or before the end of the line;
no byte before the line or from the end of the line on (the lines not yet tokenized)
changes; no write of any pass lands on a byte of the key slice or of the value slice of
any pass; and the C string read from each stored pointer in the final buffer is the
bytes of the trimmed slice, as they stand in the file.  Whenever the constructor with
the index type of the source builds a table from the content, it is this table. -/
theorem terminator_writes_are_safe (content : List Nat) (h0 : ∀ c ∈ content, c ≠ 0) :
    ∃ t, CFG.ofFile (some content) = some t ∧
      t.entries.Perm ((parseTrace ((content ++ [0]).length + 1) (content ++ [0]) 0).map
        (fun w => (w.key_slice.ptr, w.val_slice.ptr))) ∧
      t.storage.length = (content ++ [0]).length ∧
      (∀ w ∈ parseTrace ((content ++ [0]).length + 1) (content ++ [0]) 0,
        w.before.length = (content ++ [0]).length ∧
        (∃ lineEnd eqpos, Spec.WritesSafe w lineEnd eqpos) ∧
        cstr t.storage w.key_slice.ptr = w.key_slice.bytes (content ++ [0]) ∧
        cstr t.storage w.val_slice.ptr = w.val_slice.bytes (content ++ [0]) ∧
        w.key_slice.bytes w.before = w.key_slice.bytes (content ++ [0]) ∧
        w.val_slice.bytes w.before = w.val_slice.bytes (content ++ [0])) ∧
      (∀ w ∈ parseTrace ((content ++ [0]).length + 1) (content ++ [0]) 0,
        ∀ e ∈ parseTrace ((content ++ [0]).length + 1) (content ++ [0]) 0,
        ∀ i, (e.key_slice.ptr ≤ i ∧ i < e.key_slice.end_) ∨
            (e.val_slice.ptr ≤ i ∧ i < e.val_slice.end_) →
          i ≠ w.key_slice.end_ ∧ i ≠ w.val_slice.end_) ∧
      (∀ signedChar t2, (∀ b ∈ content, b < 256) →
        PlainChar.ofFile signedChar (some content) = some (.ok t2) → t2 = t) := by
  obtain ⟨P, hP, hent, hz, hall, hpw⟩ :=
    parseTrace_spec ((content ++ [0]).length + 1) (content ++ [0]) 0 [] content []
      rfl h0 (by simp only [List.length_append, List.length_singleton]; omega)
  simp only [List.nil_append] at hent
  -- the table
  have hload : ∃ t, CFG.load content = some t ∧ t.storage = P.storage ∧
      t.entries.Perm P.entries := by
    unfold CFG.load
    simp only [hP]
    split
    · exact ⟨_, rfl, rfl, List.Perm.refl _⟩
    · split
      · exact ⟨_, rfl, rfl, by unfold std_sort; exact List.perm_insertionSort _ _⟩
      · exact ⟨_, rfl, rfl, by unfold std_sort; exact List.perm_insertionSort _ _⟩
  obtain ⟨t, ht, hst, hperm⟩ := hload
  have hbytes : ∀ w ∈ parseTrace ((content ++ [0]).length + 1) (content ++ [0]) 0,
      w.key_slice.bytes w.before = w.key_slice.bytes (content ++ [0]) ∧
      w.val_slice.bytes w.before = w.val_slice.bytes (content ++ [0]) := by
    intro w hw
    obtain ⟨_, _, a3, ⟨lineEnd, eqpos, hsafe⟩, _, _⟩ := hall w hw
    obtain ⟨_, _, _, hnz, _, _, _, c1, c2, c3, c4, _, _⟩ := hsafe
    simp only [Slice.end_] at c2 c4
    constructor
    · apply bytes_eq_of_getD _ _ _ a3.1
      intro i hi1 hi2
      exact (getD_eq_of_zeroedFrom a3 i (hnz i (by omega) (by omega))).symm
    · apply bytes_eq_of_getD _ _ _ a3.1
      intro i hi1 hi2
      exact (getD_eq_of_zeroedFrom a3 i (hnz i (by omega) (by omega))).symm
  refine ⟨t, ht, ?_, ?_, ?_, ?_, ?_⟩
  · rw [← hent]; exact hperm
  · rw [hst]; exact hz.1
  · intro w hw
    obtain ⟨_, _, a3, a4, a5, a6⟩ := hall w hw
    obtain ⟨b1, b2⟩ := hbytes w hw
    refine ⟨a3.1, a4, ?_, ?_, b1, b2⟩
    · rw [hst, a5, b1]
    · rw [hst, a6, b2]
  · intro w hw e he i hi
    obtain ⟨_, _, _, ⟨lw, qw, hsw⟩, _, _⟩ := hall w hw
    obtain ⟨_, _, _, ⟨le, qe, hse⟩, _, _⟩ := hall e he
    obtain ⟨_, _, _, _, _, _, _, w1, w2, w3, w4, _, _⟩ := hsw
    obtain ⟨_, _, _, _, _, _, _, e1, e2, e3, e4, _, _⟩ := hse
    simp only [Slice.end_] at w2 w4 e2 e4 hi ⊢
    rcases pairwise_trichotomy _ hpw w hw e he with heq | hlt | hlt
    · subst heq
      rcases hi with hi | hi <;> constructor <;> omega
    · simp only [Slice.end_] at hlt
      rcases hi with hi | hi <;> constructor <;> omega
    · simp only [Slice.end_] at hlt
      rcases hi with hi | hi <;> constructor <;> omega
  · intro sc t2 hb h2
    have h3 := plainChar_ofFile_ok sc content hb t2 h2
    have h4 : CFG.ofFile (some content) = some t := ht
    rw [h4] at h3
    exact (Option.some.inj h3).symm

/-- C24, at the content `k = v`, LF, `a=`: the pass for `k = v` writes at offsets 1 and 5
(the space after `k`, the LF), the pass for `a=` at offsets 7 (the `=`) and 8 (the final
zero byte). -/
theorem terminator_writes_are_safe_witness :
    parseTrace (([107, 32, 61, 32, 118, 10, 97, 61] ++ [0]).length + 1)
        ([107, 32, 61, 32, 118, 10, 97, 61] ++ [0]) 0 =
      [⟨0, [107, 32, 61, 32, 118, 0, 97, 61, 0], ⟨0, 1⟩, ⟨4, 1⟩,
          [107, 0, 61, 32, 118, 0, 97, 61, 0], 6⟩,
        ⟨6, [107, 0, 61, 32, 118, 0, 97, 61, 0], ⟨6, 1⟩, ⟨8, 0⟩,
          [107, 0, 61, 32, 118, 0, 97, 0, 0], 8⟩] ∧
    ∃ t, CFG.ofFile (some [107, 32, 61, 32, 118, 10, 97, 61]) = some t ∧
      t.entries.Perm ((parseTrace (([107, 32, 61, 32, 118, 10, 97, 61] ++ [0]).length + 1)
        ([107, 32, 61, 32, 118, 10, 97, 61] ++ [0]) 0).map
        (fun w => (w.key_slice.ptr, w.val_slice.ptr))) ∧
      t.storage.length = ([107, 32, 61, 32, 118, 10, 97, 61] ++ [0]).length ∧
      (∀ w ∈ parseTrace (([107, 32, 61, 32, 118, 10, 97, 61] ++ [0]).length + 1)
          ([107, 32, 61, 32, 118, 10, 97, 61] ++ [0]) 0,
        ∃ lineEnd eqpos, Spec.WritesSafe w lineEnd eqpos) := by
  obtain ⟨t, h1, h2, h3, h4, _, _⟩ :=
    terminator_writes_are_safe [107, 32, 61, 32, 118, 10, 97, 61] (by decide)
  exact ⟨by decide, t, h1, h2, h3, fun w hw => (h4 w hw).2.1⟩

